import Mathlib

/-!
# Lightscan execution engine (`src/lightscan/engine.cpp`)

A shallow embedding of the work plan, the four pipeline stages and the
distribution coordinator of `run_job`, followed by the properties proved
about them.

Conventions of the embedding.

* Frame counts, frame indices, byte offsets and sizes are natural numbers.
  The source holds them in `int`, `int32_t`, `int64_t` and `size_t`; where a
  computation of the source can leave the range of its machine type the
  reduction modulo `2 ^ 64` (or `2 ^ 32`) is written out.
* `work_item_index` is an `Int`, because the value `-1` is the sentinel.
* A `std::vector` is a `List`; `push_back` appends at the end.
* A loop of the source that is not bounded by its own header is given a fuel
  argument and returns `none` when the fuel runs out.
-/

namespace Lightscan

/-! ## Data model -/

/-- Modelled from the spec: `DatasetItemMetadata` is declared in a header that is
not part of the sources; the fields are the ones `engine.cpp` reads. -/
structure DatasetItemMetadata where
  frames : Nat
  width : Nat
  height : Nat
  keyframe_positions : List Nat
  keyframe_byte_offsets : List Nat
deriving DecidableEq, Repr

/-- The `VideoWorkItem` filled in by the work-plan loop of `run_job`. -/
structure VideoWorkItem where
  video_index : Nat
  start_frame : Nat
  end_frame : Nat
deriving DecidableEq, Repr

/-- The map `job_descriptor.intervals` from a video path to its vector of
`(start_frame, end_frame)` tuples.  A path that was never touched reads as the
empty vector, which is what `operator[]` creates on first access. -/
abbrev IntervalMap := String → List (Nat × Nat)

/-- The statement `work_intervals.emplace_back(start, end)` on the vector
`job_descriptor.intervals[path]`. -/
def IntervalMap.emplace_back (m : IntervalMap) (path : String) (iv : Nat × Nat) :
    IntervalMap :=
  fun q => if q = path then m q ++ [iv] else m q

/-- The variables written by the work-plan loop of `run_job`:
`work_items`, `job_descriptor.intervals` and the `uint32_t total_frames`. -/
structure PlanState where
  work_items : List VideoWorkItem
  intervals : IntervalMap
  total_frames : Nat

/-- The state before the work-plan loop: both containers empty, the counter 0. -/
def PlanState.init : PlanState :=
  { work_items := [], intervals := fun _ => [], total_frames := 0 }

/-! ## Work plan (`run_job`, lines 702-731) -/

/-- The inner loop `while (allocated_frames < meta.frames)` for video `i`.
Every iteration pushes one item on `work_items` and one tuple on the interval
vector of `path`.  `none` when the fuel runs out before the loop exits. -/
def allocate_video (W i : Nat) (path : String) (frames : Nat) :
    Nat → Nat → PlanState → Option PlanState
  | 0, _, _ => none
  | fuel + 1, allocated_frames, st =>
    if allocated_frames < frames then
      let frames_to_allocate := min W (frames - allocated_frames)
      let item : VideoWorkItem :=
        { video_index := i
          start_frame := allocated_frames
          end_frame := allocated_frames + frames_to_allocate }
      allocate_video W i path frames fuel (allocated_frames + frames_to_allocate)
        { st with
          work_items := st.work_items ++ [item]
          intervals := st.intervals.emplace_back path (item.start_frame, item.end_frame) }
    else
      some st

/-- The outer loop `for (size_t i = 0; i < video_paths.size(); ++i)`.  The list
pairs `video_paths[i]` with `video_metadata[i]`; `fuel` bounds each run of the
inner loop. -/
def work_plan_loop (W fuel : Nat) :
    List (String × DatasetItemMetadata) → Nat → PlanState → Option PlanState
  | [], _, st => some st
  | (path, md) :: rest, i, st =>
    match allocate_video W i path md.frames fuel 0 st with
    | none => none
    | some st1 =>
      work_plan_loop W fuel rest (i + 1)
        { st1 with total_frames := (st1.total_frames + md.frames) % 2 ^ 32 }

/-- The work plan that `run_job` builds for a dataset. -/
def run_job_work_plan (W fuel : Nat) (videos : List (String × DatasetItemMetadata)) :
    Option PlanState :=
  work_plan_loop W fuel videos 0 PlanState.init

/-- The `(start_frame, end_frame)` pairs of a list of work items. -/
def frame_pairs (items : List VideoWorkItem) : List (Nat × Nat) :=
  items.map fun it => (it.start_frame, it.end_frame)

/-- The pairs that the inner loop generates for one video of `frames` frames,
started on the empty plan. -/
def generated_pairs (W frames fuel : Nat) : Option (List (Nat × Nat)) :=
  (allocate_video W 0 "" frames fuel 0 PlanState.init).map fun st =>
    frame_pairs st.work_items

/-- The closed form of the work plan of one video: chunk `k` is
`(k * W, min ((k + 1) * W) f)` for `k < ceil (f / W)`. -/
def expected_pairs (W f : Nat) : List (Nat × Nat) :=
  (List.range ((f + W - 1) / W)).map fun k => (k * W, min ((k + 1) * W) f)

/-- An interval list partitions `[0, frames)` into consecutive non-empty pieces
of length at most `W`. -/
def PartitionsFrames (W frames : Nat) (l : List (Nat × Nat)) : Prop :=
  (∀ p ∈ l.head?, p.1 = 0) ∧
  List.Chain' (fun p q => p.2 = q.1) l ∧
  (∀ p ∈ l.getLast?, p.2 = frames) ∧
  (∀ p ∈ l, p.1 < p.2 ∧ p.2 - p.1 ≤ W) ∧
  (l.map fun p => p.2 - p.1).sum = frames ∧
  (frames = 0 → l = [])

/-- Work item `it` covers frame `x` of video `v`. -/
def covers (v x : Nat) (it : VideoWorkItem) : Bool :=
  it.video_index = v && it.start_frame ≤ x && x < it.end_frame

/-- The order of the work plan: by video, then by start frame. -/
def plan_lt (a b : VideoWorkItem) : Prop :=
  a.video_index < b.video_index ∨
    (a.video_index = b.video_index ∧ a.start_frame < b.start_frame)

/-! ### Auxiliary view of the work plan as pure lists -/

/-- The pairs produced by the inner loop from `allocated_frames = a`, without
the containers. -/
def chunks (W frames : Nat) : Nat → Nat → Option (List (Nat × Nat))
  | 0, _ => none
  | fuel + 1, a =>
    if a < frames then
      (chunks W frames fuel (a + min W (frames - a))).map fun l =>
        (a, a + min W (frames - a)) :: l
    else
      some []

/-- The plan state after the pairs `l` of video `i` were pushed. -/
def PlanState.push_pairs (st : PlanState) (i : Nat) (path : String)
    (l : List (Nat × Nat)) : PlanState :=
  { st with
    work_items := st.work_items ++ l.map fun p => ⟨i, p.1, p.2⟩
    intervals := fun q => if q = path then st.intervals q ++ l else st.intervals q }

/-- The items of the whole plan, video by video. -/
def plan_items (W fuel : Nat) :
    List (String × DatasetItemMetadata) → Nat → Option (List VideoWorkItem)
  | [], _ => some []
  | (_, md) :: rest, i =>
    match chunks W md.frames fuel 0, plan_items W fuel rest (i + 1) with
    | some l, some r => some ((l.map fun p => ⟨i, p.1, p.2⟩) ++ r)
    | _, _ => none

/-! ## Queue entries -/

/-- The `LoadWorkEntry` of the load queue; `work_item_index = -1` is the sentinel. -/
structure LoadWorkEntry where
  work_item_index : Int
deriving DecidableEq, Repr

/-- The `DecodeWorkEntry` pushed by the load stage.  `buffer` holds the bytes
read from the video file. -/
structure DecodeWorkEntry where
  work_item_index : Int
  start_keyframe : Nat
  end_keyframe : Nat
  encoded_data_size : Nat
  buffer : List Nat
deriving DecidableEq, Repr

/-- The ways a stage stops the process instead of pushing an entry: one
constructor for each `assert` of the stage bodies, and one for an access outside
a vector or through a null file pointer, which the source does not check. -/
inductive Abort where
  | assert_start_keyframe_index
  | assert_end_keyframe_index
  | assert_size_read
  | assert_result
  | assert_frames_buffer_offset
  | out_of_range
deriving DecidableEq, Repr

/-! ## Storage backend -/

/-- Modelled from the spec: the result kinds of the storage backend (section 6),
whose declaration is outside the sources. -/
inductive StoreResult where
  | Success
  | EndOfFile
  | TransientFailure
  | FatalFailure
deriving DecidableEq, Repr

/-- What a read leaves behind once `EXP_BACKOFF` hands control back: the
terminal `result`, the `size_read` out-parameter and the bytes put in the buffer. -/
structure ReadOutcome where
  result : StoreResult
  size_read : Nat
  data : List Nat
deriving DecidableEq, Repr

/-- Modelled from the spec: a `RandomReadFile` of the storage backend, given by
its size (`get_size`) and by the outcome of `read(offset, size, ...)` under
`EXP_BACKOFF`. -/
structure RandomReadFile where
  size : Nat
  read : Nat → Nat → ReadOutcome

/-! ## Load stage (`load_video_thread`, lines 107-203) -/

/-- The constant `std::numeric_limits<size_t>::max()`. -/
def SIZE_MAX : Nat := 2 ^ 64 - 1

/-- The first search loop (lines 154-160): `for (size_t i = 1; i < size; ++i)`,
leaving `i - 1` for the first `i` with `keyframe_positions[i] > start_frame`
and `SIZE_MAX` when there is none.  `n` counts the iterations still possible;
the call passes the size of the vector. -/
def find_start_keyframe_index (keyframe_positions : List Nat) (start_frame : Nat) :
    Nat → Nat → Nat
  | 0, _ => SIZE_MAX
  | n + 1, i =>
    if i < keyframe_positions.length then
      if keyframe_positions.getD i 0 > start_frame then i - 1
      else find_start_keyframe_index keyframe_positions start_frame n (i + 1)
    else SIZE_MAX

/-- The second search loop (lines 165-171):
`for (size_t i = start_keyframe_index; i < size; ++i)`, leaving the first `i`
with `keyframe_positions[i] >= end_frame` and `0` when there is none. -/
def find_end_keyframe_index (keyframe_positions : List Nat) (end_frame : Nat) :
    Nat → Nat → Nat
  | 0, _ => 0
  | n + 1, i =>
    if i < keyframe_positions.length then
      if keyframe_positions.getD i 0 ≥ end_frame then i
      else find_end_keyframe_index keyframe_positions end_frame n (i + 1)
    else 0

/-- The body of the load loop for one work item (lines 142-202), once the item,
its metadata and the file pointer are known.  The two vectors are the
metadata's with the virtual keyframe `(frames, file_size)` appended; `data_size`
is the `size_t` difference of the two byte offsets.  An offset vector shorter
than the position vector is read as 0 where the source reads past its end, and a
read through the null `video_file` stops the process. -/
def load_work_item (work_item : VideoWorkItem) (metadata : DatasetItemMetadata)
    (file_size : Nat) (video_file : Option RandomReadFile) (work_item_index : Int) :
    Except Abort DecodeWorkEntry :=
  let keyframe_positions := metadata.keyframe_positions ++ [metadata.frames]
  let keyframe_byte_offsets := metadata.keyframe_byte_offsets ++ [file_size]
  let start_keyframe_index :=
    find_start_keyframe_index keyframe_positions work_item.start_frame
      keyframe_positions.length 1
  if start_keyframe_index = SIZE_MAX then .error .assert_start_keyframe_index
  else
    let start_keyframe_byte_offset := keyframe_byte_offsets.getD start_keyframe_index 0
    let end_keyframe_index :=
      find_end_keyframe_index keyframe_positions work_item.end_frame
        keyframe_positions.length start_keyframe_index
    if end_keyframe_index = 0 then .error .assert_end_keyframe_index
    else
      let end_keyframe_byte_offset := keyframe_byte_offsets.getD end_keyframe_index 0
      let data_size :=
        (end_keyframe_byte_offset + 2 ^ 64 - start_keyframe_byte_offset) % 2 ^ 64
      match video_file with
      | none => .error .out_of_range
      | some file =>
        let out := file.read start_keyframe_byte_offset data_size
        if out.size_read ≠ data_size then .error .assert_size_read
        else if out.result ≠ .Success ∧ out.result ≠ .EndOfFile then .error .assert_result
        else
          .ok
            { work_item_index := work_item_index
              start_keyframe := keyframe_positions.getD start_keyframe_index 0
              end_keyframe := keyframe_positions.getD end_keyframe_index 0
              encoded_data_size := data_size
              buffer := out.data }

/-- The position vector the load stage searches: the metadata's keyframe
positions followed by the virtual keyframe `frames` (line 145). -/
def extended_positions (metadata : DatasetItemMetadata) : List Nat :=
  metadata.keyframe_positions ++ [metadata.frames]

/-- The offset vector the load stage reads: the metadata's keyframe byte offsets
followed by `file_size` (line 146). -/
def extended_offsets (metadata : DatasetItemMetadata) (file_size : Nat) : List Nat :=
  metadata.keyframe_byte_offsets ++ [file_size]

/-- The value of `start_keyframe_index` after the first search loop. -/
def start_keyframe_index_of (work_item : VideoWorkItem) (metadata : DatasetItemMetadata) :
    Nat :=
  find_start_keyframe_index (extended_positions metadata) work_item.start_frame
    (extended_positions metadata).length 1

/-- The value of `end_keyframe_index` after the second search loop. -/
def end_keyframe_index_of (work_item : VideoWorkItem) (metadata : DatasetItemMetadata) :
    Nat :=
  find_end_keyframe_index (extended_positions metadata) work_item.end_frame
    (extended_positions metadata).length (start_keyframe_index_of work_item metadata)

/-- The value of `data_size` (line 176), a `size_t` difference. -/
def data_size_of (work_item : VideoWorkItem) (metadata : DatasetItemMetadata)
    (file_size : Nat) : Nat :=
  ((extended_offsets metadata file_size).getD (end_keyframe_index_of work_item metadata) 0
      + 2 ^ 64
      - (extended_offsets metadata file_size).getD
          (start_keyframe_index_of work_item metadata) 0) % 2 ^ 64

/-- The outcome of the read issued by the load stage for a work item (line 185). -/
def read_outcome_of (work_item : VideoWorkItem) (metadata : DatasetItemMetadata)
    (file_size : Nat) (video_file : RandomReadFile) : ReadOutcome :=
  video_file.read
    ((extended_offsets metadata file_size).getD (start_keyframe_index_of work_item metadata) 0)
    (data_size_of work_item metadata file_size)

/-! ## The worker loop shared by the four stages -/

/-- Why a worker stopped: it popped a sentinel and left its loop, a `pop` found
its queue empty (the thread blocks), the process was stopped by an assertion,
or the stage body did not return. -/
inductive Stop where
  | sentinel
  | blocked
  | aborted (a : Abort)
  | diverged
deriving DecidableEq, Repr

/-- The trace of a worker over a queue content: the entries whose body ran to
its end, the entries pushed downstream, what is left in the queue, and why the
worker stopped. -/
structure WorkerRun (σ In Out : Type) where
  state : σ
  processed : List In
  pushed : List Out
  remaining : List In
  stop : Stop

/-- The loop `while (true) { pop(entry); if (entry.work_item_index == -1) break;
body }` of every stage thread, run on the content of its input queue.  The body
returns the entries it pushes, or the reason the thread goes no further. -/
def worker_loop {σ In Out : Type} (is_sentinel : In → Bool)
    (body : σ → In → Except Stop (σ × List Out)) : σ → List In → WorkerRun σ In Out
  | st, [] => { state := st, processed := [], pushed := [], remaining := [], stop := .blocked }
  | st, e :: q =>
    if is_sentinel e then
      { state := st, processed := [], pushed := [], remaining := q, stop := .sentinel }
    else
      match body st e with
      | .error why =>
        { state := st, processed := [], pushed := [], remaining := q, stop := why }
      | .ok (st1, out) =>
        let r := worker_loop is_sentinel body st1 q
        { r with processed := e :: r.processed, pushed := out ++ r.pushed }

/-- The bodies of a list of entries run one after the other, without the loop:
the pushed entries of each, or the first reason to stop. -/
def run_bodies {σ In Out : Type} (body : σ → In → Except Stop (σ × List Out)) :
    σ → List In → Except Stop (σ × List (List Out))
  | st, [] => .ok (st, [])
  | st, e :: q =>
    match body st e with
    | .error why => .error why
    | .ok (st1, out) =>
      match run_bodies body st1 q with
      | .error why => .error why
      | .ok (st2, outs) => .ok (st2, out :: outs)

/-- The element `v[k]` of a vector indexed by an `int`; `none` outside the
vector, where the source has no defined behaviour. -/
def index_int {α : Type} (v : List α) (k : Int) : Option α :=
  if k < 0 then none else v[k.toNat]?

/-! ## Load thread -/

/-- The arguments of a load thread that its loop reads.  `storage` stands for
`make_random_read_file` applied to the data path of a video. -/
structure LoadThreadArgs where
  video_paths : List String
  metadata : List DatasetItemMetadata
  work_items : List VideoWorkItem
  storage : String → RandomReadFile

/-- The locals of `load_video_thread` that live across iterations. -/
structure LoadThreadState where
  last_video_path : String
  video_file : Option RandomReadFile
  file_size : Nat

/-- The locals before the first iteration: empty path, null file pointer; the
uninitialised `file_size` is given the value 0. -/
def LoadThreadState.init : LoadThreadState :=
  { last_video_path := "", video_file := none, file_size := 0 }

/-- Lines 127-140: reopen the file when the path differs from the last one. -/
def load_open (args : LoadThreadArgs) (st : LoadThreadState) (video_path : String) :
    LoadThreadState :=
  if video_path ≠ st.last_video_path then
    { last_video_path := video_path
      video_file := some (args.storage video_path)
      file_size := (args.storage video_path).size }
  else
    { st with last_video_path := video_path }

/-- One iteration of the load loop after the sentinel test (lines 117-202). -/
def load_body (args : LoadThreadArgs) (st : LoadThreadState) (entry : LoadWorkEntry) :
    Except Stop (LoadThreadState × List DecodeWorkEntry) :=
  match index_int args.work_items entry.work_item_index with
  | none => .error (.aborted .out_of_range)
  | some work_item =>
    match args.video_paths[work_item.video_index]?, args.metadata[work_item.video_index]? with
    | some video_path, some metadata =>
      let st1 := load_open args st video_path
      match load_work_item work_item metadata st1.file_size st1.video_file
          entry.work_item_index with
      | .error a => .error (.aborted a)
      | .ok decode_work_entry => .ok (st1, [decode_work_entry])
    | _, _ => .error (.aborted .out_of_range)

/-- The thread `load_video_thread` on the content of `load_work`. -/
def load_video_thread (args : LoadThreadArgs) :
    LoadThreadState → List LoadWorkEntry → WorkerRun LoadThreadState LoadWorkEntry DecodeWorkEntry :=
  worker_loop (fun e => e.work_item_index == -1) (load_body args)

/-! ## Decode stage (`decode_thread`, lines 240-331) -/

/-- The `DecodeBufferEntry` of a pool buffer: its size and its device address. -/
structure DecodeBufferEntry where
  buffer_size : Nat
  buffer : Nat
deriving DecidableEq, Repr

/-- The `EvalWorkEntry` pushed by the decode stage. -/
structure EvalWorkEntry where
  work_item_index : Int
  decoded_frames_size : Nat
  buffer : Nat
deriving DecidableEq, Repr

/-- Modelled from the spec: the size `av_image_get_buffer_size(AV_PIX_FMT_NV12,
width, height, 1)` of one NV12 frame, a full-resolution Y plane followed by an
interleaved half-resolution UV plane.  The function belongs to an external
library. -/
def nv12_frame_size (width height : Nat) : Nat :=
  width * height + 2 * ((width + 1) / 2) * ((height + 1) / 2)

/-- Modelled from the spec: the `VideoDecoder` of section 4.4, an external class,
as the FIFO of the decoded frames it holds, oldest first.  A frame is named by a
number. -/
structure VideoDecoder where
  buffered : List Nat
deriving DecidableEq, Repr

/-- Modelled from the spec: `feed(packet, size, discontinuity)`.  The frames the
call makes available are given from outside; a discontinuity flushes the
decoder first; the result tells whether frames are available. -/
def VideoDecoder.feed (dec : VideoDecoder) (new_frames : List Nat) (discontinuity : Bool) :
    VideoDecoder × Bool :=
  let q := (if discontinuity then [] else dec.buffered) ++ new_frames
  ({ buffered := q }, !q.isEmpty)

/-- Modelled from the spec: `get_frame(dst, size)` hands out the oldest frame and
tells whether more frames remain after it. -/
def VideoDecoder.get_frame (dec : VideoDecoder) : VideoDecoder × Option Nat × Bool :=
  ({ buffered := dec.buffered.tail }, dec.buffered.head?, !dec.buffered.tail.isEmpty)

/-- Modelled from the spec: `discard_frame()` drops the oldest frame and tells
whether more frames remain. -/
def VideoDecoder.discard_frame (dec : VideoDecoder) : VideoDecoder × Bool :=
  ({ buffered := dec.buffered.tail }, !dec.buffered.tail.isEmpty)

/-- Modelled from the spec: `decoded_frames_buffered()`. -/
def VideoDecoder.decoded_frames_buffered (dec : VideoDecoder) : Nat :=
  dec.buffered.length

/-- A call made on the decoder by the feed loop: `feed` with the packet handed
over (`none` for the null pointer), `get_frame` with the value of
`current_frame`, the destination offset and the frame copied, and
`discard_frame` with the value of `current_frame`. -/
inductive DecoderCall where
  | feed (packet : Option (List Nat)) (size : Int) (discontinuity : Bool)
  | get_frame (current_frame : Nat) (frames_buffer_offset : Nat) (frame : Option Nat)
  | discard_frame (current_frame : Nat)
deriving DecidableEq, Repr

/-- The `int` stored in four bytes at `offset` (little endian, two's
complement); a byte past the end of the buffer reads as 0. -/
def read_int (buffer : List Nat) (offset : Nat) : Int :=
  let u := buffer.getD offset 0 % 256 + 256 * (buffer.getD (offset + 1) 0 % 256)
    + 65536 * (buffer.getD (offset + 2) 0 % 256)
    + 16777216 * (buffer.getD (offset + 3) 0 % 256)
  if u < 2 ^ 31 then (u : Int) else (u : Int) - 2 ^ 32

/-- Lines 280-288: the packet handed to the next `feed`.  Returns
`encoded_packet_size`, the bytes `encoded_packet` points to (`none` for
`nullptr`) and the new `encoded_buffer_offset`, a `size_t`. -/
def next_packet (encoded_buffer : List Nat) (encoded_buffer_size encoded_buffer_offset : Nat) :
    Int × Option (List Nat) × Nat :=
  if encoded_buffer_offset < encoded_buffer_size then
    let encoded_packet_size := read_int encoded_buffer encoded_buffer_offset
    let offset1 := (encoded_buffer_offset + 4) % 2 ^ 64
    let encoded_packet := (encoded_buffer.drop offset1).take encoded_packet_size.toNat
    (encoded_packet_size, some encoded_packet,
      (((offset1 : Int) + encoded_packet_size) % 2 ^ 64).toNat)
  else
    (0, none, encoded_buffer_offset)

/-- The variables of the inner loop `while (more_frames && current_frame < end_frame)`. -/
structure FrameLoopState where
  decoder : VideoDecoder
  current_frame : Nat
  more_frames : Bool
  calls : List DecoderCall
deriving DecidableEq, Repr

/-- The inner loop (lines 293-307).  A frame at or after `start_frame` is
copied to `frame_size * (current_frame - start_frame)` after the assertion on
that offset; an earlier frame is discarded.  `n` bounds the iterations. -/
def frame_loop (work_item : VideoWorkItem) (frame_size decoded_buffer_size : Nat) :
    Nat → FrameLoopState → Except Stop FrameLoopState
  | 0, s =>
    if s.more_frames ∧ s.current_frame < work_item.end_frame then .error .diverged
    else .ok s
  | n + 1, s =>
    if s.more_frames ∧ s.current_frame < work_item.end_frame then
      if s.current_frame ≥ work_item.start_frame then
        let frames_buffer_offset :=
          (frame_size * (s.current_frame - work_item.start_frame)) % 2 ^ 64
        if frames_buffer_offset < decoded_buffer_size then
          frame_loop work_item frame_size decoded_buffer_size n
            { decoder := s.decoder.get_frame.1
              current_frame := s.current_frame + 1
              more_frames := s.decoder.get_frame.2.2
              calls := s.calls ++
                [.get_frame s.current_frame frames_buffer_offset s.decoder.get_frame.2.1] }
        else .error (.aborted .assert_frames_buffer_offset)
      else
        frame_loop work_item frame_size decoded_buffer_size n
          { decoder := s.decoder.discard_frame.1
            current_frame := s.current_frame + 1
            more_frames := s.decoder.discard_frame.2
            calls := s.calls ++ [.discard_frame s.current_frame] }
    else .ok s

/-- The variables of the feed loop `while (current_frame < work_item.end_frame)`. -/
structure FeedLoopState where
  decoder : VideoDecoder
  encoded_buffer_offset : Nat
  discontinuity : Bool
  current_frame : Nat
  calls : List DecoderCall
deriving DecidableEq, Repr

/-- The feed loop (lines 277-310).  The script lists, for the coming calls of
`feed`, the frames each makes available; the loop has not returned when the
script is used up.  Returns the final variables and the unused script. -/
def feed_loop (work_item : VideoWorkItem) (entry : DecodeWorkEntry)
    (frame_size decoded_buffer_size : Nat) :
    List (List Nat) → FeedLoopState → Except Stop (FeedLoopState × List (List Nat))
  | [], s =>
    if s.current_frame < work_item.end_frame then .error .diverged else .ok (s, [])
  | new_frames :: script, s =>
    if s.current_frame < work_item.end_frame then
      let packet := next_packet entry.buffer entry.encoded_data_size s.encoded_buffer_offset
      let fed := s.decoder.feed new_frames s.discontinuity
      let calls1 := s.calls ++ [.feed packet.2.1 packet.1 s.discontinuity]
      if fed.2 then
        match frame_loop work_item frame_size decoded_buffer_size
            (work_item.end_frame - s.current_frame)
            { decoder := fed.1, current_frame := s.current_frame, more_frames := true,
              calls := calls1 } with
        | .error why => .error why
        | .ok f =>
          feed_loop work_item entry frame_size decoded_buffer_size script
            { decoder := f.decoder, encoded_buffer_offset := packet.2.2,
              discontinuity := false, current_frame := f.current_frame, calls := f.calls }
      else
        feed_loop work_item entry frame_size decoded_buffer_size script
          { decoder := fed.1, encoded_buffer_offset := packet.2.2, discontinuity := false,
            current_frame := s.current_frame, calls := calls1 }
    else .ok (s, new_frames :: script)

/-- The loop `while (decoder.discard_frame()) {}` of line 315; returns the
decoder and the number of calls.  `n` bounds the calls. -/
def drain_loop : Nat → VideoDecoder → Option (VideoDecoder × Nat)
  | 0, _ => none
  | n + 1, dec =>
    if dec.discard_frame.2 then
      (drain_loop n dec.discard_frame.1).map fun r => (r.1, r.2 + 1)
    else some (dec.discard_frame.1, 1)

/-- What the decode body leaves behind for one work entry. -/
structure DecodeResult where
  decoder : VideoDecoder
  script : List (List Nat)
  current_frame : Nat
  calls : List DecoderCall
  drain_calls : Nat
  eval_work_entry : EvalWorkEntry
deriving DecidableEq, Repr

/-- The body of the decode loop for one work entry (lines 257-330), once the
work item, the frame size and the pool buffer are known: the feed loop from
`current_frame = start_keyframe` with `discontinuity = true`, the final drain,
and the `EvalWorkEntry` that is pushed. -/
def decode_work_item (work_item : VideoWorkItem) (entry : DecodeWorkEntry) (frame_size : Nat)
    (decode_buffer_entry : DecodeBufferEntry) (decoder : VideoDecoder)
    (script : List (List Nat)) : Except Stop DecodeResult :=
  match feed_loop work_item entry frame_size decode_buffer_entry.buffer_size script
      { decoder := decoder, encoded_buffer_offset := 0, discontinuity := true,
        current_frame := entry.start_keyframe, calls := [] } with
  | .error why => .error why
  | .ok (s, rest) =>
    let drained :=
      if s.decoder.decoded_frames_buffered > 0 then
        drain_loop s.decoder.decoded_frames_buffered s.decoder
      else some (s.decoder, 0)
    match drained with
    | none => .error .diverged
    | some (dec, k) =>
      .ok
        { decoder := dec
          script := rest
          current_frame := s.current_frame
          calls := s.calls
          drain_calls := k
          eval_work_entry :=
            { work_item_index := entry.work_item_index
              decoded_frames_size := decode_buffer_entry.buffer_size
              buffer := decode_buffer_entry.buffer } }

/-- The arguments of a decode thread that its loop reads. -/
structure DecodeThreadArgs where
  metadata : List DatasetItemMetadata
  work_items : List VideoWorkItem

/-- The decoder of the thread, the frames its coming `feed` calls will make
available, and the content of `empty_decode_buffers` as this thread finds it. -/
structure DecodeThreadState where
  decoder : VideoDecoder
  script : List (List Nat)
  empty_decode_buffers : List DecodeBufferEntry
deriving DecidableEq, Repr

/-- One iteration of the decode loop after the sentinel test (lines 250-330):
pop a pool buffer, decode the item, push the `EvalWorkEntry`. -/
def decode_body (args : DecodeThreadArgs) (st : DecodeThreadState) (entry : DecodeWorkEntry) :
    Except Stop (DecodeThreadState × List EvalWorkEntry) :=
  match st.empty_decode_buffers with
  | [] => .error .blocked
  | decode_buffer_entry :: buffers =>
    match index_int args.work_items entry.work_item_index with
    | none => .error (.aborted .out_of_range)
    | some work_item =>
      match args.metadata[work_item.video_index]? with
      | none => .error (.aborted .out_of_range)
      | some metadata =>
        match decode_work_item work_item entry
            (nv12_frame_size metadata.width metadata.height) decode_buffer_entry
            st.decoder st.script with
        | .error why => .error why
        | .ok res =>
          .ok ({ decoder := res.decoder, script := res.script,
                 empty_decode_buffers := buffers }, [res.eval_work_entry])

/-- The thread `decode_thread` on the content of `decode_work`. -/
def decode_thread (args : DecodeThreadArgs) :
    DecodeThreadState → List DecodeWorkEntry →
      WorkerRun DecodeThreadState DecodeWorkEntry EvalWorkEntry :=
  worker_loop (fun e => e.work_item_index == -1) (decode_body args)

/-! ## Evaluate stage (`evaluate_thread`, lines 432-571) -/

/-- The `SaveWorkEntry` pushed by the evaluate stage.  The host block
`new char[output_buffer_size]` is represented by the number of bytes allocated
for it. -/
structure SaveWorkEntry where
  work_item_index : Int
  output_buffer_size : Nat
  buffer : Nat
deriving DecidableEq, Repr

/-- The arguments and constants the evaluate loop reads: `dim` is
`input_blob->shape(2)`, `output_count` is `output_blob->count(1)`. -/
structure EvaluateThreadArgs where
  metadata : List DatasetItemMetadata
  work_items : List VideoWorkItem
  dim : Nat
  output_count : Nat
  GLOBAL_BATCH_SIZE : Nat
  NUM_CUDA_STREAMS : Nat

/-- The frame `i` of a batch: its stream, the byte offset of its NV12 image in
the pool buffer and the float offset of its tensor in the network input. -/
structure FrameRead where
  i : Nat
  sid : Nat
  buffer_offset : Nat
  net_input_offset : Nat
deriving DecidableEq, Repr

/-- One pass of the batch loop: the batch, the frames it reads, and the byte
range of the host output buffer its `cudaMemcpy` writes. -/
structure BatchRecord where
  frame_offset : Nat
  batch_size : Nat
  frames : List FrameRead
  output_offset : Nat
  output_bytes : Nat
deriving DecidableEq, Repr

/-- The batch loop `while (current_frame < work_item.end_frame)` (lines 465-558)
with one forward pass per iteration.  `n` bounds the iterations. -/
def batch_loop (args : EvaluateThreadArgs) (work_item : VideoWorkItem)
    (frame_size output_size_per_frame : Nat) : Nat → Nat → Option (List BatchRecord)
  | 0, current_frame => if current_frame < work_item.end_frame then none else some []
  | n + 1, current_frame =>
    if current_frame < work_item.end_frame then
      let frame_offset := current_frame - work_item.start_frame
      let batch_size := min args.GLOBAL_BATCH_SIZE (work_item.end_frame - current_frame)
      let record : BatchRecord :=
        { frame_offset := frame_offset
          batch_size := batch_size
          frames := (List.range batch_size).map fun i =>
            { i := i
              sid := i % args.NUM_CUDA_STREAMS
              buffer_offset := (frame_size * (i + frame_offset)) % 2 ^ 64
              net_input_offset := i * (args.dim * args.dim * 3) }
          output_offset := (frame_offset * output_size_per_frame) % 2 ^ 64
          output_bytes := (batch_size * output_size_per_frame) % 2 ^ 64 }
      (batch_loop args work_item frame_size output_size_per_frame n
        (current_frame + batch_size)).map fun l => record :: l
    else some []

/-- What the evaluate body leaves behind for one work entry. -/
structure EvalResult where
  batches : List BatchRecord
  empty_buffer_entry : DecodeBufferEntry
  save_work_entry : SaveWorkEntry
deriving DecidableEq, Repr

/-- The value of `output_size_per_frame` (line 460): `count(1) * sizeof(float)`. -/
def output_size_per_frame_of (args : EvaluateThreadArgs) : Nat :=
  (args.output_count * 4) % 2 ^ 64

/-- The value of `output_buffer_size` (lines 461-462): the `int` difference
`end_frame - start_frame` converted to `size_t` and multiplied. -/
def output_buffer_size_of (args : EvaluateThreadArgs) (work_item : VideoWorkItem) : Nat :=
  ((work_item.end_frame + 2 ^ 64 - work_item.start_frame) % 2 ^ 64
    * output_size_per_frame_of args) % 2 ^ 64

/-- The body of the evaluate loop for one work entry (lines 446-570), once the
work item and its metadata are known: the batches, the pool buffer handed back
and the `SaveWorkEntry` pushed.  The reshape of the input blob and the image
kernels act on device memory only and are left out. -/
def evaluate_work_item (args : EvaluateThreadArgs) (work_item : VideoWorkItem)
    (metadata : DatasetItemMetadata) (work_entry : EvalWorkEntry) : Except Stop EvalResult :=
  let frame_size := nv12_frame_size metadata.width metadata.height
  let output_size_per_frame := output_size_per_frame_of args
  let output_buffer_size := output_buffer_size_of args work_item
  match batch_loop args work_item frame_size output_size_per_frame
      (work_item.end_frame - work_item.start_frame) work_item.start_frame with
  | none => .error .diverged
  | some batches =>
    .ok
      { batches := batches
        empty_buffer_entry :=
          { buffer_size := work_entry.decoded_frames_size, buffer := work_entry.buffer }
        save_work_entry :=
          { work_item_index := work_entry.work_item_index
            output_buffer_size := output_buffer_size
            buffer := output_buffer_size } }

/-- The entries this thread has pushed on `empty_decode_buffers`, oldest first. -/
structure EvaluateThreadState where
  returned_buffers : List DecodeBufferEntry
deriving DecidableEq, Repr

/-- One iteration of the evaluate loop after the sentinel test. -/
def evaluate_body (args : EvaluateThreadArgs) (st : EvaluateThreadState)
    (work_entry : EvalWorkEntry) : Except Stop (EvaluateThreadState × List SaveWorkEntry) :=
  match index_int args.work_items work_entry.work_item_index with
  | none => .error (.aborted .out_of_range)
  | some work_item =>
    match args.metadata[work_item.video_index]? with
    | none => .error (.aborted .out_of_range)
    | some metadata =>
      match evaluate_work_item args work_item metadata work_entry with
      | .error why => .error why
      | .ok res =>
        .ok ({ returned_buffers := st.returned_buffers ++ [res.empty_buffer_entry] },
          [res.save_work_entry])

/-- The thread `evaluate_thread` on the content of its `eval_work` queue. -/
def evaluate_thread (args : EvaluateThreadArgs) :
    EvaluateThreadState → List EvalWorkEntry →
      WorkerRun EvaluateThreadState EvalWorkEntry SaveWorkEntry :=
  worker_loop (fun e => e.work_item_index == -1) (evaluate_body args)

/-! ## Save stage (`save_thread`, lines 595-645) -/

/-- The key of `job_item_output_path(job_name, video_path, start_frame,
end_frame)`, a helper outside the sources: the three values it is built from. -/
abbrev OutputPath := String × Nat × Nat

/-- The arguments of a save thread.  `append_result` is the terminal result,
after `EXP_BACKOFF`, of `append(size, buffer)` on the write file of a path. -/
structure SaveThreadArgs where
  video_paths : List String
  metadata : List DatasetItemMetadata
  work_items : List VideoWorkItem
  append_result : OutputPath → Nat → StoreResult

/-- Modelled from the spec: the files committed so far through the storage
backend (section 6), each with its path and byte length.  A write file made by
`make_write_file` starts empty and an accepted `append(length, src)` adds
`length` bytes. -/
structure SaveThreadState where
  files : List (OutputPath × Nat)
deriving DecidableEq, Repr

/-- The body of the save loop for one entry (lines 615-644), once the work item
and the video path are known. -/
def save_work_item (args : SaveThreadArgs) (st : SaveThreadState) (work_item : VideoWorkItem)
    (video_path : String) (save_work_entry : SaveWorkEntry) : Except Abort SaveThreadState :=
  let output_path : OutputPath := (video_path, work_item.start_frame, work_item.end_frame)
  let result := args.append_result output_path save_work_entry.output_buffer_size
  if result ≠ .Success ∧ result ≠ .EndOfFile then .error .assert_result
  else .ok { files := st.files ++ [(output_path, save_work_entry.output_buffer_size)] }

/-- One iteration of the save loop after the sentinel test.  Nothing is pushed
downstream. -/
def save_body (args : SaveThreadArgs) (st : SaveThreadState) (save_work_entry : SaveWorkEntry) :
    Except Stop (SaveThreadState × List Empty) :=
  match index_int args.work_items save_work_entry.work_item_index with
  | none => .error (.aborted .out_of_range)
  | some work_item =>
    match args.video_paths[work_item.video_index]?, args.metadata[work_item.video_index]? with
    | some video_path, some _ =>
      match save_work_item args st work_item video_path save_work_entry with
      | .error a => .error (.aborted a)
      | .ok st1 => .ok (st1, [])
    | _, _ => .error (.aborted .out_of_range)

/-- The thread `save_thread` on the content of `save_work`. -/
def save_thread (args : SaveThreadArgs) :
    SaveThreadState → List SaveWorkEntry → WorkerRun SaveThreadState SaveWorkEntry Empty :=
  worker_loop (fun e => e.work_item_index == -1) (save_body args)

/-! ## GPU buffer pool of one GPU (`run_job` lines 757-770, `decode_thread`
lines 250-251 and 326-330, `evaluate_thread` lines 435-440 and 561-564) -/

/-- The places a pool buffer of GPU `g` can be: the queue
`empty_decode_buffers[g]`, the decode worker between its pop and its push, the
queue `eval_work[g]`, and the evaluate worker between its pop and its push. -/
structure PoolState where
  empty_decode_buffers : List DecodeBufferEntry
  decode_held : Option DecodeBufferEntry
  eval_work : List EvalWorkEntry
  eval_held : Option EvalWorkEntry
  eval_exited : Bool
deriving DecidableEq, Repr

/-- The pool after the allocation loop of `run_job`: one entry
`{frame_buffer_size, frame_buffers[i]}` per allocated buffer, nothing in flight. -/
def pool_init (frame_buffer_size : Nat) (frame_buffers : List Nat) : PoolState :=
  { empty_decode_buffers := frame_buffers.map fun b => { buffer_size := frame_buffer_size, buffer := b }
    decode_held := none
    eval_work := []
    eval_held := none
    eval_exited := false }

/-- The steps that move a pool buffer, and the sentinel `run_job` pushes on
`eval_work[g]` at shutdown (its other fields are not initialised). -/
inductive PoolAction where
  | decode_pop
  | decode_push (work_item_index : Int)
  | eval_pop
  | eval_push
  | push_sentinel (decoded_frames_size buffer : Nat)
deriving DecidableEq, Repr

/-- One step of the pool; `none` when the step cannot be taken in this state
(a pop on an empty queue blocks, a worker holds at most one buffer, the decode
worker forwards the index of a non-sentinel entry). -/
def pool_step (st : PoolState) : PoolAction → Option PoolState
  | .decode_pop =>
    match st.decode_held, st.empty_decode_buffers with
    | none, decode_buffer_entry :: rest =>
      some { st with empty_decode_buffers := rest, decode_held := some decode_buffer_entry }
    | _, _ => none
  | .decode_push work_item_index =>
    match st.decode_held with
    | some decode_buffer_entry =>
      if work_item_index = -1 then none
      else
        some { st with
          decode_held := none
          eval_work := st.eval_work ++
            [{ work_item_index := work_item_index
               decoded_frames_size := decode_buffer_entry.buffer_size
               buffer := decode_buffer_entry.buffer }] }
    | none => none
  | .eval_pop =>
    if st.eval_exited then none
    else
      match st.eval_held, st.eval_work with
      | none, work_entry :: rest =>
        if work_entry.work_item_index = -1 then
          some { st with eval_work := rest, eval_exited := true }
        else some { st with eval_work := rest, eval_held := some work_entry }
      | _, _ => none
  | .eval_push =>
    match st.eval_held with
    | some work_entry =>
      some { st with
        eval_held := none
        empty_decode_buffers := st.empty_decode_buffers ++
          [{ buffer_size := work_entry.decoded_frames_size, buffer := work_entry.buffer }] }
    | none => none
  | .push_sentinel decoded_frames_size buffer =>
    some { st with
      eval_work := st.eval_work ++
        [{ work_item_index := -1, decoded_frames_size := decoded_frames_size,
           buffer := buffer }] }

/-- The state reached by a sequence of steps, if every step can be taken. -/
def pool_run : PoolState → List PoolAction → Option PoolState
  | st, [] => some st
  | st, a :: rest =>
    match pool_step st a with
    | none => none
    | some st1 => pool_run st1 rest

/-- The pool buffer an eval entry holds. -/
def EvalWorkEntry.held_buffer (e : EvalWorkEntry) : DecodeBufferEntry :=
  { buffer_size := e.decoded_frames_size, buffer := e.buffer }

/-- The buffers held by entries of `eval_work[g]`; a sentinel holds none. -/
def queued_buffers (q : List EvalWorkEntry) : List DecodeBufferEntry :=
  (q.filter fun e => e.work_item_index ≠ -1).map EvalWorkEntry.held_buffer

/-- The buffers in flight: held by the decode worker, by an entry of
`eval_work[g]` or by the evaluate worker. -/
def in_flight (st : PoolState) : List DecodeBufferEntry :=
  st.decode_held.toList ++ queued_buffers st.eval_work ++
    st.eval_held.toList.map EvalWorkEntry.held_buffer

/-- The `(buffer, buffer_size)` pairs in circulation, as a multiset. -/
def in_circulation (st : PoolState) : Multiset DecodeBufferEntry :=
  (st.empty_decode_buffers : Multiset DecodeBufferEntry) + (in_flight st : Multiset DecodeBufferEntry)

/-! ## Distribution coordinator (`run_job`, lines 894-974) -/

/-- What the master does with a work-item index: push it on its own
`load_work`, or `MPI_Send` it to the rank whose request it received. -/
inductive Dispatch where
  | push_local (work_item_index : Int)
  | send (dest : Nat) (next_item : Int)
deriving DecidableEq, Repr

/-- The index carried by a dispatch. -/
def Dispatch.index : Dispatch → Int
  | .push_local work_item_index => work_item_index
  | .send _ next_item => next_item

/-- What one iteration of a master loop finds: the sum `local_work` of the
queue sizes and, if the iteration calls `MPI_Recv`, the rank `MPI_SOURCE` of
the request it receives (`none`: no request ever arrives, the call blocks). -/
structure Observation where
  local_work : Int
  source : Option Nat
deriving DecidableEq, Repr

/-- The outcome of the first master loop: the dispatches made, the value of
`next_work_item_to_allocate`, and the observations left when the loop exited
(`none` when it did not exit within the observations). -/
structure DistributeRun where
  events : List Dispatch
  next : Nat
  rest : Option (List Observation)
deriving DecidableEq, Repr

/-- The loop `while (next_work_item_to_allocate < work_items.size())` of the
master (lines 898-936) with `n` work items and threshold
`T = GPUS_PER_NODE * TASKS_IN_QUEUE_PER_GPU`, one observation per iteration. -/
def master_distribute (n : Nat) (T : Int) (num_nodes : Nat) :
    List Observation → Nat → DistributeRun
  | [], next =>
    if next < n then { events := [], next := next, rest := none }
    else { events := [], next := next, rest := some [] }
  | o :: obs, next =>
    if next < n then
      if o.local_work < T then
        let r := master_distribute n T num_nodes obs (next + 1)
        { r with events := .push_local next :: r.events }
      else if num_nodes > 1 then
        match o.source with
        | none => { events := [], next := next, rest := none }
        | some source =>
          let r := master_distribute n T num_nodes obs (next + 1)
          { r with events := .send source next :: r.events }
      else master_distribute n T num_nodes obs next
    else { events := [], next := next, rest := some (o :: obs) }

/-- The loop `while (workers_done < num_nodes)` of the master (lines 937-948):
every request received is answered with `-1`.  Returns the responses sent and
whether the loop exited. -/
def master_finish (num_nodes : Nat) : List Observation → Nat → List Dispatch × Bool
  | [], workers_done => ([], decide (¬ workers_done < num_nodes))
  | o :: obs, workers_done =>
    if workers_done < num_nodes then
      match o.source with
      | none => ([], false)
      | some source =>
        let r := master_finish num_nodes obs (workers_done + 1)
        (.send source (-1) :: r.1, r.2)
    else ([], true)

/-- A run of the distribution code of the master: the dispatches in order and
whether the master left the distribution code. -/
structure MasterRun where
  events : List Dispatch
  left : Bool
deriving DecidableEq, Repr

/-- The distribution code of the master (lines 894-948): the first loop, then
`workers_done = 1` and the second loop. -/
def master_loop (n : Nat) (T : Int) (num_nodes : Nat) (obs : List Observation) : MasterRun :=
  let d := master_distribute n T num_nodes obs 0
  match d.rest with
  | none => { events := d.events, left := false }
  | some rest =>
    let f := master_finish num_nodes rest 1
    { events := d.events ++ f.1, left := f.2 }

/-- What one iteration of the worker loop finds: `local_work` and, if it sends
a request, the response it receives (`none`: the response never comes). -/
structure WorkerObservation where
  local_work : Int
  response : Option Int
deriving DecidableEq, Repr

/-- A run of the worker loop: requests sent, responses received, indices pushed
on the local `load_work`, and whether the loop was left. -/
structure WorkerDistributeRun where
  requests : Nat
  received : List Int
  pushed : List Int
  left : Bool
deriving DecidableEq, Repr

/-- The loop of a worker rank (lines 951-973): below the threshold it sends a
request and receives the next index; `-1` ends the loop, any other index is
pushed on `load_work`. -/
def worker_distribute (T : Int) : List WorkerObservation → WorkerDistributeRun
  | [] => { requests := 0, received := [], pushed := [], left := false }
  | o :: obs =>
    if o.local_work < T then
      match o.response with
      | none => { requests := 1, received := [], pushed := [], left := false }
      | some next_item =>
        if next_item = -1 then
          { requests := 1, received := [next_item], pushed := [], left := true }
        else
          let r := worker_distribute T obs
          { requests := r.requests + 1, received := next_item :: r.received,
            pushed := next_item :: r.pushed, left := r.left }
    else worker_distribute T obs

/-- The responses among the dispatches: destination rank and value. -/
def sends_of (events : List Dispatch) : List (Nat × Int) :=
  events.filterMap fun e =>
    match e with
    | .send dest next_item => some (dest, next_item)
    | .push_local _ => none

/-- The requests the master answers come from workers that follow the worker
loop: every destination is a remote rank, and a rank that was sent `-1` has
left its loop and is never answered again. -/
def follows_worker_loop (num_nodes : Nat) (events : List Dispatch) : Prop :=
  (∀ p ∈ sends_of events, 1 ≤ p.1 ∧ p.1 < num_nodes) ∧
  (sends_of events).Pairwise fun a b => a.2 = -1 → b.1 ≠ a.1

/-! ## Several workers on one queue, and the shutdown of `run_job`
(lines 976-1052) -/

/-- A decoder call respects the work item: a `get_frame` is made only while
`start_frame ≤ current_frame < end_frame`. -/
def call_in_range (work_item : VideoWorkItem) : DecoderCall → Prop
  | .get_frame current_frame _ _ =>
    work_item.start_frame ≤ current_frame ∧ current_frame < work_item.end_frame
  | _ => True

/-- A call that consumes a decoded frame: `discard_frame` or `get_frame`, with
the value of `current_frame` and, for `get_frame`, the destination offset. -/
inductive FrameCall where
  | discard (current_frame : Nat)
  | get (current_frame : Nat) (frames_buffer_offset : Nat)
deriving DecidableEq, Repr

/-- The frame call behind a decoder call; a `feed` is none. -/
def DecoderCall.frame_call : DecoderCall → Option FrameCall
  | .feed _ _ _ => none
  | .get_frame current_frame frames_buffer_offset _ =>
    some (.get current_frame frames_buffer_offset)
  | .discard_frame current_frame => some (.discard current_frame)

/-- The frame calls of a trace, in order. -/
def frame_calls (calls : List DecoderCall) : List FrameCall :=
  calls.filterMap DecoderCall.frame_call

/-- The frame call the inner loop makes when `current_frame = c`. -/
def frame_call_at (work_item : VideoWorkItem) (frame_size : Nat) (c : Nat) : FrameCall :=
  if c ≥ work_item.start_frame then
    .get c ((frame_size * (c - work_item.start_frame)) % 2 ^ 64)
  else .discard c

/-- The four bytes of a length, least significant first. -/
def le32 (n : Nat) : List Nat :=
  [n % 256, n / 256 % 256, n / 65536 % 256, n / 16777216 % 256]

/-- A record of the encoded byte stream: the 4-byte length of the payload, then
the payload. -/
def encode_record (payload : List Nat) : List Nat :=
  le32 payload.length ++ payload

/-- An encoded buffer that is the concatenation of records. -/
def encode_records (records : List (List Nat)) : List Nat :=
  (records.map encode_record).flatten

/-- The sum of `4 + length` over the first `j` records. -/
def offset_sum (records : List (List Nat)) (j : Nat) : Nat :=
  ((records.take j).map fun r => 4 + r.length).sum

/-- What the `j`-th `feed` (counted from 0) is expected to receive: the payload
of record `j` with its length, and the null packet of size 0 past the last
record. -/
def expected_feed (records : List (List Nat)) (j : Nat) : Option (List Nat) × Int :=
  match records[j]? with
  | some r => (some r, (r.length : Int))
  | none => (none, 0)

/-- The argument pair `(packet, size)` of a `feed` call. -/
def DecoderCall.feed_args : DecoderCall → Option (Option (List Nat) × Int)
  | .feed packet size _ => some (packet, size)
  | _ => none

/-- The `(packet, size)` pairs of the `feed` calls of a trace, in order. -/
def feeds_of (calls : List DecoderCall) : List (Option (List Nat) × Int) :=
  calls.filterMap DecoderCall.feed_args

/-- The size of a pool buffer (`run_job`, lines 751-756): the NV12 frame size of
the first video times `frames_per_work_item()`, a `size_t` product.  There is
no value without a first video. -/
def frame_buffer_size (video_metadata : List DatasetItemMetadata) (WORK_ITEM_SIZE : Nat) :
    Option Nat :=
  video_metadata[0]?.map fun m =>
    (nv12_frame_size m.width m.height * WORK_ITEM_SIZE) % 2 ^ 64

/-- The record of one iteration of the batch loop (lines 467-557) as a function
of `frame_offset` and `batch_size`. -/
def batch_record (args : EvaluateThreadArgs) (frame_size output_size_per_frame : Nat)
    (frame_offset batch_size : Nat) : BatchRecord :=
  { frame_offset := frame_offset
    batch_size := batch_size
    frames := (List.range batch_size).map fun i =>
      { i := i
        sid := i % args.NUM_CUDA_STREAMS
        buffer_offset := (frame_size * (i + frame_offset)) % 2 ^ 64
        net_input_offset := i * (args.dim * args.dim * 3) }
    output_offset := (frame_offset * output_size_per_frame) % 2 ^ 64
    output_bytes := (batch_size * output_size_per_frame) % 2 ^ 64 }

/-- A byte of the host output buffer lies in the range a batch copies to. -/
def BatchRecord.writes (b : BatchRecord) (x : Nat) : Bool :=
  decide (b.output_offset ≤ x) && decide (x < b.output_offset + b.output_bytes)

/-- The test a dispatch went through in its iteration of the master loop: a
local push follows `local_work < T`, a send follows its failure and a request
received from the destination. -/
def Dispatch.agrees (T : Int) (o : Observation) : Dispatch → Prop
  | .push_local _ => o.local_work < T
  | .send dest _ => ¬ o.local_work < T ∧ o.source = some dest

/-- The conversion of a `size_t` sum to the `int local_work`. -/
def int_of_size (x : Nat) : Int :=
  if x % 2 ^ 32 < 2 ^ 31 then ((x % 2 ^ 32 : Nat) : Int) else ((x % 2 ^ 32 : Nat) : Int) - 2 ^ 32

/-- The sizes of `load_work`, `decode_work` and the `eval_work` queues of a
node, the coordinator's variable `local_work` from its computation to the end
of the iteration, the number of load workers between their pop (line 111) and
their push (line 202), and for each GPU whether its decode worker is between
its pop (line 244) and its push (line 330). -/
structure NodeQueues where
  load_work : Nat
  decode_work : Nat
  eval_work : List Nat
  local_work : Option Int
  load_held : Nat
  decode_held : List Bool
deriving DecidableEq, Repr

/-- The number of entries queued on the node: the sum the coordinator computes
(lines 899-902 and 952-955). -/
def NodeQueues.queued (q : NodeQueues) : Nat :=
  q.load_work + q.decode_work + q.eval_work.sum

/-- The number of entries held by load and decode workers between their pop
and their push; the coordinator's sum does not count them. -/
def NodeQueues.in_flight (q : NodeQueues) : Nat :=
  q.load_held + q.decode_held.count true

/-- The node before distribution: empty queues, one `eval_work` queue and one
decode worker per GPU, no worker holding an entry. -/
def node_init (GPUS_PER_NODE : Nat) : NodeQueues :=
  { load_work := 0, decode_work := 0, eval_work := List.replicate GPUS_PER_NODE 0,
    local_work := none, load_held := 0, decode_held := List.replicate GPUS_PER_NODE false }

/-- The steps of a node during distribution.  The coordinator computes
`local_work`, then pushes or ends the iteration without a push.  A load worker
pops an entry of `load_work` and later pushes one on `decode_work`; the decode
worker of a GPU pops an entry of `decode_work` and later pushes one on the
`eval_work` queue of its GPU; an evaluate worker pops an entry of its
`eval_work` queue (what it pushes goes to `save_work`, which is not counted). -/
inductive NodeAction where
  | observe
  | push
  | pass
  | load_pop
  | load_push
  | decode_pop (gpu : Nat)
  | decode_push (gpu : Nat)
  | evaluate_pop (gpu : Nat)
deriving DecidableEq, Repr

/-- One step.  The coordinator pushes only behind the test `local_work < T`
(lines 903-906, 956-966); ending the iteration without a push is possible
whatever it observed.  A pop needs an entry in the queue and a worker that
holds none (`LOAD_WORKERS_PER_NODE` load workers, one decode worker per GPU);
a push needs a worker that holds one.  The wait of a decode worker for a pool
buffer (line 251) and the time an evaluate worker spends on an entry do not
change the sizes counted and are not steps. -/
def node_step (T : Int) (LOAD_WORKERS_PER_NODE : Nat) (q : NodeQueues) :
    NodeAction → Option NodeQueues
  | .observe => some { q with local_work := some (int_of_size q.queued) }
  | .push =>
    match q.local_work with
    | none => none
    | some local_work =>
      if local_work < T then some { q with load_work := q.load_work + 1, local_work := none }
      else none
  | .pass => some { q with local_work := none }
  | .load_pop =>
    if 0 < q.load_work ∧ q.load_held < LOAD_WORKERS_PER_NODE then
      some { q with load_work := q.load_work - 1, load_held := q.load_held + 1 }
    else none
  | .load_push =>
    if 0 < q.load_held then
      some { q with load_held := q.load_held - 1, decode_work := q.decode_work + 1 }
    else none
  | .decode_pop gpu =>
    if 0 < q.decode_work ∧ q.decode_held[gpu]? = some false then
      some { q with decode_work := q.decode_work - 1
                    decode_held := q.decode_held.set gpu true }
    else none
  | .decode_push gpu =>
    if q.decode_held[gpu]? = some true ∧ gpu < q.eval_work.length then
      some { q with decode_held := q.decode_held.set gpu false
                    eval_work := q.eval_work.set gpu (q.eval_work.getD gpu 0 + 1) }
    else none
  | .evaluate_pop gpu =>
    if 0 < q.eval_work.getD gpu 0 then
      some { q with eval_work := q.eval_work.set gpu (q.eval_work.getD gpu 0 - 1) }
    else none

/-- A sequence of steps; `none` when a step is not possible. -/
def node_run (T : Int) (LOAD_WORKERS_PER_NODE : Nat) :
    NodeQueues → List NodeAction → Option NodeQueues
  | q, [] => some q
  | q, a :: actions =>
    match node_step T LOAD_WORKERS_PER_NODE q a with
    | none => none
    | some q1 => node_run T LOAD_WORKERS_PER_NODE q1 actions

/-- A small well-formed metadata record: 10 frames, keyframes at frames 0, 4
and 8, stored at bytes 0, 100 and 200. -/
def sample_metadata : DatasetItemMetadata :=
  { frames := 10, width := 4, height := 2
    keyframe_positions := [0, 4, 8], keyframe_byte_offsets := [0, 100, 200] }

/-- A work item on frames `[3, 9)` of video 0. -/
def sample_item : VideoWorkItem :=
  { video_index := 0, start_frame := 3, end_frame := 9 }

/-- A 300-byte file whose every read ends with the given outcome. -/
def sample_file (out : ReadOutcome) : RandomReadFile :=
  { size := 300, read := fun _ _ => out }

/-- Load arguments for the one-video dataset `"a"` with `sample_metadata` and the
single work item `sample_item`. -/
def sample_load_args (out : ReadOutcome) : LoadThreadArgs :=
  { video_paths := ["a"], metadata := [sample_metadata], work_items := [sample_item]
    storage := fun _ => sample_file out }

/-- A read that reaches the end of the file after 120 of the 300 bytes asked for. -/
def short_read : ReadOutcome :=
  { result := .EndOfFile, size_read := 120, data := List.replicate 120 0 }

/-- A read that returns all 300 bytes. -/
def full_read : ReadOutcome :=
  { result := .Success, size_read := 300, data := List.replicate 300 0 }

/-- A decode entry for `sample_item`: keyframes 0 and 10, no encoded bytes. -/
def sample_decode_entry : DecodeWorkEntry :=
  { work_item_index := 0, start_keyframe := 0, end_keyframe := 10, encoded_data_size := 0,
    buffer := [] }

/-- A pool buffer for 96 frames of 12 bytes at address 7. -/
def sample_buffer : DecodeBufferEntry :=
  { buffer_size := 12 * 96, buffer := 7 }

/-- A decoder behaviour: the first `feed` yields nothing, the second yields twelve
frames, three more than the item of `sample_decode_entry` asks for. -/
def sample_script : List (List Nat) :=
  [[], [100, 101, 102, 103, 104, 105, 106, 107, 108, 109, 110, 111]]

/-- Evaluate arguments for the sample dataset: a 227-pixel network input, 1000
output floats per frame, batches of 4 frames on 2 streams. -/
def sample_eval_args : EvaluateThreadArgs :=
  { metadata := [sample_metadata], work_items := [sample_item], dim := 227,
    output_count := 1000, GLOBAL_BATCH_SIZE := 4, NUM_CUDA_STREAMS := 2 }

/-- Save arguments for the sample dataset; every append succeeds. -/
def sample_save_args : SaveThreadArgs :=
  { video_paths := ["a"], metadata := [sample_metadata], work_items := [sample_item],
    append_result := fun _ _ => .Success }

/-- The eval entry of `sample_item` holding `sample_buffer`. -/
def sample_eval_entry : EvalWorkEntry :=
  { work_item_index := 0, decoded_frames_size := 12 * 96, buffer := 7 }

/-- A run of a two-buffer pool: the first buffer is decoded into, queued,
evaluated and handed back while the second is being decoded into; then the
sentinel is pushed. -/
def sample_pool_actions : List PoolAction :=
  [.decode_pop, .decode_push 0, .decode_pop, .eval_pop, .eval_push, .push_sentinel 0 0]

/-- A worker meets the sentinel protocol: on a queue `xs ++ [s] ++ ys` with `xs`
free of sentinels and `s` a sentinel it processes a prefix of `xs`, pushes `k`
entries for each entry processed and leaves `ys` in the queue.  When the body
of every entry of `xs` returns, it processes exactly `xs` in order, pushes what
these bodies push and nothing else, and stops at `s` with `ys` untouched.  When
the body of an entry `e` of `xs` does not return, it has processed the entries
before `e`, pushed what their bodies push, and stops at `e` for the reason the
body gives, with the sentinel still in the queue.  So it processes the whole of
`xs` exactly when every body returns. -/
def StopsAtSentinel {σ In Out : Type} (thread : σ → List In → WorkerRun σ In Out)
    (body : σ → In → Except Stop (σ × List Out)) (index : In → Int) (k : Nat) : Prop :=
  ∀ (st : σ) (xs : List In) (s : In) (ys : List In),
    (∀ x ∈ xs, index x ≠ -1) → index s = -1 →
    (∃ rest, xs = (thread st (xs ++ s :: ys)).processed ++ rest) ∧
    (∃ pre, (thread st (xs ++ s :: ys)).remaining = pre ++ ys) ∧
    (thread st (xs ++ s :: ys)).pushed.length =
      k * (thread st (xs ++ s :: ys)).processed.length ∧
    (∀ (st1 : σ) (outs : List (List Out)), run_bodies body st xs = .ok (st1, outs) →
      (thread st (xs ++ s :: ys)).processed = xs ∧
      (thread st (xs ++ s :: ys)).pushed = outs.flatten ∧
      outs.length = xs.length ∧ (∀ o ∈ outs, o.length = k) ∧
      (thread st (xs ++ s :: ys)).pushed.length = k * xs.length ∧
      (thread st (xs ++ s :: ys)).remaining = ys ∧
      (thread st (xs ++ s :: ys)).stop = .sentinel ∧
      (thread st (xs ++ s :: ys)).state = st1) ∧
    (∀ (why : Stop), run_bodies body st xs = .error why →
      ∃ (p : List In) (e : In) (rest : List In) (st1 : σ) (outs : List (List Out)),
        xs = p ++ e :: rest ∧ run_bodies body st p = .ok (st1, outs) ∧
        body st1 e = .error why ∧
        (thread st (xs ++ s :: ys)).processed = p ∧
        (thread st (xs ++ s :: ys)).pushed = outs.flatten ∧
        (thread st (xs ++ s :: ys)).remaining = rest ++ s :: ys ∧
        (thread st (xs ++ s :: ys)).stop = why ∧
        (thread st (xs ++ s :: ys)).state = st1) ∧
    ((thread st (xs ++ s :: ys)).processed = xs ↔
      ∃ st1 outs, run_bodies body st xs = .ok (st1, outs))

/-- The sentinel entry of `decode_work`. -/
def decode_sentinel : DecodeWorkEntry :=
  { work_item_index := -1, start_keyframe := 0, end_keyframe := 0, encoded_data_size := 0,
    buffer := [] }

/-- The sentinel entry of an `eval_work` queue. -/
def eval_sentinel : EvalWorkEntry :=
  { work_item_index := -1, decoded_frames_size := 0, buffer := 0 }

/-- The sentinel entry of `save_work`. -/
def save_sentinel : SaveWorkEntry :=
  { work_item_index := -1, output_buffer_size := 0, buffer := 0 }

/-- A save entry for `sample_item` with 24000 output bytes. -/
def sample_save_entry : SaveWorkEntry :=
  { work_item_index := 0, output_buffer_size := 24000, buffer := 24000 }

/-- Observations of a master with 10 work items and `T = 2` on two nodes: it
keeps items 0, 1, 4, 5, 8 for itself, hands 2, 3, 6, 7, 9 to rank 1 and then
answers the last request of rank 1. -/
def sample_observations : List Observation :=
  [⟨0, none⟩, ⟨1, none⟩, ⟨2, some 1⟩, ⟨2, some 1⟩, ⟨0, none⟩, ⟨1, none⟩, ⟨2, some 1⟩,
    ⟨3, some 1⟩, ⟨1, none⟩, ⟨2, some 1⟩, ⟨2, some 1⟩]

/-- Two records with payloads `[1, 2, 3]` and `[9]`. -/
def sample_records : List (List Nat) := [[1, 2, 3], [9]]

/-- A decode entry for `sample_item` whose buffer holds `sample_records`. -/
def sample_record_entry : DecodeWorkEntry :=
  { work_item_index := 0, start_keyframe := 0, end_keyframe := 10, encoded_data_size := 12,
    buffer := encode_records sample_records }

/-- A decode entry whose buffer is one record with the length bytes
`00 00 00 80`, that is `2 ^ 31`, followed by the given payload. -/
def long_record_entry_of (payload : List Nat) : DecodeWorkEntry :=
  { work_item_index := 0, start_keyframe := 3, end_keyframe := 10,
    encoded_data_size := 2147483652,
    buffer := [0, 0, 0, 128] ++ payload }

/-- The entry of one record with a payload of `2 ^ 31` bytes. -/
def long_record_entry : DecodeWorkEntry :=
  long_record_entry_of (List.replicate 2147483648 7)

/-- Decode arguments for the sample dataset. -/
def sample_decode_args : DecodeThreadArgs :=
  { metadata := [sample_metadata], work_items := [sample_item] }

/-- A decode thread holding a stale frame, about to pop `sample_buffer`. -/
def sample_decode_state : DecodeThreadState :=
  { decoder := ⟨[999]⟩, script := sample_script, empty_decode_buffers := [sample_buffer] }

/-- A run with `T = 1`: the coordinator pushes, a load worker pops the entry,
the coordinator finds the queues empty and pushes again, and the load worker
pushes its entry on `decode_work`. -/
def sample_node_actions : List NodeAction :=
  [.observe, .push, .load_pop, .observe, .push, .load_push]

/-- The run `sample_node_actions` continued: the decode worker and the load
worker each pop an entry, the coordinator pushes a third time, and both
workers push. -/
def sample_node_actions_full : List NodeAction :=
  sample_node_actions ++
    [.decode_pop 0, .load_pop, .observe, .push, .load_push, .decode_push 0]

/-! ## Theorems: work plan -/

theorem allocate_video_eq (W i : Nat) (path : String) (frames : Nat) :
    ∀ (fuel a : Nat) (st : PlanState),
      allocate_video W i path frames fuel a st =
        (chunks W frames fuel a).map fun l => st.push_pairs i path l := by
  intro fuel
  induction fuel with
  | zero => intro a st; rfl
  | succ n ih =>
    intro a st
    simp only [allocate_video, chunks]
    split
    · rw [ih]
      cases chunks W frames n (a + min W (frames - a)) with
      | none => rfl
      | some l =>
        simp only [Option.map, PlanState.push_pairs, IntervalMap.emplace_back,
          List.map_cons, List.append_assoc, List.singleton_append]
        congr 2
        funext q
        by_cases hq : q = path <;> simp [hq]
    · simp [PlanState.push_pairs]

/-- Enough fuel: the inner loop returns once the fuel exceeds the frames left. -/
theorem chunks_isSome (W frames : Nat) (hW : 1 ≤ W) :
    ∀ (fuel a : Nat), frames - a < fuel → ∃ l, chunks W frames fuel a = some l := by
  intro fuel
  induction fuel with
  | zero => intro a h; omega
  | succ n ih =>
    intro a h
    simp only [chunks]
    split
    · rename_i hlt
      obtain ⟨l, hl⟩ := ih (a + min W (frames - a)) (by omega)
      exact ⟨_, by rw [hl]; rfl⟩
    · exact ⟨[], rfl⟩

/-- The result of the inner loop does not depend on the fuel. -/
theorem chunks_fuel_irrel (W frames : Nat) :
    ∀ (fuel1 fuel2 a : Nat) (l1 l2 : List (Nat × Nat)),
      chunks W frames fuel1 a = some l1 → chunks W frames fuel2 a = some l2 → l1 = l2 := by
  intro fuel1
  induction fuel1 with
  | zero => intro fuel2 a l1 l2 h; simp [chunks] at h
  | succ n ih =>
    intro fuel2 a l1 l2 h1 h2
    cases fuel2 with
    | zero => simp [chunks] at h2
    | succ m =>
      simp only [chunks] at h1 h2
      split at h1
      · rename_i hlt
        rw [if_pos hlt] at h2
        simp only [Option.map_eq_some'] at h1 h2
        obtain ⟨r1, hr1, rfl⟩ := h1
        obtain ⟨r2, hr2, rfl⟩ := h2
        rw [ih m _ r1 r2 hr1 hr2]
      · rename_i hlt
        rw [if_neg hlt] at h2
        simp_all

/-- Shape of the pairs generated from `allocated_frames = a`. -/
theorem chunks_shape (W frames : Nat) (hW : 1 ≤ W) :
    ∀ (fuel a : Nat) (l : List (Nat × Nat)), chunks W frames fuel a = some l →
      (∀ p ∈ l.head?, p.1 = a) ∧
      List.Chain' (fun p q => p.2 = q.1) l ∧
      (∀ p ∈ l.getLast?, p.2 = frames) ∧
      (∀ p ∈ l, a ≤ p.1 ∧ p.1 < p.2 ∧ p.2 ≤ frames ∧ p.2 - p.1 ≤ W) ∧
      (l.map fun p => p.2 - p.1).sum = frames - a ∧
      (frames ≤ a → l = []) := by
  intro fuel
  induction fuel with
  | zero => intro a l h; simp [chunks] at h
  | succ n ih =>
    intro a l h
    simp only [chunks] at h
    split at h
    · rename_i hlt
      simp only [Option.map_eq_some'] at h
      obtain ⟨r, hr, rfl⟩ := h
      obtain ⟨h1, h2, h3, h4, h5, h6⟩ := ih _ r hr
      refine ⟨by simp, ?_, ?_, ?_, ?_, by omega⟩
      · rw [List.chain'_cons']
        exact ⟨fun q hq => (h1 q hq).symm, h2⟩
      · intro p hp
        cases r with
        | nil =>
          simp at hp
          subst hp
          by_cases hle : frames ≤ a + min W (frames - a)
          · simp only; omega
          · exfalso
            cases n with
            | zero => simp [chunks] at hr
            | succ k =>
              simp only [chunks] at hr
              rw [if_pos (by omega)] at hr
              simp at hr
        | cons q r2 =>
          apply h3
          simpa [List.getLast?_cons_cons] using hp
      · intro p hp
        rcases List.mem_cons.mp hp with rfl | hp
        · simp only; omega
        · have := h4 p hp
          omega
      · simp only [List.map_cons, List.sum_cons, h5]
        omega
    · rename_i hlt
      simp only [Option.some.injEq] at h
      subst h
      simp
      omega

/-- Closed form of the pairs generated from `allocated_frames = a`. -/
theorem chunks_closed (W frames : Nat) (hW : 1 ≤ W) :
    ∀ (fuel a : Nat) (l : List (Nat × Nat)), chunks W frames fuel a = some l →
      l = (List.range ((frames - a + W - 1) / W)).map fun k =>
        (a + k * W, min (a + (k + 1) * W) frames) := by
  intro fuel
  induction fuel with
  | zero => intro a l h; simp [chunks] at h
  | succ n ih =>
    intro a l h
    simp only [chunks] at h
    split at h
    · rename_i hlt
      simp only [Option.map_eq_some'] at h
      obtain ⟨r, hr, rfl⟩ := h
      have hr2 := ih _ r hr
      by_cases hc : W ≤ frames - a
      · have hmin : min W (frames - a) = W := by omega
        rw [hmin] at hr2 ⊢
        have hdiv : (frames - a + W - 1) / W = (frames - (a + W) + W - 1) / W + 1 := by
          have : frames - a + W - 1 = (frames - (a + W) + W - 1) + W := by omega
          rw [this, Nat.add_div_right _ (by omega)]
        rw [hdiv, List.range_succ_eq_map, List.map_cons, List.map_map, hr2]
        congr 1
        · simp only [Nat.zero_mul, Nat.add_zero, Nat.zero_add, Nat.one_mul, Prod.mk.injEq,
            true_and]
          omega
        · apply List.map_congr_left
          intro k _
          simp only [Function.comp, Nat.succ_eq_add_one, Prod.mk.injEq]
          constructor
          · rw [Nat.add_mul]; omega
          · rw [Nat.add_mul, Nat.add_mul, Nat.add_mul]; omega
      · have hmin : min W (frames - a) = frames - a := by omega
        rw [hmin] at hr2 ⊢
        have h0 : (frames - (a + (frames - a)) + W - 1) / W = 0 := by
          apply Nat.div_eq_of_lt
          omega
        have h1 : (frames - a + W - 1) / W = 1 := by
          apply Nat.div_eq_of_lt_le <;> omega
        rw [h0] at hr2
        rw [h1, hr2]
        simp only [List.range_zero, List.map_nil, List.range_succ, List.nil_append,
          List.map_cons, Nat.zero_mul, Nat.add_zero, Nat.zero_add, Nat.one_mul, List.cons.injEq,
          Prod.mk.injEq, true_and, and_true]
        omega
    · rename_i hlt
      simp only [Option.some.injEq] at h
      subst h
      have h0 : (frames - a + W - 1) / W = 0 := by
        apply Nat.div_eq_of_lt
        omega
      rw [h0]
      rfl

/-- Each frame of `[a, frames)` lies in exactly one generated pair, every other
frame in none. -/
theorem chunks_countP (W frames : Nat) (hW : 1 ≤ W) :
    ∀ (fuel a : Nat) (l : List (Nat × Nat)), chunks W frames fuel a = some l →
      ∀ x, (l.countP fun p => decide (p.1 ≤ x) && decide (x < p.2)) =
        if a ≤ x ∧ x < frames then 1 else 0 := by
  intro fuel
  induction fuel with
  | zero => intro a l h; simp [chunks] at h
  | succ n ih =>
    intro a l h x
    simp only [chunks] at h
    split at h
    · rename_i hlt
      simp only [Option.map_eq_some'] at h
      obtain ⟨r, hr, rfl⟩ := h
      rw [List.countP_cons, ih _ r hr x]
      simp only [Bool.and_eq_true, decide_eq_true_eq]
      split_ifs <;> omega
    · rename_i hlt
      simp only [Option.some.injEq] at h
      subst h
      simp only [List.countP_nil]
      split_ifs <;> omega

/-- The generated pairs are in strictly increasing order of their start. -/
theorem chunks_pairwise (W frames : Nat) (hW : 1 ≤ W) :
    ∀ (fuel a : Nat) (l : List (Nat × Nat)), chunks W frames fuel a = some l →
      l.Pairwise fun p q => p.1 < q.1 := by
  intro fuel
  induction fuel with
  | zero => intro a l h; simp [chunks] at h
  | succ n ih =>
    intro a l h
    simp only [chunks] at h
    split at h
    · rename_i hlt
      simp only [Option.map_eq_some'] at h
      obtain ⟨r, hr, rfl⟩ := h
      rw [List.pairwise_cons]
      refine ⟨?_, ih _ r hr⟩
      intro q hq
      have := (chunks_shape W frames hW n _ r hr).2.2.2.1 q hq
      simp only
      omega
    · simp only [Option.some.injEq] at h
      subst h
      exact List.Pairwise.nil

/-- With `W ≥ 1` and more fuel than frames the inner loop returns the closed form. -/
theorem chunks_eq_expected (W frames fuel : Nat) (hW : 1 ≤ W) (hf : frames < fuel) :
    chunks W frames fuel 0 = some (expected_pairs W frames) := by
  obtain ⟨l, hl⟩ := chunks_isSome W frames hW fuel 0 (by omega)
  have := chunks_closed W frames hW fuel 0 l hl
  rw [hl, this]
  simp [expected_pairs]

theorem frames_lt_sum_succ :
    ∀ (videos : List (String × DatasetItemMetadata)) (v : String × DatasetItemMetadata),
      v ∈ videos → v.2.frames < (videos.map fun u => u.2.frames).sum + 1 := by
  intro videos
  induction videos with
  | nil => intro v hv; simp at hv
  | cons u rest ih =>
    intro v hv
    rcases List.mem_cons.mp hv with rfl | hv
    · simp only [List.map_cons, List.sum_cons]; omega
    · have := ih v hv
      simp only [List.map_cons, List.sum_cons]; omega

/-- The outer loop returns when the fuel exceeds every frame count. -/
theorem work_plan_loop_isSome (W fuel : Nat) (hW : 1 ≤ W) :
    ∀ (videos : List (String × DatasetItemMetadata)) (i : Nat) (st : PlanState),
      (∀ v ∈ videos, v.2.frames < fuel) → ∃ st1, work_plan_loop W fuel videos i st = some st1 := by
  intro videos
  induction videos with
  | nil => intro i st _; exact ⟨st, rfl⟩
  | cons u rest ih =>
    intro i st h
    obtain ⟨path, md⟩ := u
    simp only [work_plan_loop, allocate_video_eq]
    rw [chunks_eq_expected W md.frames fuel hW (h (path, md) (List.mem_cons_self _ _))]
    simp only [Option.map]
    exact ih _ _ fun v hv => h v (List.mem_cons_of_mem _ hv)

/-- The outer loop leaves the interval vector of every other path alone. -/
theorem work_plan_loop_untouched (W fuel : Nat) :
    ∀ (videos : List (String × DatasetItemMetadata)) (i : Nat) (st st1 : PlanState),
      work_plan_loop W fuel videos i st = some st1 →
      ∀ q, q ∉ videos.map Prod.fst → st1.intervals q = st.intervals q := by
  intro videos
  induction videos with
  | nil =>
    intro i st st1 h q _
    simp only [work_plan_loop, Option.some.injEq] at h
    rw [h]
  | cons u rest ih =>
    intro i st st1 h q hq
    obtain ⟨path, md⟩ := u
    simp only [work_plan_loop, allocate_video_eq] at h
    cases hc : chunks W md.frames fuel 0 with
    | none => rw [hc] at h; simp at h
    | some l =>
      rw [hc] at h
      simp only [Option.map] at h
      simp only [List.map_cons, List.mem_cons, not_or] at hq
      rw [ih _ _ _ h q hq.2]
      simp [PlanState.push_pairs, hq.1]

/-- With pairwise distinct paths the interval vector of a video receives
exactly the pairs of that video. -/
theorem work_plan_loop_intervals (W fuel : Nat) :
    ∀ (videos : List (String × DatasetItemMetadata)) (i : Nat) (st st1 : PlanState),
      work_plan_loop W fuel videos i st = some st1 → (videos.map Prod.fst).Nodup →
      ∀ v ∈ videos, ∃ l, chunks W v.2.frames fuel 0 = some l ∧
        st1.intervals v.1 = st.intervals v.1 ++ l := by
  intro videos
  induction videos with
  | nil => intro i st st1 _ _ v hv; simp at hv
  | cons u rest ih =>
    intro i st st1 h hnd v hv
    obtain ⟨path, md⟩ := u
    simp only [work_plan_loop, allocate_video_eq] at h
    simp only [List.map_cons, List.nodup_cons] at hnd
    cases hc : chunks W md.frames fuel 0 with
    | none => rw [hc] at h; simp at h
    | some l =>
      rw [hc] at h
      simp only [Option.map] at h
      rcases List.mem_cons.mp hv with rfl | hv
      · refine ⟨l, hc, ?_⟩
        rw [work_plan_loop_untouched W fuel _ _ _ _ h path hnd.1]
        simp [PlanState.push_pairs]
      · obtain ⟨l2, hl2, he⟩ := ih _ _ _ h hnd.2 v hv
        refine ⟨l2, hl2, ?_⟩
        rw [he]
        have hne : v.1 ≠ path := by
          intro hEq
          apply hnd.1
          rw [← hEq]
          exact List.mem_map_of_mem _ hv
        simp [PlanState.push_pairs, hne]

/-- The outer loop appends the items of the plan to `work_items`. -/
theorem work_plan_loop_items (W fuel : Nat) :
    ∀ (videos : List (String × DatasetItemMetadata)) (i : Nat) (st st1 : PlanState),
      work_plan_loop W fuel videos i st = some st1 →
      ∃ items, plan_items W fuel videos i = some items ∧
        st1.work_items = st.work_items ++ items := by
  intro videos
  induction videos with
  | nil =>
    intro i st st1 h
    simp only [work_plan_loop, Option.some.injEq] at h
    exact ⟨[], rfl, by simp [h]⟩
  | cons u rest ih =>
    intro i st st1 h
    obtain ⟨path, md⟩ := u
    simp only [work_plan_loop, allocate_video_eq] at h
    cases hc : chunks W md.frames fuel 0 with
    | none => rw [hc] at h; simp at h
    | some l =>
      rw [hc] at h
      simp only [Option.map] at h
      obtain ⟨r, hr, he⟩ := ih _ _ _ h
      refine ⟨(l.map fun p => ⟨i, p.1, p.2⟩) ++ r, ?_, ?_⟩
      · simp only [plan_items, hc, hr]
      · rw [he]
        simp [PlanState.push_pairs]

/-- Items of the plan built from index `i` carry a video index of at least `i`. -/
theorem plan_items_index (W fuel : Nat) :
    ∀ (videos : List (String × DatasetItemMetadata)) (i : Nat) (items : List VideoWorkItem),
      plan_items W fuel videos i = some items → ∀ it ∈ items, i ≤ it.video_index := by
  intro videos
  induction videos with
  | nil =>
    intro i items h it hit
    simp only [plan_items, Option.some.injEq] at h
    subst h
    simp at hit
  | cons u rest ih =>
    intro i items h it hit
    obtain ⟨path, md⟩ := u
    simp only [plan_items] at h
    cases hc : chunks W md.frames fuel 0 with
    | none => rw [hc] at h; simp at h
    | some l =>
      cases hr : plan_items W fuel rest (i + 1) with
      | none => rw [hc, hr] at h; simp at h
      | some r =>
        rw [hc, hr] at h
        simp only [Option.some.injEq] at h
        subst h
        rcases List.mem_append.mp hit with hm | hm
        · obtain ⟨p, _, rfl⟩ := List.mem_map.mp hm
          exact Nat.le_refl _
        · have := ih _ _ hr it hm
          omega

theorem countP_covers_map (i v x : Nat) (l : List (Nat × Nat)) :
    (l.map fun p => (⟨i, p.1, p.2⟩ : VideoWorkItem)).countP (covers v x) =
      if i = v then l.countP (fun p => decide (p.1 ≤ x) && decide (x < p.2)) else 0 := by
  induction l with
  | nil => simp
  | cons p r ih =>
    rw [List.map_cons, List.countP_cons, List.countP_cons, ih]
    by_cases h : i = v <;> simp [covers, h]

theorem countP_covers_of_index_lt (v x : Nat) (items : List VideoWorkItem)
    (h : ∀ it ∈ items, v < it.video_index) : items.countP (covers v x) = 0 := by
  rw [List.countP_eq_zero]
  intro it hit
  have := h it hit
  simp only [covers, Bool.and_eq_true, decide_eq_true_eq, not_and]
  intro h1
  omega

/-- Each frame of each video is covered by exactly one item of the plan. -/
theorem plan_items_countP (W fuel : Nat) (hW : 1 ≤ W) :
    ∀ (videos : List (String × DatasetItemMetadata)) (i : Nat) (items : List VideoWorkItem),
      plan_items W fuel videos i = some items →
      ∀ (v x : Nat) (vd : String × DatasetItemMetadata), i ≤ v → videos[v - i]? = some vd →
        x < vd.2.frames → items.countP (covers v x) = 1 := by
  intro videos
  induction videos with
  | nil => intro i items _ v x vd _ hv; simp at hv
  | cons u rest ih =>
    intro i items h v x vd hiv hv hx
    obtain ⟨path, md⟩ := u
    simp only [plan_items] at h
    cases hc : chunks W md.frames fuel 0 with
    | none => rw [hc] at h; simp at h
    | some l =>
      cases hr : plan_items W fuel rest (i + 1) with
      | none => rw [hc, hr] at h; simp at h
      | some r =>
        rw [hc, hr] at h
        simp only [Option.some.injEq] at h
        subst h
        rw [List.countP_append, countP_covers_map]
        by_cases hEq : i = v
        · subst hEq
          simp only [Nat.sub_self, List.getElem?_cons_zero, Option.some.injEq] at hv
          subst hv
          rw [if_pos rfl, chunks_countP W md.frames hW fuel 0 l hc x,
            countP_covers_of_index_lt i x r]
          · simp [hx]
          · intro it hit
            have := plan_items_index W fuel rest (i + 1) r hr it hit
            omega
        · rw [if_neg hEq, Nat.zero_add]
          have hlt : i + 1 ≤ v := by omega
          apply ih (i + 1) r hr v x vd hlt _ hx
          have : v - i = (v - (i + 1)) + 1 := by omega
          rw [this, List.getElem?_cons_succ] at hv
          exact hv

/-- The items of the plan are in video-then-frame order. -/
theorem plan_items_pairwise (W fuel : Nat) (hW : 1 ≤ W) :
    ∀ (videos : List (String × DatasetItemMetadata)) (i : Nat) (items : List VideoWorkItem),
      plan_items W fuel videos i = some items → items.Pairwise plan_lt := by
  intro videos
  induction videos with
  | nil =>
    intro i items h
    simp only [plan_items, Option.some.injEq] at h
    subst h
    exact List.Pairwise.nil
  | cons u rest ih =>
    intro i items h
    obtain ⟨path, md⟩ := u
    simp only [plan_items] at h
    cases hc : chunks W md.frames fuel 0 with
    | none => rw [hc] at h; simp at h
    | some l =>
      cases hr : plan_items W fuel rest (i + 1) with
      | none => rw [hc, hr] at h; simp at h
      | some r =>
        rw [hc, hr] at h
        simp only [Option.some.injEq] at h
        subst h
        rw [List.pairwise_append]
        refine ⟨?_, ih _ _ hr, ?_⟩
        · rw [List.pairwise_map]
          exact (chunks_pairwise W md.frames hW fuel 0 l hc).imp fun hpq => Or.inr ⟨rfl, hpq⟩
        · intro a ha b hb
          obtain ⟨p, _, rfl⟩ := List.mem_map.mp ha
          have := plan_items_index W fuel rest (i + 1) r hr b hb
          exact Or.inl (by simp only; omega)

/-! ### The claims on the work plan -/

/-- C1. For a dataset with pairwise distinct video paths and `WORK_ITEM_SIZE ≥ 1`
the work-plan loop of `run_job` returns (for every fuel above the largest frame
count), and in every plan it returns the interval list stored under a video's
path partitions `[0, frames)`: it starts at 0, consecutive intervals touch, it
ends at `frames`, every interval has a length in `(0, WORK_ITEM_SIZE]`, the
lengths sum to `frames`, and the list is empty when `frames = 0`. -/
theorem job_descriptor_intervals_partition (W : Nat)
    (videos : List (String × DatasetItemMetadata)) (hW : 1 ≤ W)
    (hnd : (videos.map Prod.fst).Nodup) :
    (∃ fuel0, ∀ fuel, fuel0 ≤ fuel → ∃ st, run_job_work_plan W fuel videos = some st) ∧
    (∀ fuel st, run_job_work_plan W fuel videos = some st →
      ∀ v ∈ videos, PartitionsFrames W v.2.frames (st.intervals v.1)) := by
  constructor
  · refine ⟨(videos.map fun u => u.2.frames).sum + 1, fun fuel hfuel => ?_⟩
    apply work_plan_loop_isSome W fuel hW
    intro v hv
    have := frames_lt_sum_succ videos v hv
    omega
  · intro fuel st h v hv
    obtain ⟨l, hl, he⟩ := work_plan_loop_intervals W fuel videos 0 _ st h hnd v hv
    simp only [PlanState.init, List.nil_append] at he
    rw [he]
    obtain ⟨h1, h2, h3, h4, h5, h6⟩ := chunks_shape W v.2.frames hW fuel 0 l hl
    refine ⟨h1, h2, h3, ?_, by simpa using h5, fun h0 => h6 (by omega)⟩
    intro p hp
    have := h4 p hp
    omega

/-- Witness of C1: two distinct paths, 200 and 1 frames, `WORK_ITEM_SIZE = 96`. -/
theorem job_descriptor_intervals_partition_witness :
    (∃ fuel0, ∀ fuel, fuel0 ≤ fuel → ∃ st,
      run_job_work_plan 96 fuel
        [("a", ⟨200, 4, 2, [0], [0]⟩), ("b", ⟨1, 4, 2, [0], [0]⟩)] = some st) ∧
    (∀ fuel st,
      run_job_work_plan 96 fuel
        [("a", ⟨200, 4, 2, [0], [0]⟩), ("b", ⟨1, 4, 2, [0], [0]⟩)] = some st →
      ∀ v ∈ [("a", (⟨200, 4, 2, [0], [0]⟩ : DatasetItemMetadata)), ("b", ⟨1, 4, 2, [0], [0]⟩)],
        PartitionsFrames 96 v.2.frames (st.intervals v.1)) :=
  job_descriptor_intervals_partition 96
    [("a", ⟨200, 4, 2, [0], [0]⟩), ("b", ⟨1, 4, 2, [0], [0]⟩)] (by decide) (by decide)

/-- C2. For every list of videos and `WORK_ITEM_SIZE ≥ 1` the loop returns, and in
the `work_items` vector it builds every frame `x < frames_v` of every video `v`
is covered by exactly one item, and the items are strictly increasing in
`(video_index, start_frame)`.  For two videos of 96 and 1 frames with
`WORK_ITEM_SIZE = 96` the vector is `[(0,0,96), (1,0,1)]`. -/
theorem work_items_cover_in_order :
    (∀ (W : Nat) (videos : List (String × DatasetItemMetadata)), 1 ≤ W →
      (∃ fuel0, ∀ fuel, fuel0 ≤ fuel → ∃ st, run_job_work_plan W fuel videos = some st) ∧
      (∀ fuel st, run_job_work_plan W fuel videos = some st →
        (∀ (v x : Nat) (vd : String × DatasetItemMetadata), videos[v]? = some vd →
          x < vd.2.frames → st.work_items.countP (covers v x) = 1) ∧
        st.work_items.Pairwise plan_lt)) ∧
    (∀ (p q : String) (m1 m2 : DatasetItemMetadata) (fuel : Nat) (st : PlanState),
      m1.frames = 96 → m2.frames = 1 →
      run_job_work_plan 96 fuel [(p, m1), (q, m2)] = some st →
      st.work_items = [⟨0, 0, 96⟩, ⟨1, 0, 1⟩]) := by
  constructor
  · intro W videos hW
    constructor
    · refine ⟨(videos.map fun u => u.2.frames).sum + 1, fun fuel hfuel => ?_⟩
      apply work_plan_loop_isSome W fuel hW
      intro v hv
      have := frames_lt_sum_succ videos v hv
      omega
    · intro fuel st h
      obtain ⟨items, hi, he⟩ := work_plan_loop_items W fuel videos 0 _ st h
      simp only [PlanState.init, List.nil_append] at he
      rw [he]
      exact ⟨fun v x vd hv hx =>
        plan_items_countP W fuel hW videos 0 items hi v x vd (Nat.zero_le _) (by simpa using hv) hx,
        plan_items_pairwise W fuel hW videos 0 items hi⟩
  · intro p q m1 m2 fuel st h1 h2 h
    obtain ⟨items, hi, he⟩ := work_plan_loop_items 96 fuel _ 0 _ st h
    simp only [PlanState.init, List.nil_append] at he
    rw [he]
    simp only [plan_items, h1, h2] at hi
    cases hc1 : chunks 96 96 fuel 0 with
    | none => rw [hc1] at hi; simp at hi
    | some l1 =>
      cases hc2 : chunks 96 1 fuel 0 with
      | none => rw [hc1, hc2] at hi; simp at hi
      | some l2 =>
        rw [hc1, hc2] at hi
        simp only [Option.some.injEq] at hi
        rw [← hi, chunks_closed 96 96 (by decide) fuel 0 l1 hc1,
          chunks_closed 96 1 (by decide) fuel 0 l2 hc2]
        decide

/-- Witness of C2: videos of 96 and 1 frames, `WORK_ITEM_SIZE = 96`. -/
theorem work_items_cover_in_order_witness :
    (∃ fuel0, ∀ fuel, fuel0 ≤ fuel → ∃ st,
      run_job_work_plan 96 fuel
        [("a", ⟨96, 4, 2, [0], [0]⟩), ("b", ⟨1, 4, 2, [0], [0]⟩)] = some st) ∧
    (∀ fuel st,
      run_job_work_plan 96 fuel
        [("a", ⟨96, 4, 2, [0], [0]⟩), ("b", ⟨1, 4, 2, [0], [0]⟩)] = some st →
      st.work_items = [⟨0, 0, 96⟩, ⟨1, 0, 1⟩]) :=
  ⟨(work_items_cover_in_order.1 96
      [("a", ⟨96, 4, 2, [0], [0]⟩), ("b", ⟨1, 4, 2, [0], [0]⟩)] (by decide)).1,
    fun fuel st h => work_items_cover_in_order.2 "a" "b" _ _ fuel st rfl rfl h⟩

/-- C3. For every frame count `f` and `WORK_ITEM_SIZE = W ≥ 1` the inner work-plan
loop terminates (every fuel above `f` suffices) and the pairs it generates are
exactly `(k * W, min ((k + 1) * W) f)` for `k = 0, ..., ceil (f / W) - 1`, in
that order; `f = 200, W = 96` gives `(0,96), (96,192), (192,200)` and
`f = 1, W = 96` gives `(0,1)`. -/
theorem work_plan_pairs_closed_form :
    (∀ f W : Nat, 1 ≤ W →
      (∀ fuel, f < fuel → generated_pairs W f fuel = some (expected_pairs W f)) ∧
      (∀ fuel l, generated_pairs W f fuel = some l → l = expected_pairs W f)) ∧
    (∀ fuel, 200 < fuel → generated_pairs 96 200 fuel = some [(0, 96), (96, 192), (192, 200)]) ∧
    (∀ fuel, 1 < fuel → generated_pairs 96 1 fuel = some [(0, 1)]) := by
  have key : ∀ f W : Nat, 1 ≤ W → ∀ fuel, f < fuel →
      generated_pairs W f fuel = some (expected_pairs W f) := by
    intro f W hW fuel hf
    simp only [generated_pairs, allocate_video_eq, chunks_eq_expected W f fuel hW hf,
      Option.map, PlanState.push_pairs, PlanState.init, frame_pairs, List.nil_append,
      List.map_map]
    congr 1
    exact List.map_id _
  refine ⟨fun f W hW => ⟨key f W hW, ?_⟩, ?_, ?_⟩
  · intro fuel l h
    simp only [generated_pairs, allocate_video_eq] at h
    cases hc : chunks W f fuel 0 with
    | none => rw [hc] at h; simp at h
    | some r =>
      have hr := chunks_closed W f hW fuel 0 r hc
      rw [hc] at h
      simp only [Option.map, PlanState.push_pairs, PlanState.init, frame_pairs,
        List.nil_append, List.map_map, Option.some.injEq] at h
      rw [← h]
      have hid : r.map ((fun it : VideoWorkItem => (it.start_frame, it.end_frame)) ∘
          fun p : Nat × Nat => (⟨0, p.1, p.2⟩ : VideoWorkItem)) = r := List.map_id _
      rw [hid, hr]
      simp [expected_pairs]
  · intro fuel hf
    rw [key 200 96 (by decide) fuel hf]
    decide
  · intro fuel hf
    rw [key 1 96 (by decide) fuel hf]
    decide

/-- Witness of C3: `f = 200`, `W = 96`, fuel 201. -/
theorem work_plan_pairs_closed_form_witness :
    generated_pairs 96 200 201 = some (expected_pairs 96 200) ∧
      generated_pairs 96 200 201 = some [(0, 96), (96, 192), (192, 200)] :=
  ⟨(work_plan_pairs_closed_form.1 200 96 (by decide)).1 201 (by decide), by decide⟩

/-! ## Theorems: load stage -/

/-- Outcome of the first search loop started at `i ≥ 1` with enough iterations. -/
theorem find_start_spec (kp : List Nat) (start_frame : Nat) :
    ∀ (n i : Nat), 1 ≤ i → kp.length ≤ n + i →
      (∀ j, 1 ≤ j → j < i → kp.getD j 0 ≤ start_frame) →
      (find_start_keyframe_index kp start_frame n i = SIZE_MAX ∧
        ∀ j, 1 ≤ j → j < kp.length → kp.getD j 0 ≤ start_frame) ∨
      (find_start_keyframe_index kp start_frame n i + 1 < kp.length ∧
        start_frame < kp.getD (find_start_keyframe_index kp start_frame n i + 1) 0 ∧
        ∀ j, 1 ≤ j → j ≤ find_start_keyframe_index kp start_frame n i →
          kp.getD j 0 ≤ start_frame) := by
  intro n
  induction n with
  | zero =>
    intro i _ hlen hinv
    left
    exact ⟨rfl, fun j h1 h2 => hinv j h1 (by omega)⟩
  | succ n ih =>
    intro i hi hlen hinv
    simp only [find_start_keyframe_index]
    by_cases hlt : i < kp.length
    · rw [if_pos hlt]
      by_cases hgt : kp.getD i 0 > start_frame
      · rw [if_pos hgt]
        right
        have hs : i - 1 + 1 = i := by omega
        rw [hs]
        exact ⟨hlt, hgt, fun j h1 h2 => hinv j h1 (by omega)⟩
      · rw [if_neg hgt]
        apply ih (i + 1) (by omega) (by omega)
        intro j h1 h2
        by_cases hj : j = i
        · subst hj; omega
        · exact hinv j h1 (by omega)
    · rw [if_neg hlt]
      left
      exact ⟨rfl, fun j h1 h2 => hinv j h1 (by omega)⟩

/-- Outcome of the second search loop started at `i` with enough iterations. -/
theorem find_end_spec (kp : List Nat) (end_frame : Nat) :
    ∀ (n i : Nat), kp.length ≤ n + i →
      (find_end_keyframe_index kp end_frame n i = 0 ∧
        ∀ j, i ≤ j → j < kp.length → kp.getD j 0 < end_frame) ∨
      (i ≤ find_end_keyframe_index kp end_frame n i ∧
        find_end_keyframe_index kp end_frame n i < kp.length ∧
        end_frame ≤ kp.getD (find_end_keyframe_index kp end_frame n i) 0 ∧
        ∀ j, i ≤ j → j < find_end_keyframe_index kp end_frame n i →
          kp.getD j 0 < end_frame) := by
  intro n
  induction n with
  | zero =>
    intro i hlen
    left
    exact ⟨rfl, fun j h1 h2 => by omega⟩
  | succ n ih =>
    intro i hlen
    simp only [find_end_keyframe_index]
    by_cases hlt : i < kp.length
    · rw [if_pos hlt]
      by_cases hge : kp.getD i 0 ≥ end_frame
      · rw [if_pos hge]
        right
        exact ⟨Nat.le_refl _, hlt, hge, fun j h1 h2 => by omega⟩
      · rw [if_neg hge]
        rcases ih (i + 1) (by omega) with ⟨h0, hall⟩ | ⟨h1, h2, h3, h4⟩
        · left
          refine ⟨h0, fun j hj1 hj2 => ?_⟩
          by_cases hj : j = i
          · subst hj; omega
          · exact hall j (by omega) hj2
        · right
          refine ⟨by omega, h2, h3, fun j hj1 hj2 => ?_⟩
          by_cases hj : j = i
          · subst hj; omega
          · exact h4 j (by omega) hj2
    · rw [if_neg hlt]
      left
      exact ⟨rfl, fun j h1 h2 => by omega⟩

theorem getD_append_last (l : List Nat) (f : Nat) : (l ++ [f]).getD l.length 0 = f := by
  simp [List.getD_eq_getElem?_getD]

theorem getD_zero_of_head (l : List Nat) (f a : Nat) (h : l.head? = some a) :
    (l ++ [f]).getD 0 0 = a := by
  cases l with
  | nil => simp at h
  | cons b r =>
    simp only [List.head?_cons, Option.some.injEq] at h
    simp [h]

theorem getD_lt_of_pairwise (l : List Nat) (h : l.Pairwise (· < ·)) (i j : Nat)
    (hij : i < j) (hj : j < l.length) : l.getD i 0 < l.getD j 0 := by
  have hi : i < l.length := by omega
  rw [List.getD_eq_getElem?_getD, List.getD_eq_getElem?_getD, List.getElem?_eq_getElem hi,
    List.getElem?_eq_getElem hj]
  exact (List.pairwise_iff_getElem.mp h) i j hi hj hij

/-- The load body written with the named intermediate values. -/
theorem load_work_item_eq (work_item : VideoWorkItem) (metadata : DatasetItemMetadata)
    (file_size : Nat) (video_file : RandomReadFile) (work_item_index : Int) :
    load_work_item work_item metadata file_size (some video_file) work_item_index =
      if start_keyframe_index_of work_item metadata = SIZE_MAX then
        .error .assert_start_keyframe_index
      else if end_keyframe_index_of work_item metadata = 0 then
        .error .assert_end_keyframe_index
      else if (read_outcome_of work_item metadata file_size video_file).size_read ≠
          data_size_of work_item metadata file_size then
        .error .assert_size_read
      else if (read_outcome_of work_item metadata file_size video_file).result ≠ .Success ∧
          (read_outcome_of work_item metadata file_size video_file).result ≠ .EndOfFile then
        .error .assert_result
      else
        .ok
          { work_item_index := work_item_index
            start_keyframe :=
              (extended_positions metadata).getD (start_keyframe_index_of work_item metadata) 0
            end_keyframe :=
              (extended_positions metadata).getD (end_keyframe_index_of work_item metadata) 0
            encoded_data_size := data_size_of work_item metadata file_size
            buffer := (read_outcome_of work_item metadata file_size video_file).data } := by
  rfl

/-- The keyframe search on well-formed metadata: both indices are found and they
bracket the work item. -/
theorem keyframe_search_spec (work_item : VideoWorkItem) (metadata : DatasetItemMetadata)
    (h0 : metadata.keyframe_positions.head? = some 0)
    (hse : work_item.start_frame < work_item.end_frame)
    (hef : work_item.end_frame ≤ metadata.frames)
    (hsize : metadata.keyframe_positions.length < SIZE_MAX) :
    start_keyframe_index_of work_item metadata ≠ SIZE_MAX ∧
    end_keyframe_index_of work_item metadata ≠ 0 ∧
    start_keyframe_index_of work_item metadata + 1 < (extended_positions metadata).length ∧
    end_keyframe_index_of work_item metadata < (extended_positions metadata).length ∧
    (extended_positions metadata).getD (start_keyframe_index_of work_item metadata) 0
      ≤ work_item.start_frame ∧
    work_item.start_frame <
      (extended_positions metadata).getD (start_keyframe_index_of work_item metadata + 1) 0 ∧
    work_item.end_frame ≤
      (extended_positions metadata).getD (end_keyframe_index_of work_item metadata) 0 ∧
    start_keyframe_index_of work_item metadata ≤ end_keyframe_index_of work_item metadata ∧
    (∀ j, start_keyframe_index_of work_item metadata ≤ j →
      j < end_keyframe_index_of work_item metadata →
      (extended_positions metadata).getD j 0 < work_item.end_frame) := by
  have hlen : (extended_positions metadata).length = metadata.keyframe_positions.length + 1 := by
    simp [extended_positions]
  have hpos : 1 ≤ metadata.keyframe_positions.length := by
    cases hk : metadata.keyframe_positions with
    | nil => rw [hk] at h0; simp at h0
    | cons a r => simp
  have hlast : (extended_positions metadata).getD metadata.keyframe_positions.length 0 =
      metadata.frames := getD_append_last _ _
  have hfirst : (extended_positions metadata).getD 0 0 = 0 := getD_zero_of_head _ _ _ h0
  have hS := find_start_spec (extended_positions metadata) work_item.start_frame
    (extended_positions metadata).length 1 (Nat.le_refl _) (by omega)
    (fun j h1 h2 => by omega)
  have hE := find_end_spec (extended_positions metadata) work_item.end_frame
    (extended_positions metadata).length (start_keyframe_index_of work_item metadata)
    (by omega)
  change (start_keyframe_index_of work_item metadata = SIZE_MAX ∧ _) ∨
    (start_keyframe_index_of work_item metadata + 1 < _ ∧
      _ < (extended_positions metadata).getD (start_keyframe_index_of work_item metadata + 1) 0 ∧
      ∀ j, 1 ≤ j → j ≤ start_keyframe_index_of work_item metadata → _) at hS
  change (end_keyframe_index_of work_item metadata = 0 ∧ _) ∨
    (_ ≤ end_keyframe_index_of work_item metadata ∧
      end_keyframe_index_of work_item metadata < _ ∧
      _ ≤ (extended_positions metadata).getD (end_keyframe_index_of work_item metadata) 0 ∧
      ∀ j, _ ≤ j → j < end_keyframe_index_of work_item metadata → _) at hE
  generalize start_keyframe_index_of work_item metadata = s at hS hE ⊢
  generalize end_keyframe_index_of work_item metadata = e at hE ⊢
  rcases hS with ⟨_, hall⟩ | ⟨hs1, hs2, hs3⟩
  · have := hall metadata.keyframe_positions.length hpos (by omega)
    omega
  · have hsle : (extended_positions metadata).getD s 0 ≤ work_item.start_frame := by
      by_cases hz : s = 0
      · subst hz; omega
      · exact hs3 s (by omega) (Nat.le_refl _)
    rcases hE with ⟨_, hall⟩ | ⟨he1, he2, he3, he4⟩
    · have := hall metadata.keyframe_positions.length (by omega) (by omega)
      omega
    · refine ⟨by omega, ?_, hs1, he2, hsle, hs2, he3, he1, he4⟩
      intro hz
      subst hz
      omega

/-- C4. For metadata with strictly increasing keyframe positions starting at 0
and all below `frames`, and a work item with `start_frame < end_frame ≤ frames`,
the keyframe search over the positions extended by the virtual keyframe
`frames` finds both indices (neither assertion fires), with
`positions[s] ≤ start_frame < positions[s+1]`, `positions[e] ≥ end_frame`, `e`
the smallest index `≥ s` with that property and `s` the only index bracketing
`start_frame`; a pushed `DecodeWorkEntry` has
`start_keyframe = positions[s] ≤ start_frame` and
`end_keyframe = positions[e] ≥ end_frame`, and one is pushed when the read
returns the whole range with `Success` or `EndOfFile`. -/
theorem load_keyframe_interval (work_item : VideoWorkItem) (metadata : DatasetItemMetadata)
    (hsorted : metadata.keyframe_positions.Pairwise (· < ·))
    (h0 : metadata.keyframe_positions.head? = some 0)
    (hlt : ∀ p ∈ metadata.keyframe_positions, p < metadata.frames)
    (hse : work_item.start_frame < work_item.end_frame)
    (hef : work_item.end_frame ≤ metadata.frames)
    (hsize : metadata.keyframe_positions.length < SIZE_MAX) :
    (start_keyframe_index_of work_item metadata ≠ SIZE_MAX ∧
      end_keyframe_index_of work_item metadata ≠ 0 ∧
      start_keyframe_index_of work_item metadata + 1 < (extended_positions metadata).length ∧
      end_keyframe_index_of work_item metadata < (extended_positions metadata).length ∧
      (extended_positions metadata).getD (start_keyframe_index_of work_item metadata) 0
        ≤ work_item.start_frame ∧
      work_item.start_frame <
        (extended_positions metadata).getD (start_keyframe_index_of work_item metadata + 1) 0 ∧
      work_item.end_frame ≤
        (extended_positions metadata).getD (end_keyframe_index_of work_item metadata) 0 ∧
      start_keyframe_index_of work_item metadata ≤ end_keyframe_index_of work_item metadata ∧
      (∀ j, start_keyframe_index_of work_item metadata ≤ j →
        j < end_keyframe_index_of work_item metadata →
        (extended_positions metadata).getD j 0 < work_item.end_frame)) ∧
    (∀ j, j + 1 < (extended_positions metadata).length →
      (extended_positions metadata).getD j 0 ≤ work_item.start_frame →
      work_item.start_frame < (extended_positions metadata).getD (j + 1) 0 →
      j = start_keyframe_index_of work_item metadata) ∧
    (∀ (file_size : Nat) (video_file : RandomReadFile) (k : Int),
      load_work_item work_item metadata file_size (some video_file) k ≠
        .error .assert_start_keyframe_index ∧
      load_work_item work_item metadata file_size (some video_file) k ≠
        .error .assert_end_keyframe_index ∧
      (∀ d, load_work_item work_item metadata file_size (some video_file) k = .ok d →
        d.start_keyframe =
          (extended_positions metadata).getD (start_keyframe_index_of work_item metadata) 0 ∧
        d.start_keyframe ≤ work_item.start_frame ∧
        d.end_keyframe =
          (extended_positions metadata).getD (end_keyframe_index_of work_item metadata) 0 ∧
        work_item.end_frame ≤ d.end_keyframe) ∧
      ((read_outcome_of work_item metadata file_size video_file).size_read =
          data_size_of work_item metadata file_size →
        ((read_outcome_of work_item metadata file_size video_file).result = .Success ∨
          (read_outcome_of work_item metadata file_size video_file).result = .EndOfFile) →
        ∃ d, load_work_item work_item metadata file_size (some video_file) k = .ok d)) := by
  have hspec := keyframe_search_spec work_item metadata h0 hse hef hsize
  obtain ⟨c1, c2, c3, c4, c5, c6, c7, c8, c9⟩ := hspec
  have hext : (extended_positions metadata).Pairwise (· < ·) := by
    rw [extended_positions, List.pairwise_append]
    refine ⟨hsorted, List.pairwise_singleton _ _, ?_⟩
    intro a ha b hb
    simp only [List.mem_singleton] at hb
    subst hb
    exact hlt a ha
  refine ⟨⟨c1, c2, c3, c4, c5, c6, c7, c8, c9⟩, ?_, ?_⟩
  · intro j hj hj1 hj2
    rcases Nat.lt_trichotomy j (start_keyframe_index_of work_item metadata) with hlt1 | heq | hgt
    · exfalso
      by_cases hq : j + 1 = start_keyframe_index_of work_item metadata
      · rw [hq] at hj2; omega
      · have := getD_lt_of_pairwise _ hext (j + 1)
          (start_keyframe_index_of work_item metadata) (by omega) (by omega)
        omega
    · exact heq
    · exfalso
      by_cases hq : start_keyframe_index_of work_item metadata + 1 = j
      · rw [hq] at c6; omega
      · have := getD_lt_of_pairwise _ hext
          (start_keyframe_index_of work_item metadata + 1) j (by omega) (by omega)
        omega
  · intro file_size video_file k
    rw [load_work_item_eq, if_neg c1, if_neg c2]
    refine ⟨?_, ?_, ?_, ?_⟩
    · split_ifs <;> simp
    · split_ifs <;> simp
    · intro d hd
      split_ifs at hd
      simp only [Except.ok.injEq] at hd
      subst hd
      exact ⟨rfl, c5, rfl, c7⟩
    · intro h1 h2
      rw [if_neg (by simpa using h1), if_neg (by
        rcases h2 with h2 | h2 <;> simp [h2])]
      exact ⟨_, rfl⟩

/-- Witness of C4: keyframes at 0, 4, 8 of a 10-frame video, item `[3, 9)`; the
search selects indices 0 and 3, that is keyframes 0 and 10. -/
theorem load_keyframe_interval_witness :
    (start_keyframe_index_of sample_item sample_metadata = 0 ∧
      end_keyframe_index_of sample_item sample_metadata = 3) ∧
    (start_keyframe_index_of sample_item sample_metadata ≠ SIZE_MAX ∧
      end_keyframe_index_of sample_item sample_metadata ≠ 0) :=
  ⟨by decide,
    (load_keyframe_interval sample_item sample_metadata (by decide) (by decide) (by decide)
      (by decide) (by decide) (by decide)).1.1,
    (load_keyframe_interval sample_item sample_metadata (by decide) (by decide) (by decide)
      (by decide) (by decide) (by decide)).1.2.1⟩

/-- The load iteration once the work item, its path and its metadata are resolved. -/
theorem load_body_eq (args : LoadThreadArgs) (st : LoadThreadState) (entry : LoadWorkEntry)
    (work_item : VideoWorkItem) (video_path : String) (metadata : DatasetItemMetadata)
    (hitem : index_int args.work_items entry.work_item_index = some work_item)
    (hpath : args.video_paths[work_item.video_index]? = some video_path)
    (hmeta : args.metadata[work_item.video_index]? = some metadata) :
    load_body args st entry =
      match load_work_item work_item metadata (load_open args st video_path).file_size
          (load_open args st video_path).video_file entry.work_item_index with
      | .error a => .error (.aborted a)
      | .ok d => .ok (load_open args st video_path, [d]) := by
  simp only [load_body, hitem, hpath, hmeta]

/-- C10 (amended). For a load entry whose work item, path and metadata resolve
and whose file is open, the load stage pushes exactly one `DecodeWorkEntry` if
and only if both keyframe assertions pass, the read returned the whole range
(`size_read == data_size`) and its terminal result is `Success` or `EndOfFile`;
in every other case the stage stops on an assertion and pushes nothing. -/
theorem load_pushes_iff (args : LoadThreadArgs) (st : LoadThreadState) (entry : LoadWorkEntry)
    (work_item : VideoWorkItem) (video_path : String) (metadata : DatasetItemMetadata)
    (file : RandomReadFile)
    (hitem : index_int args.work_items entry.work_item_index = some work_item)
    (hpath : args.video_paths[work_item.video_index]? = some video_path)
    (hmeta : args.metadata[work_item.video_index]? = some metadata)
    (hfile : (load_open args st video_path).video_file = some file) :
    ((∃ st1 d, load_body args st entry = .ok (st1, [d])) ↔
      (start_keyframe_index_of work_item metadata ≠ SIZE_MAX ∧
        end_keyframe_index_of work_item metadata ≠ 0 ∧
        (read_outcome_of work_item metadata (load_open args st video_path).file_size
            file).size_read =
          data_size_of work_item metadata (load_open args st video_path).file_size ∧
        ((read_outcome_of work_item metadata (load_open args st video_path).file_size
            file).result = .Success ∨
          (read_outcome_of work_item metadata (load_open args st video_path).file_size
            file).result = .EndOfFile))) ∧
    ((∀ st1 d, load_body args st entry ≠ .ok (st1, [d])) →
      ∃ a, load_body args st entry = .error (.aborted a)) ∧
    (∀ st1 out, load_body args st entry = .ok (st1, out) → out.length = 1) := by
  rw [load_body_eq args st entry work_item video_path metadata hitem hpath hmeta, hfile,
    load_work_item_eq]
  refine ⟨⟨?_, ?_⟩, ?_, ?_⟩
  · rintro ⟨st1, d, h⟩
    split_ifs at h with h1 h2 h3 h4
    refine ⟨h1, h2, by simpa using h3, ?_⟩
    by_cases hr : (read_outcome_of work_item metadata (load_open args st video_path).file_size
        file).result = .Success
    · exact Or.inl hr
    · right
      by_contra hr2
      exact h4 ⟨hr, hr2⟩
  · rintro ⟨h1, h2, h3, h4⟩
    rw [if_neg h1, if_neg h2, if_neg (by simpa using h3), if_neg (by
      rcases h4 with h4 | h4 <;> simp [h4])]
    exact ⟨_, _, rfl⟩
  · intro hno
    split_ifs with h1 h2 h3 h4
    · exact ⟨_, rfl⟩
    · exact ⟨_, rfl⟩
    · exact ⟨_, rfl⟩
    · exact ⟨_, rfl⟩
    · exfalso
      rw [if_neg h1, if_neg h2, if_neg h3, if_neg h4] at hno
      exact hno _ _ rfl
  · intro st1 out h
    split_ifs at h
    simp only [Except.ok.injEq, Prod.mk.injEq] at h
    rw [← h.2]
    rfl

/-- Witness of C10 (amended): the sample item with a read of all 300 bytes is
pushed. -/
theorem load_pushes_iff_witness :
    ∃ st1 d, load_body (sample_load_args full_read) LoadThreadState.init ⟨0⟩ = .ok (st1, [d]) :=
  (load_pushes_iff (sample_load_args full_read) LoadThreadState.init ⟨0⟩ sample_item "a"
    sample_metadata (sample_file full_read) rfl rfl rfl rfl).1.2
    ⟨by decide, by decide, by decide, Or.inl rfl⟩

/-- Counterexample to C10 as stated: the terminal result of the read is
`EndOfFile`, yet the stage stops on `assert(size_read == data_size)` and pushes
nothing. -/
theorem load_end_of_file_short_read_aborts :
    (read_outcome_of sample_item sample_metadata 300 (sample_file short_read)).result =
      .EndOfFile ∧
    load_body (sample_load_args short_read) LoadThreadState.init ⟨0⟩ =
      .error (.aborted .assert_size_read) ∧
    (load_video_thread (sample_load_args short_read) LoadThreadState.init
      [⟨0⟩, ⟨-1⟩]).pushed = [] ∧
    ¬ ((∃ st1 d, load_body (sample_load_args short_read) LoadThreadState.init ⟨0⟩ =
          .ok (st1, [d])) ↔
        ((read_outcome_of sample_item sample_metadata 300 (sample_file short_read)).result =
            .Success ∨
          (read_outcome_of sample_item sample_metadata 300 (sample_file short_read)).result =
            .EndOfFile)) := by
  have hb : load_body (sample_load_args short_read) LoadThreadState.init ⟨0⟩ =
      .error (.aborted .assert_size_read) := by rfl
  refine ⟨rfl, hb, by rfl, ?_⟩
  intro h
  obtain ⟨st1, d, hd⟩ := h.2 (Or.inr rfl)
  rw [hb] at hd
  cases hd

/-! ## Theorems: decode stage -/

/-- The inner loop never moves `current_frame` past `end_frame` and copies only
frames of the work item. -/
theorem frame_loop_spec (work_item : VideoWorkItem) (frame_size decoded_buffer_size : Nat) :
    ∀ (n : Nat) (s r : FrameLoopState),
      frame_loop work_item frame_size decoded_buffer_size n s = .ok r →
      s.current_frame ≤ r.current_frame ∧
      (s.current_frame ≤ work_item.end_frame → r.current_frame ≤ work_item.end_frame) ∧
      ((∀ c ∈ s.calls, call_in_range work_item c) →
        ∀ c ∈ r.calls, call_in_range work_item c) := by
  intro n
  induction n with
  | zero =>
    intro s r h
    simp only [frame_loop] at h
    split_ifs at h
    simp only [Except.ok.injEq] at h
    subst h
    exact ⟨Nat.le_refl _, id, id⟩
  | succ n ih =>
    intro s r h
    simp only [frame_loop] at h
    split_ifs at h with h1 h2 h3
    · obtain ⟨a, b, c⟩ := ih _ r h
      simp only at a b c
      refine ⟨by omega, fun _ => b (by omega), fun hc => c ?_⟩
      intro x hx
      rcases List.mem_append.mp hx with hx | hx
      · exact hc x hx
      · simp only [List.mem_singleton] at hx
        subst hx
        exact ⟨h2, h1.2⟩
    · obtain ⟨a, b, c⟩ := ih _ r h
      simp only at a b c
      refine ⟨by omega, fun _ => b (by omega), fun hc => c ?_⟩
      intro x hx
      rcases List.mem_append.mp hx with hx | hx
      · exact hc x hx
      · simp only [List.mem_singleton] at hx
        subst hx
        trivial
    · simp only [Except.ok.injEq] at h
      subst h
      exact ⟨Nat.le_refl _, id, id⟩

/-- The feed loop leaves with `current_frame ≥ end_frame`, never moves it past
`end_frame`, and copies only frames of the work item. -/
theorem feed_loop_spec (work_item : VideoWorkItem) (entry : DecodeWorkEntry)
    (frame_size decoded_buffer_size : Nat) :
    ∀ (script : List (List Nat)) (s r : FeedLoopState) (rest : List (List Nat)),
      feed_loop work_item entry frame_size decoded_buffer_size script s = .ok (r, rest) →
      work_item.end_frame ≤ r.current_frame ∧
      (s.current_frame ≤ work_item.end_frame → r.current_frame ≤ work_item.end_frame) ∧
      ((∀ c ∈ s.calls, call_in_range work_item c) →
        ∀ c ∈ r.calls, call_in_range work_item c) := by
  intro script
  induction script with
  | nil =>
    intro s r rest h
    simp only [feed_loop] at h
    split_ifs at h with h1
    simp only [Except.ok.injEq, Prod.mk.injEq] at h
    obtain ⟨rfl, _⟩ := h
    exact ⟨by omega, id, id⟩
  | cons nf script ih =>
    intro s r rest h
    simp only [feed_loop] at h
    split_ifs at h with h1 h2
    · cases hf : frame_loop work_item frame_size decoded_buffer_size
          (work_item.end_frame - s.current_frame)
          { decoder := (s.decoder.feed nf s.discontinuity).1, current_frame := s.current_frame,
            more_frames := true,
            calls := s.calls ++
              [.feed (next_packet entry.buffer entry.encoded_data_size
                  s.encoded_buffer_offset).2.1
                (next_packet entry.buffer entry.encoded_data_size s.encoded_buffer_offset).1
                s.discontinuity] } with
      | error why => rw [hf] at h; simp at h
      | ok f =>
        rw [hf] at h
        simp only at h
        obtain ⟨fa, fb, fc⟩ := frame_loop_spec _ _ _ _ _ _ hf
        obtain ⟨a, b, c⟩ := ih _ r rest h
        simp only at fa fb fc a b c
        refine ⟨a, fun hs => b (fb hs), fun hc => c (fc ?_)⟩
        intro x hx
        rcases List.mem_append.mp hx with hx | hx
        · exact hc x hx
        · simp only [List.mem_singleton] at hx
          subst hx
          trivial
    · obtain ⟨a, b, c⟩ := ih _ r rest h
      simp only at a b c
      refine ⟨a, b, fun hc => c ?_⟩
      intro x hx
      rcases List.mem_append.mp hx with hx | hx
      · exact hc x hx
      · simp only [List.mem_singleton] at hx
        subst hx
        trivial
    · simp only [Except.ok.injEq, Prod.mk.injEq] at h
      obtain ⟨rfl, _⟩ := h
      exact ⟨by omega, id, id⟩

/-- The final drain leaves the decoder without a buffered frame. -/
theorem drain_loop_empty :
    ∀ (n : Nat) (dec d : VideoDecoder) (k : Nat),
      drain_loop n dec = some (d, k) → d.buffered = [] := by
  intro n
  induction n with
  | zero => intro dec d k h; simp [drain_loop] at h
  | succ n ih =>
    intro dec d k h
    simp only [drain_loop] at h
    split_ifs at h with h1
    · simp only [Option.map_eq_some', Prod.mk.injEq] at h
      obtain ⟨r, hr, rfl, _⟩ := h
      exact ih _ r.1 r.2 hr
    · simp only [Option.some.injEq, Prod.mk.injEq] at h
      obtain ⟨rfl, _⟩ := h
      simpa [VideoDecoder.discard_frame] using h1

/-- The final drain returns within as many calls as frames are buffered. -/
theorem drain_loop_isSome :
    ∀ (n : Nat) (dec : VideoDecoder), 1 ≤ n → dec.buffered.length ≤ n →
      ∃ r, drain_loop n dec = some r := by
  intro n
  induction n with
  | zero => intro dec h; omega
  | succ n ih =>
    intro dec _ hlen
    simp only [drain_loop]
    split_ifs with h1
    · have hne : dec.buffered.tail ≠ [] := by
        simpa [VideoDecoder.discard_frame] using h1
      have hpos : 1 ≤ dec.buffered.tail.length := by
        cases ht : dec.buffered.tail with
        | nil => exact absurd ht hne
        | cons a r => simp
      have htl : dec.buffered.tail.length = dec.buffered.length - 1 := List.length_tail _
      obtain ⟨r, hr⟩ := ih dec.discard_frame.1 (by omega) (by
        simp only [VideoDecoder.discard_frame]; omega)
      exact ⟨_, by rw [hr]; rfl⟩
    · exact ⟨_, rfl⟩

/-- When the feed loop returns, the decode body returns: it keeps the loop's
frame counter and calls, drains the decoder, and pushes an entry with the
popped index and the pool buffer. -/
theorem decode_work_item_returns (work_item : VideoWorkItem) (entry : DecodeWorkEntry)
    (frame_size : Nat) (decode_buffer_entry : DecodeBufferEntry) (decoder : VideoDecoder)
    (script rest : List (List Nat)) (s : FeedLoopState)
    (hret : feed_loop work_item entry frame_size decode_buffer_entry.buffer_size script
      { decoder := decoder, encoded_buffer_offset := 0, discontinuity := true,
        current_frame := entry.start_keyframe, calls := [] } = .ok (s, rest)) :
    ∃ res, decode_work_item work_item entry frame_size decode_buffer_entry decoder script =
        .ok res ∧
      res.current_frame = s.current_frame ∧ res.calls = s.calls ∧
      res.decoder.buffered = [] ∧
      res.eval_work_entry =
        { work_item_index := entry.work_item_index
          decoded_frames_size := decode_buffer_entry.buffer_size
          buffer := decode_buffer_entry.buffer } := by
  simp only [decode_work_item, hret]
  by_cases hbuf : s.decoder.decoded_frames_buffered > 0
  · rw [if_pos hbuf]
    obtain ⟨r, hr⟩ := drain_loop_isSome s.decoder.decoded_frames_buffered s.decoder hbuf
      (Nat.le_refl _)
    rw [hr]
    exact ⟨_, rfl, rfl, rfl, drain_loop_empty _ _ r.1 r.2 hr, rfl⟩
  · rw [if_neg hbuf]
    refine ⟨_, rfl, rfl, rfl, ?_, rfl⟩
    simp only [VideoDecoder.decoded_frames_buffered] at hbuf
    show s.decoder.buffered = []
    exact List.length_eq_zero.mp (by omega)

/-- C9. For a decode entry with `start_keyframe ≤ start_frame < end_frame` and a
decoder behaviour under which the feed loop returns, the decode body returns as
well, the loop leaves with `current_frame = end_frame`, every `get_frame` was
called with `start_frame ≤ current_frame < end_frame` whatever the decoder had
buffered, and after the final drain the decoder holds no buffered frame. -/
theorem decode_feed_loop_exact (work_item : VideoWorkItem) (entry : DecodeWorkEntry)
    (frame_size : Nat) (decode_buffer_entry : DecodeBufferEntry) (decoder : VideoDecoder)
    (script rest : List (List Nat)) (s : FeedLoopState)
    (hk : entry.start_keyframe ≤ work_item.start_frame)
    (hse : work_item.start_frame < work_item.end_frame)
    (hret : feed_loop work_item entry frame_size decode_buffer_entry.buffer_size script
      { decoder := decoder, encoded_buffer_offset := 0, discontinuity := true,
        current_frame := entry.start_keyframe, calls := [] } = .ok (s, rest)) :
    ∃ res, decode_work_item work_item entry frame_size decode_buffer_entry decoder script =
        .ok res ∧
      res.current_frame = s.current_frame ∧ res.calls = s.calls ∧
      res.current_frame = work_item.end_frame ∧
      (∀ c ∈ res.calls, call_in_range work_item c) ∧
      res.decoder.buffered = [] := by
  obtain ⟨a, b, c⟩ := feed_loop_spec _ _ _ _ _ _ _ _ hret
  simp only at b c
  have hcur : s.current_frame = work_item.end_frame := by
    have := b (by omega)
    omega
  have hcalls : ∀ x ∈ s.calls, call_in_range work_item x := c (by simp)
  obtain ⟨res, h1, h2, h3, h4, _⟩ :=
    decode_work_item_returns work_item entry frame_size decode_buffer_entry decoder script
      rest s hret
  exact ⟨res, h1, h2, h3, by rw [h2]; exact hcur, by rw [h3]; exact hcalls, h4⟩

/-- Witness of C9: the decoder yields twelve frames where nine are needed and
starts with a stale frame; frames 0-2 are discarded, 3-8 copied, the last three
drained. -/
theorem decode_feed_loop_exact_witness :
    ∃ res, decode_work_item sample_item sample_decode_entry 12 sample_buffer ⟨[999]⟩
        sample_script = .ok res ∧
      res.current_frame = 9 ∧ res.drain_calls = 3 ∧ res.decoder.buffered = [] ∧
      (∀ c ∈ res.calls, call_in_range sample_item c) := by
  obtain ⟨res, h1, h2, _, _, h5, h6⟩ :=
    decode_feed_loop_exact sample_item sample_decode_entry 12 sample_buffer ⟨[999]⟩
      sample_script []
      { decoder := ⟨[109, 110, 111]⟩, encoded_buffer_offset := 0, discontinuity := false,
        current_frame := 9,
        calls := [.feed none 0 true, .feed none 0 false, .discard_frame 0, .discard_frame 1,
          .discard_frame 2, .get_frame 3 0 (some 103), .get_frame 4 12 (some 104),
          .get_frame 5 24 (some 105), .get_frame 6 36 (some 106), .get_frame 7 48 (some 107),
          .get_frame 8 60 (some 108)] }
      (by decide) (by decide) rfl
  refine ⟨res, h1, h2, ?_, h6, h5⟩
  have h : decode_work_item sample_item sample_decode_entry 12 sample_buffer ⟨[999]⟩
      sample_script = .ok
        { decoder := ⟨[]⟩, script := [], current_frame := 9,
          calls := [.feed none 0 true, .feed none 0 false, .discard_frame 0, .discard_frame 1,
            .discard_frame 2, .get_frame 3 0 (some 103), .get_frame 4 12 (some 104),
            .get_frame 5 24 (some 105), .get_frame 6 36 (some 106),
            .get_frame 7 48 (some 107), .get_frame 8 60 (some 108)],
          drain_calls := 3,
          eval_work_entry := { work_item_index := 0, decoded_frames_size := 1152, buffer := 7 } } := by
    rfl
  rw [h] at h1
  cases h1
  rfl

/-! ## Theorems: evaluate and save stages -/

/-- With `GLOBAL_BATCH_SIZE ≥ 1` the batch loop returns within `end_frame -
current_frame` iterations. -/
theorem batch_loop_isSome (args : EvaluateThreadArgs) (work_item : VideoWorkItem)
    (frame_size output_size_per_frame : Nat) (hB : 1 ≤ args.GLOBAL_BATCH_SIZE) :
    ∀ (n current_frame : Nat), work_item.end_frame - current_frame ≤ n →
      ∃ l, batch_loop args work_item frame_size output_size_per_frame n current_frame =
        some l := by
  intro n
  induction n with
  | zero =>
    intro cur h
    simp only [batch_loop]
    rw [if_neg (by omega)]
    exact ⟨[], rfl⟩
  | succ n ih =>
    intro cur h
    simp only [batch_loop]
    split_ifs with h1
    · obtain ⟨l, hl⟩ := ih (cur + min args.GLOBAL_BATCH_SIZE (work_item.end_frame - cur))
        (by omega)
      exact ⟨_, by rw [hl]; rfl⟩
    · exact ⟨[], rfl⟩

/-- Within the range of `int` the size computed for the output buffer does not
wrap. -/
theorem output_buffer_size_exact (args : EvaluateThreadArgs) (work_item : VideoWorkItem)
    (hse : work_item.start_frame ≤ work_item.end_frame) (hend : work_item.end_frame < 2 ^ 31)
    (hcount : args.output_count < 2 ^ 31) :
    output_buffer_size_of args work_item =
      (work_item.end_frame - work_item.start_frame) * args.output_count * 4 := by
  have h1 : (work_item.end_frame + 2 ^ 64 - work_item.start_frame) % 2 ^ 64 =
      work_item.end_frame - work_item.start_frame := by omega
  have h2 : (args.output_count * 4) % 2 ^ 64 = args.output_count * 4 := by omega
  have h3 : (work_item.end_frame - work_item.start_frame) * args.output_count
      ≤ (2 ^ 31 - 1) * (2 ^ 31 - 1) := Nat.mul_le_mul (by omega) (by omega)
  rw [output_buffer_size_of, output_size_per_frame_of, h1, h2, ← Nat.mul_assoc]
  apply Nat.mod_eq_of_lt
  exact Nat.lt_of_le_of_lt (Nat.mul_le_mul_right 4 h3) (by norm_num)

/-- C5. For every work item (`start_frame ≤ end_frame`, both `int`) and every
network output size (`count(1)`, an `int`), the `SaveWorkEntry` pushed by the
evaluate stage carries `output_buffer_size = (end_frame - start_frame) *
output_floats_per_frame * 4`, and the save stage appends exactly that many bytes
to the output file of the item, so the file has that byte length; the evaluate
body returns whenever `GLOBAL_BATCH_SIZE ≥ 1` and the save body whenever the
append ends with `Success` or `EndOfFile`. -/
theorem saved_output_size (eargs : EvaluateThreadArgs) (sargs : SaveThreadArgs)
    (sst : SaveThreadState) (work_item : VideoWorkItem) (metadata : DatasetItemMetadata)
    (video_path : String) (work_entry : EvalWorkEntry)
    (hse : work_item.start_frame ≤ work_item.end_frame) (hend : work_item.end_frame < 2 ^ 31)
    (hcount : eargs.output_count < 2 ^ 31) :
    (∀ res, evaluate_work_item eargs work_item metadata work_entry = .ok res →
      res.save_work_entry.output_buffer_size =
        (work_item.end_frame - work_item.start_frame) * eargs.output_count * 4 ∧
      ∀ sst1, save_work_item sargs sst work_item video_path res.save_work_entry = .ok sst1 →
        sst1.files = sst.files ++
          [((video_path, work_item.start_frame, work_item.end_frame),
            (work_item.end_frame - work_item.start_frame) * eargs.output_count * 4)]) ∧
    (1 ≤ eargs.GLOBAL_BATCH_SIZE →
      ∃ res, evaluate_work_item eargs work_item metadata work_entry = .ok res) ∧
    (∀ e : SaveWorkEntry,
      (sargs.append_result (video_path, work_item.start_frame, work_item.end_frame)
          e.output_buffer_size = .Success ∨
        sargs.append_result (video_path, work_item.start_frame, work_item.end_frame)
          e.output_buffer_size = .EndOfFile) →
      ∃ sst1, save_work_item sargs sst work_item video_path e = .ok sst1) := by
  have hsize := output_buffer_size_exact eargs work_item hse hend hcount
  refine ⟨?_, ?_, ?_⟩
  · intro res hres
    simp only [evaluate_work_item] at hres
    cases hb : batch_loop eargs work_item (nv12_frame_size metadata.width metadata.height)
        (output_size_per_frame_of eargs) (work_item.end_frame - work_item.start_frame)
        work_item.start_frame with
    | none => rw [hb] at hres; simp at hres
    | some batches =>
      rw [hb] at hres
      simp only [Except.ok.injEq] at hres
      subst hres
      refine ⟨hsize, ?_⟩
      intro sst1 hs
      simp only [save_work_item] at hs
      split_ifs at hs
      simp only [Except.ok.injEq] at hs
      rw [← hs, hsize]
  · intro hB
    obtain ⟨l, hl⟩ := batch_loop_isSome eargs work_item
      (nv12_frame_size metadata.width metadata.height) (output_size_per_frame_of eargs) hB
      (work_item.end_frame - work_item.start_frame) work_item.start_frame (Nat.le_refl _)
    simp only [evaluate_work_item, hl]
    exact ⟨_, rfl⟩
  · intro e he
    simp only [save_work_item]
    rw [if_neg (by rcases he with he | he <;> simp [he])]
    exact ⟨_, rfl⟩

/-- Witness of C5: the item `[3, 9)` with 1000 output floats per frame is saved
as a file of `6 * 1000 * 4 = 24000` bytes. -/
theorem saved_output_size_witness :
    ∃ res, evaluate_work_item sample_eval_args sample_item sample_metadata sample_eval_entry =
        .ok res ∧
      res.save_work_entry.output_buffer_size = 24000 ∧
      save_work_item sample_save_args ⟨[]⟩ sample_item "a" res.save_work_entry =
        .ok ⟨[(("a", 3, 9), 24000)]⟩ := by
  have h := saved_output_size sample_eval_args sample_save_args ⟨[]⟩ sample_item
    sample_metadata "a" sample_eval_entry (by decide) (by decide) (by decide)
  obtain ⟨res, hres⟩ := h.2.1 (by decide)
  obtain ⟨h1, h2⟩ := h.1 res hres
  obtain ⟨sst1, hs⟩ := h.2.2 res.save_work_entry (Or.inl rfl)
  refine ⟨res, hres, h1, ?_⟩
  rw [hs]
  congr 1
  have := h2 sst1 hs
  cases sst1
  simpa using this

/-! ## Theorems: GPU buffer pool -/

theorem queued_buffers_append (q : List EvalWorkEntry) (e : EvalWorkEntry) :
    queued_buffers (q ++ [e]) =
      queued_buffers q ++ (if e.work_item_index = -1 then [] else [e.held_buffer]) := by
  by_cases h : e.work_item_index = -1 <;> simp [queued_buffers, List.filter_append, h]

theorem queued_buffers_cons (e : EvalWorkEntry) (q : List EvalWorkEntry) :
    queued_buffers (e :: q) =
      (if e.work_item_index = -1 then [] else [e.held_buffer]) ++ queued_buffers q := by
  by_cases h : e.work_item_index = -1 <;> simp [queued_buffers, List.filter_cons, h]

/-- A step of the pool keeps the multiset of buffers in circulation. -/
theorem pool_step_in_circulation (st st1 : PoolState) (a : PoolAction)
    (h : pool_step st a = some st1) : in_circulation st1 = in_circulation st := by
  cases a with
  | decode_pop =>
    simp only [pool_step] at h
    split at h
    · rename_i b rest hh he
      simp only [Option.some.injEq] at h
      subst h
      simp only [in_circulation, in_flight, hh, he, Option.toList, ← Multiset.coe_add]
      simp only [← Multiset.cons_coe, Multiset.coe_nil, ← Multiset.singleton_add, zero_add,
        add_zero]
      ac_rfl
    · simp at h
  | decode_push k =>
    simp only [pool_step] at h
    split at h
    · rename_i b hh
      split_ifs at h with hk
      simp only [Option.some.injEq] at h
      subst h
      simp only [in_circulation, in_flight, hh, Option.toList, ← Multiset.coe_add,
        queued_buffers_append, if_neg hk, EvalWorkEntry.held_buffer]
      simp only [← Multiset.cons_coe, Multiset.coe_nil, ← Multiset.singleton_add, zero_add,
        add_zero]
      ac_rfl
    · simp at h
  | eval_pop =>
    simp only [pool_step] at h
    split_ifs at h with hx
    split at h
    · rename_i e rest hh he
      split_ifs at h with hk
      · simp only [Option.some.injEq] at h
        subst h
        simp only [in_circulation, in_flight, hh, he, queued_buffers_cons, if_pos hk,
          List.nil_append]
      · simp only [Option.some.injEq] at h
        subst h
        simp only [in_circulation, in_flight, hh, he, Option.toList, ← Multiset.coe_add,
          queued_buffers_cons, if_neg hk, List.map_nil, List.map_cons]
        simp only [← Multiset.cons_coe, Multiset.coe_nil, ← Multiset.singleton_add, zero_add,
          add_zero]
        ac_rfl
    · simp at h
  | eval_push =>
    simp only [pool_step] at h
    split at h
    · rename_i e hh
      simp only [Option.some.injEq] at h
      subst h
      simp only [in_circulation, in_flight, hh, Option.toList, ← Multiset.coe_add,
        List.map_nil, List.map_cons, EvalWorkEntry.held_buffer]
      simp only [← Multiset.cons_coe, Multiset.coe_nil, ← Multiset.singleton_add, zero_add,
        add_zero]
      ac_rfl
    · simp at h
  | push_sentinel sz b =>
    simp only [pool_step, Option.some.injEq] at h
    subst h
    simp only [in_circulation, in_flight, queued_buffers_append, if_pos, List.append_nil]

/-- Every state reached from the initial pool holds the initial buffers. -/
theorem pool_run_in_circulation :
    ∀ (actions : List PoolAction) (st st1 : PoolState),
      pool_run st actions = some st1 → in_circulation st1 = in_circulation st := by
  intro actions
  induction actions with
  | nil =>
    intro st st1 h
    simp only [pool_run, Option.some.injEq] at h
    rw [h]
  | cons a rest ih =>
    intro st st1 h
    simp only [pool_run] at h
    cases hs : pool_step st a with
    | none => rw [hs] at h; simp at h
    | some st2 =>
      rw [hs] at h
      rw [ih st2 st1 h, pool_step_in_circulation st st2 a hs]

/-- C6. In every state the pool of a GPU reaches from its initial state by
decode pops and pushes, evaluate pops and pushes and sentinel pushes, the
number of entries in `empty_decode_buffers[g]` plus the number of buffers held
by the decode worker, by an entry of `eval_work[g]` or by the evaluate worker
equals `LOAD_BUFFERS`, and the multiset of `(buffer, buffer_size)` pairs in
circulation is the one allocated at job start. -/
theorem pool_buffers_conserved (frame_buffer_size : Nat) (frame_buffers : List Nat)
    (actions : List PoolAction) (st : PoolState)
    (h : pool_run (pool_init frame_buffer_size frame_buffers) actions = some st) :
    st.empty_decode_buffers.length + (in_flight st).length = frame_buffers.length ∧
    in_circulation st =
      ((frame_buffers.map fun b =>
        ({ buffer_size := frame_buffer_size, buffer := b } : DecodeBufferEntry)) :
        Multiset DecodeBufferEntry) := by
  have hc := pool_run_in_circulation actions _ st h
  have hinit : in_circulation (pool_init frame_buffer_size frame_buffers) =
      ((frame_buffers.map fun b =>
        ({ buffer_size := frame_buffer_size, buffer := b } : DecodeBufferEntry)) :
        Multiset DecodeBufferEntry) := by
    simp [in_circulation, in_flight, pool_init, queued_buffers]
  rw [hinit] at hc
  refine ⟨?_, hc⟩
  have hcard := congrArg Multiset.card hc
  simpa [in_circulation] using hcard

/-- Witness of C6: a pool of two buffers after six steps still holds both. -/
theorem pool_buffers_conserved_witness :
    ∃ st, pool_run (pool_init 1152 [7, 8]) sample_pool_actions = some st ∧
      st.empty_decode_buffers.length + (in_flight st).length = 2 :=
  ⟨_, rfl, (pool_buffers_conserved 1152 [7, 8] sample_pool_actions _ rfl).1⟩

/-! ## Theorems: sentinel protocol of the worker loop -/

theorem run_bodies_lengths {σ In Out : Type} (body : σ → In → Except Stop (σ × List Out))
    (k : Nat) (hk : ∀ st e st1 out, body st e = .ok (st1, out) → out.length = k) :
    ∀ (xs : List In) (st st1 : σ) (outs : List (List Out)),
      run_bodies body st xs = .ok (st1, outs) →
      outs.length = xs.length ∧ (∀ o ∈ outs, o.length = k) ∧ outs.flatten.length = k * xs.length := by
  intro xs
  induction xs with
  | nil =>
    intro st st1 outs h
    simp only [run_bodies, Except.ok.injEq, Prod.mk.injEq] at h
    obtain ⟨_, rfl⟩ := h
    simp
  | cons e q ih =>
    intro st st1 outs h
    simp only [run_bodies] at h
    cases hb : body st e with
    | error why => rw [hb] at h; simp at h
    | ok r =>
      obtain ⟨st2, out⟩ := r
      rw [hb] at h
      simp only at h
      cases hr : run_bodies body st2 q with
      | error why => rw [hr] at h; simp at h
      | ok r2 =>
        obtain ⟨st3, outs2⟩ := r2
        rw [hr] at h
        simp only [Except.ok.injEq, Prod.mk.injEq] at h
        obtain ⟨_, rfl⟩ := h
        obtain ⟨a, b, c⟩ := ih st2 st3 outs2 hr
        have hlen := hk st e st2 out hb
        refine ⟨by simp [a], ?_, ?_⟩
        · intro o ho
          rcases List.mem_cons.mp ho with rfl | ho
          · exact hlen
          · exact b o ho
        · simp only [List.flatten_cons, List.length_append, c, hlen, List.length_cons]
          rw [Nat.mul_succ, Nat.add_comm]

/-- The worker loop never pops past the first sentinel and processes a prefix of
what precedes it. -/
theorem worker_loop_frame {σ In Out : Type} (is_sentinel : In → Bool)
    (body : σ → In → Except Stop (σ × List Out)) :
    ∀ (xs : List In) (st : σ) (s : In) (ys : List In),
      (∀ x ∈ xs, is_sentinel x = false) → is_sentinel s = true →
      (∃ rest, xs = (worker_loop is_sentinel body st (xs ++ s :: ys)).processed ++ rest) ∧
      (∃ pre, (worker_loop is_sentinel body st (xs ++ s :: ys)).remaining = pre ++ ys) := by
  intro xs
  induction xs with
  | nil =>
    intro st s ys _ hs
    simp only [List.nil_append, worker_loop, hs, if_true]
    exact ⟨⟨[], rfl⟩, ⟨[], rfl⟩⟩
  | cons e q ih =>
    intro st s ys hxs hs
    have he : is_sentinel e = false := hxs e (List.mem_cons_self _ _)
    simp only [List.cons_append, worker_loop, he, List.append_eq]
    cases hb : body st e with
    | error why =>
      simp only [Bool.false_eq_true, if_false]
      exact ⟨⟨e :: q, rfl⟩, ⟨q ++ [s], by simp⟩⟩
    | ok r =>
      obtain ⟨st2, out⟩ := r
      simp only [Bool.false_eq_true, if_false]
      obtain ⟨⟨rest, h1⟩, ⟨pre, h2⟩⟩ :=
        ih st2 s ys (fun x hx => hxs x (List.mem_cons_of_mem _ hx)) hs
      refine ⟨⟨rest, ?_⟩, ⟨pre, h2⟩⟩
      simp only [List.cons_append]
      rw [← h1]

/-- When every body returns, the worker loop processes all entries before the
first sentinel and stops there. -/
theorem worker_loop_until_sentinel {σ In Out : Type} (is_sentinel : In → Bool)
    (body : σ → In → Except Stop (σ × List Out)) :
    ∀ (xs : List In) (st : σ) (s : In) (ys : List In) (st1 : σ) (outs : List (List Out)),
      (∀ x ∈ xs, is_sentinel x = false) → is_sentinel s = true →
      run_bodies body st xs = .ok (st1, outs) →
      worker_loop is_sentinel body st (xs ++ s :: ys) =
        { state := st1, processed := xs, pushed := outs.flatten, remaining := ys,
          stop := .sentinel } := by
  intro xs
  induction xs with
  | nil =>
    intro st s ys st1 outs _ hs h
    simp only [run_bodies, Except.ok.injEq, Prod.mk.injEq] at h
    obtain ⟨rfl, rfl⟩ := h
    simp [worker_loop, hs]
  | cons e q ih =>
    intro st s ys st1 outs hxs hs h
    have he : is_sentinel e = false := hxs e (List.mem_cons_self _ _)
    simp only [run_bodies] at h
    cases hb : body st e with
    | error why => rw [hb] at h; simp at h
    | ok r =>
      obtain ⟨st2, out⟩ := r
      rw [hb] at h
      simp only at h
      cases hr : run_bodies body st2 q with
      | error why => rw [hr] at h; simp at h
      | ok r2 =>
        obtain ⟨st3, outs2⟩ := r2
        rw [hr] at h
        simp only [Except.ok.injEq, Prod.mk.injEq] at h
        obtain ⟨rfl, rfl⟩ := h
        have := ih st2 s ys st3 outs2 (fun x hx => hxs x (List.mem_cons_of_mem _ hx)) hs hr
        simp only [List.cons_append, worker_loop, he, hb, List.append_eq, this,
          Bool.false_eq_true, if_false, List.flatten_cons]

/-- When the body of an entry fails, the worker loop stops at the first such
entry: it has processed the entries before it, and everything after it,
the sentinel included, is still in the queue. -/
theorem worker_loop_stops_at_failure {σ In Out : Type} (is_sentinel : In → Bool)
    (body : σ → In → Except Stop (σ × List Out)) :
    ∀ (xs : List In) (st : σ) (tail : List In) (why : Stop),
      (∀ x ∈ xs, is_sentinel x = false) →
      run_bodies body st xs = .error why →
      ∃ (p : List In) (e : In) (rest : List In) (st1 : σ) (outs : List (List Out)),
        xs = p ++ e :: rest ∧ run_bodies body st p = .ok (st1, outs) ∧
        body st1 e = .error why ∧
        worker_loop is_sentinel body st (xs ++ tail) =
          { state := st1, processed := p, pushed := outs.flatten,
            remaining := rest ++ tail, stop := why } := by
  intro xs
  induction xs with
  | nil =>
    intro st tail why _ h
    simp [run_bodies] at h
  | cons e q ih =>
    intro st tail why hxs h
    have he : is_sentinel e = false := hxs e (List.mem_cons_self _ _)
    simp only [run_bodies] at h
    cases hb : body st e with
    | error why2 =>
      rw [hb] at h
      simp only [Except.error.injEq] at h
      subst h
      refine ⟨[], e, q, st, [], rfl, rfl, hb, ?_⟩
      simp only [List.cons_append, worker_loop, he, hb, Bool.false_eq_true, if_false,
        List.flatten_nil, List.append_eq]
    | ok r =>
      obtain ⟨st2, out⟩ := r
      rw [hb] at h
      simp only at h
      cases hr : run_bodies body st2 q with
      | ok r2 => rw [hr] at h; simp at h
      | error why2 =>
        rw [hr] at h
        simp only [Except.error.injEq] at h
        subst h
        obtain ⟨p, e2, rest, st1, outs, h1, h2, h3, h4⟩ :=
          ih st2 tail why2 (fun x hx => hxs x (List.mem_cons_of_mem _ hx)) hr
        refine ⟨e :: p, e2, rest, st1, out :: outs, by rw [h1]; rfl, ?_, h3, ?_⟩
        · simp only [run_bodies, hb, h2]
        · simp only [List.cons_append, worker_loop, he, hb, List.append_eq, h4,
            Bool.false_eq_true, if_false, List.flatten_cons]

/-- The sentinel protocol for any thread built from the worker loop. -/
theorem stops_at_sentinel_of_body {σ In Out : Type} (index : In → Int)
    (body : σ → In → Except Stop (σ × List Out)) (k : Nat)
    (hk : ∀ st e st1 out, body st e = .ok (st1, out) → out.length = k) :
    StopsAtSentinel (worker_loop (fun e => index e == -1) body) body index k := by
  intro st xs s ys hxs hs
  have hxs2 : ∀ x ∈ xs, (fun e => index e == -1) x = false := by
    intro x hx
    simpa using hxs x hx
  have hs2 : (fun e => index e == -1) s = true := by simpa using hs
  obtain ⟨f1, f2⟩ := worker_loop_frame (fun e => index e == -1) body xs st s ys hxs2 hs2
  have hok : ∀ (st1 : σ) (outs : List (List Out)), run_bodies body st xs = .ok (st1, outs) →
      worker_loop (fun e => index e == -1) body st (xs ++ s :: ys) =
        { state := st1, processed := xs, pushed := outs.flatten, remaining := ys,
          stop := .sentinel } :=
    fun st1 outs hrun =>
      worker_loop_until_sentinel (fun e => index e == -1) body xs st s ys st1 outs hxs2 hs2 hrun
  have herr := worker_loop_stops_at_failure (fun e => index e == -1) body xs st (s :: ys)
  refine ⟨f1, f2, ?_, ?_, ?_, ?_⟩
  · cases hrun : run_bodies body st xs with
    | ok r =>
      obtain ⟨st1, outs⟩ := r
      rw [hok st1 outs hrun]
      exact (run_bodies_lengths body k hk xs st st1 outs hrun).2.2
    | error why =>
      obtain ⟨p, e, rest, st1, outs, _, h2, _, h4⟩ := herr why hxs2 hrun
      rw [h4]
      exact (run_bodies_lengths body k hk p st st1 outs h2).2.2
  · intro st1 outs hrun
    obtain ⟨a, b, c⟩ := run_bodies_lengths body k hk xs st st1 outs hrun
    rw [hok st1 outs hrun]
    exact ⟨rfl, rfl, a, b, c, rfl, rfl, rfl⟩
  · intro why hrun
    obtain ⟨p, e, rest, st1, outs, h1, h2, h3, h4⟩ := herr why hxs2 hrun
    rw [h4]
    exact ⟨p, e, rest, st1, outs, h1, h2, h3, rfl, rfl, rfl, rfl, rfl⟩
  · constructor
    · intro hp
      cases hrun : run_bodies body st xs with
      | ok r => exact ⟨r.1, r.2, rfl⟩
      | error why =>
        exfalso
        obtain ⟨p, e, rest, st1, outs, h1, _, _, h4⟩ := herr why hxs2 hrun
        rw [h4] at hp
        simp only at hp
        rw [hp] at h1
        have := congrArg List.length h1
        simp at this
    · rintro ⟨st1, outs, hrun⟩
      rw [hok st1 outs hrun]

theorem load_body_pushes_one (args : LoadThreadArgs) :
    ∀ st e st1 out, load_body args st e = .ok (st1, out) → out.length = 1 := by
  intro st e st1 out h
  simp only [load_body] at h
  split at h
  · simp at h
  · split at h
    · split at h
      · simp at h
      · simp only [Except.ok.injEq, Prod.mk.injEq] at h
        rw [← h.2]; rfl
    · simp at h

theorem decode_body_pushes_one (args : DecodeThreadArgs) :
    ∀ st e st1 out, decode_body args st e = .ok (st1, out) → out.length = 1 := by
  intro st e st1 out h
  simp only [decode_body] at h
  split at h
  · simp at h
  · split at h
    · simp at h
    · split at h
      · simp at h
      · split at h
        · simp at h
        · simp only [Except.ok.injEq, Prod.mk.injEq] at h
          rw [← h.2]; rfl

theorem evaluate_body_pushes_one (args : EvaluateThreadArgs) :
    ∀ st e st1 out, evaluate_body args st e = .ok (st1, out) → out.length = 1 := by
  intro st e st1 out h
  simp only [evaluate_body] at h
  split at h
  · simp at h
  · split at h
    · simp at h
    · split at h
      · simp at h
      · simp only [Except.ok.injEq, Prod.mk.injEq] at h
        rw [← h.2]; rfl

theorem save_body_pushes_none (args : SaveThreadArgs) :
    ∀ st e st1 out, save_body args st e = .ok (st1, out) → out.length = 0 := by
  intro st e st1 out h
  cases out with
  | nil => rfl
  | cons a _ => exact a.elim

/-- C7 (amended). Each of the four stage workers, as a function of the entries it
pops: on `xs ++ [sentinel] ++ ys` with `xs` free of sentinels the worker pops
no entry of `ys`, pushes nothing for the sentinel and one downstream entry per
entry it processed (none for the save stage); it processes exactly the entries
of `xs` in order and stops on popping the sentinel if and only if the body of
every entry of `xs` runs to its end; otherwise it stops at the first entry
whose body does not, having processed the entries before it, and the sentinel
stays in the queue. -/
theorem workers_stop_at_first_sentinel :
    (∀ args : LoadThreadArgs,
      StopsAtSentinel (load_video_thread args) (load_body args)
        (fun e => e.work_item_index) 1) ∧
    (∀ args : DecodeThreadArgs,
      StopsAtSentinel (decode_thread args) (decode_body args)
        (fun e => e.work_item_index) 1) ∧
    (∀ args : EvaluateThreadArgs,
      StopsAtSentinel (evaluate_thread args) (evaluate_body args)
        (fun e => e.work_item_index) 1) ∧
    (∀ args : SaveThreadArgs,
      StopsAtSentinel (save_thread args) (save_body args)
        (fun e => e.work_item_index) 0) :=
  ⟨fun args => stops_at_sentinel_of_body _ _ 1 (load_body_pushes_one args),
    fun args => stops_at_sentinel_of_body _ _ 1 (decode_body_pushes_one args),
    fun args => stops_at_sentinel_of_body _ _ 1 (evaluate_body_pushes_one args),
    fun args => stops_at_sentinel_of_body _ _ 0 (save_body_pushes_none args)⟩

/-- Witness of C7 (amended): each of the four threads on a queue
`[entry, sentinel, entry]` whose first body returns processes the first entry,
pushes one entry (none for save), stops at the sentinel and leaves the last
entry. -/
theorem workers_stop_at_first_sentinel_witness :
    ((load_video_thread (sample_load_args full_read) LoadThreadState.init
          [⟨0⟩, ⟨-1⟩, ⟨0⟩]).processed = [⟨0⟩] ∧
      (load_video_thread (sample_load_args full_read) LoadThreadState.init
          [⟨0⟩, ⟨-1⟩, ⟨0⟩]).pushed.length = 1 ∧
      (load_video_thread (sample_load_args full_read) LoadThreadState.init
          [⟨0⟩, ⟨-1⟩, ⟨0⟩]).remaining = [⟨0⟩] ∧
      (load_video_thread (sample_load_args full_read) LoadThreadState.init
          [⟨0⟩, ⟨-1⟩, ⟨0⟩]).stop = .sentinel) ∧
    ((decode_thread sample_decode_args sample_decode_state
          [sample_decode_entry, decode_sentinel, sample_decode_entry]).processed =
        [sample_decode_entry] ∧
      (decode_thread sample_decode_args sample_decode_state
          [sample_decode_entry, decode_sentinel, sample_decode_entry]).pushed.length = 1 ∧
      (decode_thread sample_decode_args sample_decode_state
          [sample_decode_entry, decode_sentinel, sample_decode_entry]).remaining =
        [sample_decode_entry] ∧
      (decode_thread sample_decode_args sample_decode_state
          [sample_decode_entry, decode_sentinel, sample_decode_entry]).stop = .sentinel) ∧
    ((evaluate_thread sample_eval_args ⟨[]⟩
          [sample_eval_entry, eval_sentinel, sample_eval_entry]).processed =
        [sample_eval_entry] ∧
      (evaluate_thread sample_eval_args ⟨[]⟩
          [sample_eval_entry, eval_sentinel, sample_eval_entry]).pushed.length = 1 ∧
      (evaluate_thread sample_eval_args ⟨[]⟩
          [sample_eval_entry, eval_sentinel, sample_eval_entry]).remaining =
        [sample_eval_entry] ∧
      (evaluate_thread sample_eval_args ⟨[]⟩
          [sample_eval_entry, eval_sentinel, sample_eval_entry]).stop = .sentinel) ∧
    ((save_thread sample_save_args ⟨[]⟩
          [sample_save_entry, save_sentinel, sample_save_entry]).processed =
        [sample_save_entry] ∧
      (save_thread sample_save_args ⟨[]⟩
          [sample_save_entry, save_sentinel, sample_save_entry]).pushed.length = 0 ∧
      (save_thread sample_save_args ⟨[]⟩
          [sample_save_entry, save_sentinel, sample_save_entry]).remaining =
        [sample_save_entry] ∧
      (save_thread sample_save_args ⟨[]⟩
          [sample_save_entry, save_sentinel, sample_save_entry]).stop = .sentinel) := by
  have hl := (workers_stop_at_first_sentinel.1 (sample_load_args full_read)
    LoadThreadState.init [⟨0⟩] ⟨-1⟩ [⟨0⟩] (by decide) rfl).2.2.2.1 _ _ rfl
  have hd := (workers_stop_at_first_sentinel.2.1 sample_decode_args sample_decode_state
    [sample_decode_entry] decode_sentinel [sample_decode_entry] (by decide) rfl).2.2.2.1 _ _ rfl
  have he := (workers_stop_at_first_sentinel.2.2.1 sample_eval_args ⟨[]⟩
    [sample_eval_entry] eval_sentinel [sample_eval_entry] (by decide) rfl).2.2.2.1 _ _ rfl
  have hs := (workers_stop_at_first_sentinel.2.2.2 sample_save_args ⟨[]⟩
    [sample_save_entry] save_sentinel [sample_save_entry] (by decide) rfl).2.2.2.1 _ _ rfl
  exact ⟨⟨hl.1, hl.2.2.2.2.1, hl.2.2.2.2.2.1, hl.2.2.2.2.2.2.1⟩,
    ⟨hd.1, hd.2.2.2.2.1, hd.2.2.2.2.2.1, hd.2.2.2.2.2.2.1⟩,
    ⟨he.1, he.2.2.2.2.1, he.2.2.2.2.2.1, he.2.2.2.2.2.2.1⟩,
    ⟨hs.1, hs.2.2.2.2.1, hs.2.2.2.2.2.1, hs.2.2.2.2.2.2.1⟩⟩

/-- Counterexample to C7 as stated: the load thread on the queue `[0, -1, 0]`,
whose first entry is no sentinel, with a read that ends at the end of the file
after 120 of 300 bytes: the assertion on `size_read` stops the thread in its
first body; it has processed no entry and pushed none, and the sentinel is
still in the queue. -/
theorem load_thread_stops_before_sentinel :
    (∀ x ∈ [(⟨0⟩ : LoadWorkEntry)], x.work_item_index ≠ -1) ∧
    (load_video_thread (sample_load_args short_read) LoadThreadState.init
        [⟨0⟩, ⟨-1⟩, ⟨0⟩]).processed = [] ∧
    (load_video_thread (sample_load_args short_read) LoadThreadState.init
        [⟨0⟩, ⟨-1⟩, ⟨0⟩]).pushed = [] ∧
    (load_video_thread (sample_load_args short_read) LoadThreadState.init
        [⟨0⟩, ⟨-1⟩, ⟨0⟩]).remaining = [⟨-1⟩, ⟨0⟩] ∧
    (load_video_thread (sample_load_args short_read) LoadThreadState.init
        [⟨0⟩, ⟨-1⟩, ⟨0⟩]).stop = .aborted .assert_size_read :=
  ⟨by decide, rfl, rfl, rfl, rfl⟩

/-! ## Theorems: distribution coordinator -/

/-- The first master loop dispatches consecutive indices from `next` on, none of
them `-1`, and has dispatched all `n` when it exits. -/
theorem master_distribute_spec (n : Nat) (T : Int) (num_nodes : Nat) :
    ∀ (obs : List Observation) (next : Nat), next ≤ n →
      next ≤ (master_distribute n T num_nodes obs next).next ∧
      (master_distribute n T num_nodes obs next).next ≤ n ∧
      (master_distribute n T num_nodes obs next).events.map Dispatch.index =
        (List.range' next ((master_distribute n T num_nodes obs next).next - next)).map
          Int.ofNat ∧
      (∀ rest, (master_distribute n T num_nodes obs next).rest = some rest →
        (master_distribute n T num_nodes obs next).next = n) ∧
      (∀ p ∈ sends_of (master_distribute n T num_nodes obs next).events, p.2 ≠ -1) := by
  intro obs
  induction obs with
  | nil =>
    intro next hn
    simp only [master_distribute]
    split_ifs with h
    · exact ⟨Nat.le_refl _, hn, by simp, fun _ hr => by simp at hr, by simp [sends_of]⟩
    · refine ⟨Nat.le_refl _, hn, by simp, fun _ _ => ?_, by simp [sends_of]⟩
      show next = n
      omega
  | cons o obs ih =>
    intro next hn
    simp only [master_distribute]
    split_ifs with h1 h2 h3
    · obtain ⟨a, b, c, d, e⟩ := ih (next + 1) (by omega)
      refine ⟨by simp only; omega, b, ?_, d, ?_⟩
      · have hsub : (master_distribute n T num_nodes obs (next + 1)).next - next =
            ((master_distribute n T num_nodes obs (next + 1)).next - (next + 1)) + 1 := by
          omega
        simp only [List.map_cons, Dispatch.index]
        rw [hsub, List.range'_succ, List.map_cons, c]
        rfl
      · intro p hp
        simp only [sends_of, List.filterMap_cons] at hp
        exact e p hp
    · cases hsrc : o.source with
      | none =>
        simp only
        exact ⟨Nat.le_refl _, hn, by simp, fun _ hr => by simp at hr, by simp [sends_of]⟩
      | some src =>
        simp only
        obtain ⟨a, b, c, d, e⟩ := ih (next + 1) (by omega)
        refine ⟨by omega, b, ?_, d, ?_⟩
        · have hsub : (master_distribute n T num_nodes obs (next + 1)).next - next =
              ((master_distribute n T num_nodes obs (next + 1)).next - (next + 1)) + 1 := by
            omega
          simp only [List.map_cons, Dispatch.index]
          rw [hsub, List.range'_succ, List.map_cons, c]
          rfl
        · intro p hp
          simp only [sends_of, List.filterMap_cons, List.mem_cons] at hp
          rcases hp with rfl | hp
          · simp only [ne_eq]
            omega
          · exact e p hp
    · exact ih next hn
    · refine ⟨Nat.le_refl _, hn, by simp, fun _ _ => ?_, by simp [sends_of]⟩
      show next = n
      omega

/-- The second master loop sends `-1` to the source of every request it
receives, at most `num_nodes - workers_done` times, and exactly that often when
it exits. -/
theorem master_finish_spec (num_nodes : Nat) :
    ∀ (obs : List Observation) (workers_done : Nat),
      ∃ dests : List Nat,
        (master_finish num_nodes obs workers_done).1 = dests.map (fun d => .send d (-1)) ∧
        workers_done + dests.length ≤ max workers_done num_nodes ∧
        ((master_finish num_nodes obs workers_done).2 = true →
          num_nodes ≤ workers_done + dests.length) := by
  intro obs
  induction obs with
  | nil =>
    intro wd
    refine ⟨[], rfl, by simp, ?_⟩
    simp only [master_finish, decide_eq_true_eq, List.length_nil]
    omega
  | cons o obs ih =>
    intro wd
    simp only [master_finish]
    split_ifs with h
    · cases hsrc : o.source with
      | none => exact ⟨[], rfl, by simp, by simp⟩
      | some src =>
        obtain ⟨dests, h1, h2, h3⟩ := ih (wd + 1)
        refine ⟨src :: dests, by simp [h1], ?_, ?_⟩
        · simp only [List.length_cons]; omega
        · intro hd
          have := h3 hd
          simp only [List.length_cons]; omega
    · exact ⟨[], rfl, by simp, fun _ => by simp only [List.length_nil]; omega⟩

/-- A list of distinct ranks among `1, ..., N - 1` of length `N - 1` contains
every such rank. -/
theorem mem_of_nodup_ranks (N : Nat) (l : List Nat) (hnd : l.Nodup)
    (hr : ∀ x ∈ l, 1 ≤ x ∧ x < N) (hlen : l.length = N - 1) :
    ∀ r, 1 ≤ r → r < N → r ∈ l := by
  intro r h1 h2
  have hsub : l.toFinset ⊆ Finset.Ico 1 N := by
    intro x hx
    have := hr x (List.mem_toFinset.mp hx)
    exact Finset.mem_Ico.mpr this
  have hcard : (Finset.Ico 1 N).card ≤ l.toFinset.card := by
    rw [List.toFinset_card_of_nodup hnd, Nat.card_Ico, hlen]
  have heq := Finset.eq_of_subset_of_card_le hsub hcard
  have : r ∈ l.toFinset := by
    rw [heq]
    exact Finset.mem_Ico.mpr ⟨h1, h2⟩
  exact List.mem_toFinset.mp this

theorem countP_eq_one_of_nodup {α : Type} [DecidableEq α] (l : List α) (a : α)
    (hnd : l.Nodup) (ha : a ∈ l) : l.countP (fun p => decide (p = a)) = 1 := by
  induction l with
  | nil => simp at ha
  | cons b r ih =>
    rw [List.nodup_cons] at hnd
    rw [List.countP_cons]
    by_cases hba : b = a
    · subst hba
      have hz : r.countP (fun p => decide (p = b)) = 0 := by
        rw [List.countP_eq_zero]
        intro p hp
        simp only [decide_eq_true_eq]
        intro hpb
        exact hnd.1 (hpb ▸ hp)
      simp [hz]
    · have hr : a ∈ r := by
        rcases List.mem_cons.mp ha with h | h
        · exact absurd h.symm hba
        · exact h
      simp [ih hnd.2 hr, hba]

theorem sends_of_append (a b : List Dispatch) : sends_of (a ++ b) = sends_of a ++ sends_of b := by
  simp [sends_of, List.filterMap_append]

theorem sends_of_map_send (dests : List Nat) (k : Int) :
    sends_of (dests.map fun d => .send d k) = dests.map fun d => (d, k) := by
  induction dests with
  | nil => rfl
  | cons d r ih =>
    simp only [List.map_cons, sends_of, List.filterMap_cons] at ih ⊢
    rw [ih]

/-- The worker loop receives `-1` at most once, as the last response, and leaves
then; every other response is pushed on the local queue. -/
theorem worker_distribute_spec (T : Int) :
    ∀ obs : List WorkerObservation,
      (worker_distribute T obs).received =
        (worker_distribute T obs).pushed ++
          (if (worker_distribute T obs).left then [-1] else []) ∧
      (-1 : Int) ∉ (worker_distribute T obs).pushed ∧
      (worker_distribute T obs).received.length ≤ (worker_distribute T obs).requests ∧
      ((worker_distribute T obs).left = true →
        (worker_distribute T obs).requests = (worker_distribute T obs).received.length) := by
  intro obs
  induction obs with
  | nil => simp [worker_distribute]
  | cons o obs ih =>
    by_cases h1 : o.local_work < T
    · cases hr : o.response with
      | none => simp [worker_distribute, h1, hr]
      | some k =>
        by_cases h2 : k = -1
        · simp [worker_distribute, h1, hr, h2]
        · have e : worker_distribute T (o :: obs) =
              { requests := (worker_distribute T obs).requests + 1,
                received := k :: (worker_distribute T obs).received,
                pushed := k :: (worker_distribute T obs).pushed,
                left := (worker_distribute T obs).left } := by
            simp [worker_distribute, h1, hr, h2]
          rw [e]
          obtain ⟨a, b, c, d⟩ := ih
          refine ⟨?_, ?_, ?_, ?_⟩
          · show k :: (worker_distribute T obs).received =
              k :: (worker_distribute T obs).pushed ++
                (if (worker_distribute T obs).left then [-1] else [])
            rw [List.cons_append, ← a]
          · show (-1 : Int) ∉ k :: (worker_distribute T obs).pushed
            simp only [List.mem_cons, not_or]
            exact ⟨fun hk => h2 hk.symm, b⟩
          · show (k :: (worker_distribute T obs).received).length ≤
              (worker_distribute T obs).requests + 1
            simp only [List.length_cons]; omega
          · intro hl
            have := d hl
            show (worker_distribute T obs).requests + 1 =
              (k :: (worker_distribute T obs).received).length
            simp only [List.length_cons]; omega
    · have e : worker_distribute T (o :: obs) = worker_distribute T obs := by
        simp [worker_distribute, h1]
      rw [e]
      exact ih

/-- The shape of every run of the master: the first loop, then the responses `-1`
to the ranks `dests`. -/
theorem master_loop_shape (n : Nat) (T : Int) (num_nodes : Nat) (obs : List Observation)
    (hN : 1 ≤ num_nodes) :
    ∃ (ev : List Dispatch) (m : Nat) (dests : List Nat),
      (master_loop n T num_nodes obs).events = ev ++ dests.map (fun d => .send d (-1)) ∧
      ev.map Dispatch.index = (List.range m).map Int.ofNat ∧
      (∀ p ∈ sends_of ev, p.2 ≠ -1) ∧
      m ≤ n ∧ (0 < dests.length → m = n) ∧ dests.length ≤ num_nodes - 1 ∧
      ((master_loop n T num_nodes obs).left = true →
        m = n ∧ dests.length = num_nodes - 1) := by
  obtain ⟨_, b, c, d, e⟩ := master_distribute_spec n T num_nodes obs 0 (Nat.zero_le _)
  rw [Nat.sub_zero, ← List.range_eq_range'] at c
  simp only [master_loop]
  cases hrest : (master_distribute n T num_nodes obs 0).rest with
  | none =>
    refine ⟨_, _, [], by simp, c, e, b, by simp, by simp, by simp⟩
  | some rest =>
    obtain ⟨dests, h1, h2, h3⟩ := master_finish_spec num_nodes rest 1
    have hm := d rest hrest
    refine ⟨_, _, dests, by simp only [h1], c, e, b, fun _ => hm, by omega, ?_⟩
    intro hl
    have := h3 hl
    exact ⟨hm, by omega⟩

/-- C8. For `n` work items and `num_nodes ≥ 1`, in every run of the master
distribution code the indices dispatched (pushed on its own queue or sent as a
response) are `0, 1, ...` in increasing order, each once, followed only by
responses `-1`, none of which is sent before all `n` indices are dispatched; a
run that leaves the distribution code has dispatched exactly `0, ..., n-1` and
then sent exactly `num_nodes - 1` responses `-1`, and when the requests come from
workers that follow the worker loop each remote rank received exactly one of
them.  A worker receives `-1` at most once, as its last response, and then
leaves its loop.  With 2 nodes, 10 work items and `T = 2` every index `0..9` is
dispatched exactly once and rank 1 receives `-1` before the master leaves. -/
theorem master_dispatch_order :
    (∀ (n : Nat) (T : Int) (num_nodes : Nat) (obs : List Observation), 1 ≤ num_nodes →
      (∃ m j,
        (master_loop n T num_nodes obs).events.map Dispatch.index =
          (List.range m).map Int.ofNat ++ List.replicate j (-1) ∧
        m ≤ n ∧ (0 < j → m = n) ∧ j ≤ num_nodes - 1 ∧
        ((master_loop n T num_nodes obs).left = true → m = n ∧ j = num_nodes - 1)) ∧
      (∀ e ∈ (master_loop n T num_nodes obs).events, e.index = -1 → ∃ d, e = .send d (-1)) ∧
      ((master_loop n T num_nodes obs).left = true →
        follows_worker_loop num_nodes (master_loop n T num_nodes obs).events →
        ∀ r, 1 ≤ r → r < num_nodes →
          (sends_of (master_loop n T num_nodes obs).events).countP (fun p => decide (p = (r, -1))) = 1)) ∧
    (∀ (T : Int) (obs : List WorkerObservation),
      (worker_distribute T obs).received =
        (worker_distribute T obs).pushed ++
          (if (worker_distribute T obs).left then [-1] else []) ∧
      (-1 : Int) ∉ (worker_distribute T obs).pushed ∧
      ((worker_distribute T obs).left = true →
        (worker_distribute T obs).requests = (worker_distribute T obs).received.length)) ∧
    (∀ obs : List Observation, (master_loop 10 2 2 obs).left = true →
      (master_loop 10 2 2 obs).events.map Dispatch.index =
        [0, 1, 2, 3, 4, 5, 6, 7, 8, 9, -1] ∧
      (follows_worker_loop 2 (master_loop 10 2 2 obs).events →
        (sends_of (master_loop 10 2 2 obs).events).countP (fun p => decide (p = (1, -1))) = 1)) := by
  have main : ∀ (n : Nat) (T : Int) (num_nodes : Nat) (obs : List Observation),
      1 ≤ num_nodes →
      (∃ m j,
        (master_loop n T num_nodes obs).events.map Dispatch.index =
          (List.range m).map Int.ofNat ++ List.replicate j (-1) ∧
        m ≤ n ∧ (0 < j → m = n) ∧ j ≤ num_nodes - 1 ∧
        ((master_loop n T num_nodes obs).left = true → m = n ∧ j = num_nodes - 1)) ∧
      (∀ e ∈ (master_loop n T num_nodes obs).events, e.index = -1 → ∃ d, e = .send d (-1)) ∧
      ((master_loop n T num_nodes obs).left = true →
        follows_worker_loop num_nodes (master_loop n T num_nodes obs).events →
        ∀ r, 1 ≤ r → r < num_nodes →
          (sends_of (master_loop n T num_nodes obs).events).countP (fun p => decide (p = (r, -1))) = 1) := by
    intro n T num_nodes obs hN
    obtain ⟨ev, m, dests, h1, h2, h3, h4, h5, h6, h7⟩ :=
      master_loop_shape n T num_nodes obs hN
    refine ⟨⟨m, dests.length, ?_, h4, h5, h6, h7⟩, ?_, ?_⟩
    · rw [h1, List.map_append, h2, List.map_map]
      congr 1
      rw [List.eq_replicate_iff]
      refine ⟨by simp, ?_⟩
      intro x hx
      obtain ⟨d, _, rfl⟩ := List.mem_map.mp hx
      rfl
    · intro e he hidx
      rw [h1] at he
      rcases List.mem_append.mp he with he | he
      · exfalso
        have : e.index ∈ ev.map Dispatch.index := List.mem_map_of_mem _ he
        rw [h2, hidx] at this
        obtain ⟨k, _, hk⟩ := List.mem_map.mp this
        have : (0 : Int) ≤ Int.ofNat k := Int.ofNat_nonneg k
        omega
      · obtain ⟨d, _, rfl⟩ := List.mem_map.mp he
        exact ⟨d, rfl⟩
    · intro hl hfw r hr1 hr2
      obtain ⟨_, hlen⟩ := h7 hl
      rw [h1] at hfw ⊢
      unfold follows_worker_loop at hfw
      rw [sends_of_append, sends_of_map_send] at hfw ⊢
      obtain ⟨hrange, hpw⟩ := hfw
      have hpairs : (dests.map fun d => (d, (-1 : Int))).Nodup := by
        have hp2 := (List.pairwise_append.mp hpw).2.1
        refine List.Pairwise.imp_of_mem ?_ hp2
        intro a b ha hb hab heq
        obtain ⟨da, _, rfl⟩ := List.mem_map.mp ha
        exact hab rfl (by rw [heq])
      have hnd : dests.Nodup := List.Nodup.of_map _ hpairs
      have hin : ∀ x ∈ dests, 1 ≤ x ∧ x < num_nodes := by
        intro x hx
        exact hrange (x, -1) (List.mem_append_right _ (List.mem_map_of_mem _ hx))
      have hmem := mem_of_nodup_ranks num_nodes dests hnd hin hlen r hr1 hr2
      rw [List.countP_append, countP_eq_one_of_nodup _ _ hpairs (List.mem_map_of_mem _ hmem)]
      have hz : (sends_of ev).countP (fun p => decide (p = (r, (-1 : Int)))) = 0 := by
        rw [List.countP_eq_zero]
        intro p hp
        simp only [decide_eq_true_eq]
        intro hpe
        exact h3 p hp (by rw [hpe])
      rw [hz]
  refine ⟨main, fun T obs => ?_, fun obs hl => ?_⟩
  · obtain ⟨a, b, _, d⟩ := worker_distribute_spec T obs
    exact ⟨a, b, d⟩
  · obtain ⟨⟨m, j, h1, _, _, _, h5⟩, _, h3⟩ := main 10 2 2 obs (by decide)
    obtain ⟨rfl, rfl⟩ := h5 hl
    refine ⟨by rw [h1]; decide, fun hfw => h3 hl hfw 1 (by decide) (by decide)⟩

/-- Witness of C8: a run with 2 nodes, 10 work items and `T = 2` in which the
master keeps five items, hands five to rank 1 and answers its last request
with `-1`. -/
theorem master_dispatch_order_witness :
    (master_loop 10 2 2 sample_observations).left = true ∧
    follows_worker_loop 2 (master_loop 10 2 2 sample_observations).events ∧
    (master_loop 10 2 2 sample_observations).events.map Dispatch.index =
      [0, 1, 2, 3, 4, 5, 6, 7, 8, 9, -1] ∧
    (sends_of (master_loop 10 2 2 sample_observations).events).countP
      (fun p => decide (p = (1, -1))) = 1 := by
  have hl : (master_loop 10 2 2 sample_observations).left = true := by decide
  have hfw : follows_worker_loop 2 (master_loop 10 2 2 sample_observations).events := by
    constructor
    · decide
    · decide
  have h := master_dispatch_order.2.2 sample_observations hl
  exact ⟨hl, hfw, h.1, h.2 hfw⟩

/-! ## Theorems: several workers on one queue -/

theorem count_true_set (l : List Bool) (w : Nat) (h : l[w]? = some false) :
    (l.set w true).count true = l.count true + 1 := by
  induction l generalizing w with
  | nil => simp at h
  | cons b r ih =>
    cases w with
    | zero =>
      simp only [List.getElem?_cons_zero, Option.some.injEq] at h
      subst h
      simp
    | succ v =>
      simp only [List.getElem?_cons_succ] at h
      simp only [List.set_cons_succ, List.count_cons, ih v h]
      omega

theorem frame_calls_append (a b : List DecoderCall) :
    frame_calls (a ++ b) = frame_calls a ++ frame_calls b := by
  simp [frame_calls, List.filterMap_append]

/-- The inner loop makes exactly one frame call for each value `current_frame`
takes. -/
theorem frame_loop_calls (work_item : VideoWorkItem) (frame_size decoded_buffer_size : Nat) :
    ∀ (n : Nat) (s r : FrameLoopState),
      frame_loop work_item frame_size decoded_buffer_size n s = .ok r →
      frame_calls r.calls = frame_calls s.calls ++
        (List.range' s.current_frame (r.current_frame - s.current_frame)).map
          (frame_call_at work_item frame_size) := by
  intro n
  induction n with
  | zero =>
    intro s r h
    simp only [frame_loop] at h
    split_ifs at h
    simp only [Except.ok.injEq] at h
    subst h
    simp
  | succ n ih =>
    intro s r h
    have hmono := (frame_loop_spec work_item frame_size decoded_buffer_size _ s r h).1
    simp only [frame_loop] at h
    split_ifs at h with h1 h2 h3
    · have hmono2 := (frame_loop_spec work_item frame_size decoded_buffer_size _ _ r h).1
      simp only at hmono2
      rw [ih _ r h]
      simp only [frame_calls_append]
      have hsub : r.current_frame - s.current_frame =
          (r.current_frame - (s.current_frame + 1)) + 1 := by omega
      rw [hsub, List.range'_succ, List.map_cons, List.append_assoc]
      congr 1
      simp [frame_calls, DecoderCall.frame_call, frame_call_at, h2]
    · have hmono2 := (frame_loop_spec work_item frame_size decoded_buffer_size _ _ r h).1
      simp only at hmono2
      rw [ih _ r h]
      simp only [frame_calls_append]
      have hsub : r.current_frame - s.current_frame =
          (r.current_frame - (s.current_frame + 1)) + 1 := by omega
      rw [hsub, List.range'_succ, List.map_cons, List.append_assoc]
      congr 1
      simp [frame_calls, DecoderCall.frame_call, frame_call_at, h2]
    · simp only [Except.ok.injEq] at h
      subst h
      simp

/-- The feed loop makes exactly one frame call for each value `current_frame`
takes. -/
theorem feed_loop_calls (work_item : VideoWorkItem) (entry : DecodeWorkEntry)
    (frame_size decoded_buffer_size : Nat) :
    ∀ (script : List (List Nat)) (s r : FeedLoopState) (rest : List (List Nat)),
      feed_loop work_item entry frame_size decoded_buffer_size script s = .ok (r, rest) →
      s.current_frame ≤ r.current_frame ∧
      frame_calls r.calls = frame_calls s.calls ++
        (List.range' s.current_frame (r.current_frame - s.current_frame)).map
          (frame_call_at work_item frame_size) := by
  intro script
  induction script with
  | nil =>
    intro s r rest h
    simp only [feed_loop] at h
    split_ifs at h with h1
    simp only [Except.ok.injEq, Prod.mk.injEq] at h
    obtain ⟨rfl, _⟩ := h
    simp
  | cons nf script ih =>
    intro s r rest h
    simp only [feed_loop] at h
    split_ifs at h with h1 h2
    · cases hf : frame_loop work_item frame_size decoded_buffer_size
          (work_item.end_frame - s.current_frame)
          { decoder := (s.decoder.feed nf s.discontinuity).1, current_frame := s.current_frame,
            more_frames := true,
            calls := s.calls ++
              [.feed (next_packet entry.buffer entry.encoded_data_size
                  s.encoded_buffer_offset).2.1
                (next_packet entry.buffer entry.encoded_data_size s.encoded_buffer_offset).1
                s.discontinuity] } with
      | error why => rw [hf] at h; simp at h
      | ok f =>
        rw [hf] at h
        simp only at h
        have fm := (frame_loop_spec _ _ _ _ _ _ hf).1
        have fc := frame_loop_calls _ _ _ _ _ _ hf
        obtain ⟨a, b⟩ := ih _ r rest h
        simp only at fm fc a b
        refine ⟨by omega, ?_⟩
        rw [b, fc, frame_calls_append]
        have hfeed : frame_calls
            [DecoderCall.feed (next_packet entry.buffer entry.encoded_data_size
                s.encoded_buffer_offset).2.1
              (next_packet entry.buffer entry.encoded_data_size s.encoded_buffer_offset).1
              s.discontinuity] = [] := rfl
        rw [hfeed, List.append_nil, List.append_assoc, ← List.map_append]
        congr 2
        have h1 : r.current_frame - s.current_frame =
            (r.current_frame - f.current_frame) + (f.current_frame - s.current_frame) := by
          omega
        have h2 : f.current_frame =
            s.current_frame + 1 * (f.current_frame - s.current_frame) := by omega
        rw [h1]
        nth_rewrite 2 [h2]
        exact List.range'_append _ _ _ 1
    · obtain ⟨a, b⟩ := ih _ r rest h
      simp only at a b
      refine ⟨a, ?_⟩
      rw [b, frame_calls_append]
      have hfeed : frame_calls
          [DecoderCall.feed (next_packet entry.buffer entry.encoded_data_size
              s.encoded_buffer_offset).2.1
            (next_packet entry.buffer entry.encoded_data_size s.encoded_buffer_offset).1
            s.discontinuity] = [] := rfl
      rw [hfeed, List.append_nil]
    · simp only [Except.ok.injEq, Prod.mk.injEq] at h
      obtain ⟨rfl, _⟩ := h
      simp

/-- C12. For a decode entry with `start_keyframe ≤ start_frame < end_frame` and a
decoder behaviour under which the feed loop returns, the frame calls of the
loop are `discard_frame` for `current_frame = start_keyframe, ...,
start_frame - 1` (so `start_frame - start_keyframe` of them) followed by
`get_frame` for `f = start_frame, ..., end_frame - 1`, once each and in
increasing order, with destination offset `frame_size * (f - start_frame)` (as
a `size_t`); when `frame_size > 0` and `frame_size * (end_frame - start_frame)`
fits a `size_t` the offsets are the plain products and the destinations of two
frames do not overlap. -/
theorem decode_frame_calls (work_item : VideoWorkItem) (entry : DecodeWorkEntry)
    (frame_size : Nat) (decode_buffer_entry : DecodeBufferEntry) (decoder : VideoDecoder)
    (script rest : List (List Nat)) (s : FeedLoopState)
    (hk : entry.start_keyframe ≤ work_item.start_frame)
    (hse : work_item.start_frame < work_item.end_frame)
    (hret : feed_loop work_item entry frame_size decode_buffer_entry.buffer_size script
      { decoder := decoder, encoded_buffer_offset := 0, discontinuity := true,
        current_frame := entry.start_keyframe, calls := [] } = .ok (s, rest)) :
    (∃ res, decode_work_item work_item entry frame_size decode_buffer_entry decoder script =
        .ok res ∧
      frame_calls res.calls =
        (List.range' entry.start_keyframe
            (work_item.start_frame - entry.start_keyframe)).map FrameCall.discard ++
          (List.range' work_item.start_frame
            (work_item.end_frame - work_item.start_frame)).map fun f =>
              FrameCall.get f ((frame_size * (f - work_item.start_frame)) % 2 ^ 64)) ∧
    (0 < frame_size → frame_size * (work_item.end_frame - work_item.start_frame) < 2 ^ 64 →
      ∀ f g, work_item.start_frame ≤ f → f < g → g < work_item.end_frame →
        (frame_size * (f - work_item.start_frame)) % 2 ^ 64 =
          frame_size * (f - work_item.start_frame) ∧
        (frame_size * (f - work_item.start_frame)) % 2 ^ 64 + frame_size ≤
          (frame_size * (g - work_item.start_frame)) % 2 ^ 64) := by
  constructor
  · obtain ⟨res, h1, _, h3, _, _⟩ :=
      decode_work_item_returns work_item entry frame_size decode_buffer_entry decoder script
        rest s hret
    refine ⟨res, h1, ?_⟩
    obtain ⟨_, hc⟩ := feed_loop_calls _ _ _ _ _ _ _ _ hret
    simp only at hc
    have hend : s.current_frame = work_item.end_frame := by
      have := (feed_loop_spec _ _ _ _ _ _ _ _ hret)
      simp only at this
      have h1 := this.1
      have h2 := this.2.1 (by omega)
      omega
    rw [h3, hc, hend]
    simp only [frame_calls, List.filterMap_nil, List.nil_append]
    have hsplit : work_item.end_frame - entry.start_keyframe =
        (work_item.end_frame - work_item.start_frame) +
          (work_item.start_frame - entry.start_keyframe) := by omega
    have hstart : work_item.start_frame =
        entry.start_keyframe + 1 * (work_item.start_frame - entry.start_keyframe) := by omega
    rw [hsplit, ← List.range'_append _ _ _ 1, List.map_append, ← hstart]
    congr 1
    · apply List.map_congr_left
      intro c hc
      have := (List.mem_range'_1.mp hc).2
      simp only [frame_call_at]
      rw [if_neg (by omega)]
    · apply List.map_congr_left
      intro c hc
      have := (List.mem_range'_1.mp hc).1
      simp only [frame_call_at]
      rw [if_pos (by omega)]
  · intro hfs hfit f g hf hfg hg
    have hle : ∀ t, t ≤ work_item.end_frame - work_item.start_frame →
        frame_size * t < 2 ^ 64 := fun t ht =>
      Nat.lt_of_le_of_lt (Nat.mul_le_mul_left _ ht) hfit
    rw [Nat.mod_eq_of_lt (hle _ (by omega)), Nat.mod_eq_of_lt (hle _ (by omega))]
    refine ⟨rfl, ?_⟩
    have : frame_size * (f - work_item.start_frame) + frame_size =
        frame_size * (f - work_item.start_frame + 1) := by
      rw [Nat.mul_succ]
    rw [this]
    exact Nat.mul_le_mul_left _ (by omega)

/-- Witness of C12: for the item `[3, 9)` decoded from keyframe 0 with frames of
12 bytes, frames 0-2 are discarded and frames 3-8 copied to offsets 0, 12, ..., 60. -/
theorem decode_frame_calls_witness :
    ∃ res, decode_work_item sample_item sample_decode_entry 12 sample_buffer ⟨[999]⟩
        sample_script = .ok res ∧
      frame_calls res.calls =
        [.discard 0, .discard 1, .discard 2, .get 3 0, .get 4 12, .get 5 24, .get 6 36,
          .get 7 48, .get 8 60] := by
  obtain ⟨res, h1, h2⟩ :=
    (decode_frame_calls sample_item sample_decode_entry 12 sample_buffer ⟨[999]⟩
      sample_script []
      { decoder := ⟨[109, 110, 111]⟩, encoded_buffer_offset := 0, discontinuity := false,
        current_frame := 9,
        calls := [.feed none 0 true, .feed none 0 false, .discard_frame 0, .discard_frame 1,
          .discard_frame 2, .get_frame 3 0 (some 103), .get_frame 4 12 (some 104),
          .get_frame 5 24 (some 105), .get_frame 6 36 (some 106), .get_frame 7 48 (some 107),
          .get_frame 8 60 (some 108)] }
      (by decide) (by decide) rfl).1
  refine ⟨res, h1, ?_⟩
  rw [h2]
  decide

/-! ## Theorems: packets fed to the decoder -/

theorem getD_append_add (pre l : List Nat) (i : Nat) :
    (pre ++ l).getD (pre.length + i) 0 = l.getD i 0 := by
  simp only [List.getD_eq_getElem?_getD]
  rw [List.getElem?_append_right (by omega)]
  congr 2
  omega

theorem le32_value (n : Nat) (hn : n < 2 ^ 32) :
    n % 256 % 256 + 256 * (n / 256 % 256 % 256) + 65536 * (n / 65536 % 256 % 256)
      + 16777216 * (n / 16777216 % 256 % 256) = n := by
  omega

/-- The length field of a record is read back as an `int` when it is below
`2 ^ 31`. -/
theorem read_int_le32 (pre post : List Nat) (n : Nat) (hn : n < 2 ^ 31) :
    read_int (pre ++ (le32 n ++ post)) pre.length = (n : Int) := by
  have h0 : (pre ++ (le32 n ++ post)).getD pre.length 0 = n % 256 := by
    have := getD_append_add pre (le32 n ++ post) 0
    simpa [le32] using this
  have h1 : (pre ++ (le32 n ++ post)).getD (pre.length + 1) 0 = n / 256 % 256 := by
    have := getD_append_add pre (le32 n ++ post) 1
    simpa [le32] using this
  have h2 : (pre ++ (le32 n ++ post)).getD (pre.length + 2) 0 = n / 65536 % 256 := by
    have := getD_append_add pre (le32 n ++ post) 2
    simpa [le32] using this
  have h3 : (pre ++ (le32 n ++ post)).getD (pre.length + 3) 0 = n / 16777216 % 256 := by
    have := getD_append_add pre (le32 n ++ post) 3
    simpa [le32] using this
  simp only [read_int, h0, h1, h2, h3]
  rw [le32_value n (by omega), if_pos (by omega)]

/-- At the start of a whole record the parse hands over its payload and moves
the offset past it. -/
theorem next_packet_record (pre post payload : List Nat) (hn : payload.length < 2 ^ 31)
    (hlen : (pre ++ (encode_record payload ++ post)).length < 2 ^ 64) :
    next_packet (pre ++ (encode_record payload ++ post))
        (pre ++ (encode_record payload ++ post)).length pre.length =
      ((payload.length : Int), some payload, pre.length + 4 + payload.length) := by
  have hl : (pre ++ (encode_record payload ++ post)).length =
      pre.length + 4 + payload.length + post.length := by
    simp [encode_record, le32]
    omega
  have hread : read_int (pre ++ (encode_record payload ++ post)) pre.length =
      (payload.length : Int) := by
    rw [encode_record, List.append_assoc]
    exact read_int_le32 pre (payload ++ post) payload.length hn
  have hoff : (pre.length + 4) % 2 ^ 64 = pre.length + 4 := Nat.mod_eq_of_lt (by omega)
  have hdrop : (pre ++ (encode_record payload ++ post)).drop (pre.length + 4) =
      payload ++ post := by
    have : pre ++ (encode_record payload ++ post) =
        (pre ++ le32 payload.length) ++ (payload ++ post) := by
      simp [encode_record]
    rw [this]
    exact List.drop_left' (by simp [le32])
  simp only [next_packet]
  rw [if_pos (by omega), hread, hoff, hdrop]
  simp only [Int.toNat_ofNat, Prod.mk.injEq, true_and]
  refine ⟨by rw [List.take_left' rfl], ?_⟩
  omega

/-- Past the last byte the parse hands over the null packet of size 0. -/
theorem next_packet_end (buffer : List Nat) (offset : Nat) (h : buffer.length ≤ offset) :
    next_packet buffer buffer.length offset = (0, none, offset) := by
  simp only [next_packet]
  rw [if_neg (by omega)]

theorem encode_records_length (records : List (List Nat)) :
    (encode_records records).length = (records.map fun r => 4 + r.length).sum := by
  induction records with
  | nil => rfl
  | cons r rest ih =>
    simp only [encode_records, List.map_cons, List.flatten_cons, List.length_append,
      List.sum_cons] at ih ⊢
    rw [ih]
    simp only [encode_record, le32, List.length_append, List.length_cons, List.length_nil]

theorem encode_records_cons (r : List Nat) (rest : List (List Nat)) :
    encode_records (r :: rest) = encode_record r ++ encode_records rest := rfl

theorem encode_records_append (a b : List (List Nat)) :
    encode_records (a ++ b) = encode_records a ++ encode_records b := by
  simp [encode_records]

/-- On a buffer of whole records the `j`-th parse hands over the payload of
record `j`, or the null packet past the last record, and leaves the offset at
the sum of `4 + length` over the records read. -/
theorem next_packet_records (records : List (List Nat))
    (hr : ∀ r ∈ records, r.length < 2 ^ 31) (hlen : (encode_records records).length < 2 ^ 64)
    (j : Nat) :
    next_packet (encode_records records) (encode_records records).length
        (offset_sum records j) =
      ((expected_feed records j).2, (expected_feed records j).1, offset_sum records (j + 1)) := by
  by_cases hj : j < records.length
  · have hsplit : records = records.take j ++ (records[j] :: records.drop (j + 1)) := by
      rw [← List.drop_eq_getElem_cons hj, List.take_append_drop]
    have henc : encode_records records =
        encode_records (records.take j) ++
          (encode_record records[j] ++ encode_records (records.drop (j + 1))) := by
      conv_lhs => rw [hsplit]
      rw [encode_records_append, encode_records_cons]
    have hpre : (encode_records (records.take j)).length = offset_sum records j :=
      encode_records_length _
    have hnext : offset_sum records (j + 1) = offset_sum records j + 4 + records[j].length := by
      simp only [offset_sum, List.take_succ, List.getElem?_eq_getElem hj, Option.toList,
        List.map_append, List.sum_append, List.map_cons, List.map_nil, List.sum_cons,
        List.sum_nil]
      omega
    have hexp : expected_feed records j = (some records[j], (records[j].length : Int)) := by
      simp [expected_feed, List.getElem?_eq_getElem hj]
    rw [hexp, hnext, ← hpre]
    have := next_packet_record (encode_records (records.take j))
      (encode_records (records.drop (j + 1))) records[j] (hr _ (List.getElem_mem _))
      (by rw [← henc]; exact hlen)
    rw [← henc] at this
    exact this
  · have hge : records.length ≤ j := by omega
    have htake : ∀ i, records.length ≤ i → offset_sum records i =
        (encode_records records).length := by
      intro i hi
      rw [offset_sum, List.take_of_length_le hi, encode_records_length]
    have hexp : expected_feed records j = (none, 0) := by
      simp [expected_feed, List.getElem?_eq_none hge]
    rw [hexp, htake j hge, htake (j + 1) (by omega)]
    exact next_packet_end _ _ (Nat.le_refl _)

theorem feeds_of_append (a b : List DecoderCall) :
    feeds_of (a ++ b) = feeds_of a ++ feeds_of b := by
  simp [feeds_of, List.filterMap_append]

/-- The inner loop makes no `feed` call. -/
theorem frame_loop_feeds (work_item : VideoWorkItem) (frame_size decoded_buffer_size : Nat) :
    ∀ (n : Nat) (s r : FrameLoopState),
      frame_loop work_item frame_size decoded_buffer_size n s = .ok r →
      feeds_of r.calls = feeds_of s.calls := by
  intro n
  induction n with
  | zero =>
    intro s r h
    simp only [frame_loop] at h
    split_ifs at h
    simp only [Except.ok.injEq] at h
    rw [h]
  | succ n ih =>
    intro s r h
    simp only [frame_loop] at h
    split_ifs at h with h1 h2 h3
    · rw [ih _ r h, feeds_of_append]
      simp [feeds_of, DecoderCall.feed_args]
    · rw [ih _ r h, feeds_of_append]
      simp [feeds_of, DecoderCall.feed_args]
    · simp only [Except.ok.injEq] at h
      rw [h]

/-- On a buffer of whole records the feed loop feeds the payloads in order, then
null packets, and its offset is the sum of `4 + length` over the records read. -/
theorem feed_loop_feeds (work_item : VideoWorkItem) (entry : DecodeWorkEntry)
    (frame_size decoded_buffer_size : Nat) (records : List (List Nat))
    (hbuf : entry.buffer = encode_records records)
    (hsize : entry.encoded_data_size = entry.buffer.length)
    (hr : ∀ r ∈ records, r.length < 2 ^ 31) (hlen : entry.buffer.length < 2 ^ 64) :
    ∀ (script : List (List Nat)) (s r : FeedLoopState) (rest : List (List Nat)) (j : Nat),
      feed_loop work_item entry frame_size decoded_buffer_size script s = .ok (r, rest) →
      s.encoded_buffer_offset = offset_sum records j →
      feeds_of s.calls = (List.range j).map (expected_feed records) →
      ∃ nf, j ≤ nf ∧ r.encoded_buffer_offset = offset_sum records nf ∧
        feeds_of r.calls = (List.range nf).map (expected_feed records) := by
  have hpk : ∀ j, next_packet entry.buffer entry.encoded_data_size (offset_sum records j) =
      ((expected_feed records j).2, (expected_feed records j).1, offset_sum records (j + 1)) := by
    intro j
    rw [hsize, hbuf]
    exact next_packet_records records hr (by rw [← hbuf]; exact hlen) j
  intro script
  induction script with
  | nil =>
    intro s r rest j h ho hf
    simp only [feed_loop] at h
    split_ifs at h with h1
    simp only [Except.ok.injEq, Prod.mk.injEq] at h
    obtain ⟨rfl, _⟩ := h
    exact ⟨j, Nat.le_refl _, ho, hf⟩
  | cons nf script ih =>
    intro s r rest j h ho hf
    simp only [feed_loop] at h
    rw [ho, hpk j] at h
    simp only at h
    have hfeeds : feeds_of (s.calls ++
        [DecoderCall.feed (expected_feed records j).1 (expected_feed records j).2
          s.discontinuity]) = (List.range (j + 1)).map (expected_feed records) := by
      rw [feeds_of_append, hf, List.range_succ, List.map_append]
      rfl
    split_ifs at h with h1 h2
    · cases hfl : frame_loop work_item frame_size decoded_buffer_size
          (work_item.end_frame - s.current_frame)
          { decoder := (s.decoder.feed nf s.discontinuity).1, current_frame := s.current_frame,
            more_frames := true,
            calls := s.calls ++
              [.feed (expected_feed records j).1 (expected_feed records j).2
                s.discontinuity] } with
      | error why => rw [hfl] at h; simp at h
      | ok f =>
        rw [hfl] at h
        simp only at h
        have hff := frame_loop_feeds _ _ _ _ _ _ hfl
        simp only at hff
        obtain ⟨n2, a, b, c⟩ := ih _ r rest (j + 1) h rfl (by rw [hff, hfeeds])
        exact ⟨n2, by omega, b, c⟩
    · obtain ⟨n2, a, b, c⟩ := ih _ r rest (j + 1) h rfl hfeeds
      exact ⟨n2, by omega, b, c⟩
    · simp only [Except.ok.injEq, Prod.mk.injEq] at h
      obtain ⟨rfl, _⟩ := h
      exact ⟨j, Nat.le_refl _, ho, hf⟩

/-- C13 (amended). For an encoded buffer that is the concatenation of records
`r_1 ... r_k`, each a 4-byte little-endian length below `2 ^ 31` (the stage
reads it as an `int`) followed by that many payload bytes, the `j`-th `feed` of
a returning feed loop receives the payload of `r_j` with size equal to its
length for `j ≤ k` and the null packet of size 0 after the `k`-th, and the read
offset after the `j`-th parse is the sum of `4 + length_i` over the records
read. -/
theorem decode_feeds_records (work_item : VideoWorkItem) (entry : DecodeWorkEntry)
    (frame_size decoded_buffer_size : Nat) (decoder : VideoDecoder)
    (script rest : List (List Nat)) (s : FeedLoopState) (records : List (List Nat))
    (hbuf : entry.buffer = encode_records records)
    (hsize : entry.encoded_data_size = entry.buffer.length)
    (hr : ∀ r ∈ records, r.length < 2 ^ 31) (hlen : entry.buffer.length < 2 ^ 64)
    (hret : feed_loop work_item entry frame_size decoded_buffer_size script
      { decoder := decoder, encoded_buffer_offset := 0, discontinuity := true,
        current_frame := entry.start_keyframe, calls := [] } = .ok (s, rest)) :
    (∃ nf, feeds_of s.calls = (List.range nf).map (expected_feed records) ∧
      s.encoded_buffer_offset = offset_sum records nf) ∧
    (∀ j, next_packet entry.buffer entry.encoded_data_size (offset_sum records j) =
      ((expected_feed records j).2, (expected_feed records j).1,
        offset_sum records (j + 1))) ∧
    (∀ j (h : j < records.length),
      expected_feed records j = (some records[j], (records[j].length : Int))) ∧
    (∀ j, records.length ≤ j → expected_feed records j = (none, 0)) := by
  refine ⟨?_, ?_, ?_, ?_⟩
  · obtain ⟨nf, _, b, c⟩ := feed_loop_feeds work_item entry frame_size decoded_buffer_size
      records hbuf hsize hr hlen script _ s rest 0 hret (by simp [offset_sum]) (by simp [feeds_of])
    exact ⟨nf, c, b⟩
  · intro j
    rw [hsize, hbuf]
    exact next_packet_records records hr (by rw [← hbuf]; exact hlen) j
  · intro j h
    simp [expected_feed, List.getElem?_eq_getElem h]
  · intro j h
    simp [expected_feed, List.getElem?_eq_none h]

/-- Witness of C13 (amended): a buffer of two records with payloads `[1, 2, 3]`
and `[9]`; the two feeds of the loop receive them and the offset ends at 12. -/
theorem decode_feeds_records_witness :
    ∃ nf, feeds_of
        [DecoderCall.feed (some [1, 2, 3]) 3 true, .feed (some [9]) 1 false, .discard_frame 0,
          .discard_frame 1, .discard_frame 2, .get_frame 3 0 (some 103),
          .get_frame 4 12 (some 104), .get_frame 5 24 (some 105), .get_frame 6 36 (some 106),
          .get_frame 7 48 (some 107), .get_frame 8 60 (some 108)] =
        (List.range nf).map (expected_feed sample_records) ∧
      12 = offset_sum sample_records nf :=
  (decode_feeds_records sample_item sample_record_entry 12 1152 ⟨[]⟩ sample_script []
    { decoder := ⟨[109, 110, 111]⟩, encoded_buffer_offset := 12, discontinuity := false,
      current_frame := 9,
      calls := [.feed (some [1, 2, 3]) 3 true, .feed (some [9]) 1 false, .discard_frame 0,
        .discard_frame 1, .discard_frame 2, .get_frame 3 0 (some 103),
        .get_frame 4 12 (some 104), .get_frame 5 24 (some 105), .get_frame 6 36 (some 106),
        .get_frame 7 48 (some 107), .get_frame 8 60 (some 108)] }
    sample_records rfl (by decide) (by decide) (by decide) rfl).1

/-- A record announcing `2 ^ 31` payload bytes: the length is read as the `int`
`-2147483648`, and the first `feed` receives that size with no payload byte. -/
theorem long_record_feed (payload : List Nat) (hp : payload.length = 2147483648) :
    (long_record_entry_of payload).buffer = encode_records [payload] ∧
    (long_record_entry_of payload).encoded_data_size =
      (long_record_entry_of payload).buffer.length ∧
    next_packet (long_record_entry_of payload).buffer
        (long_record_entry_of payload).encoded_data_size 0 =
      (-2147483648, some [], 18446744071562067972) ∧
    (∃ s rest, feed_loop sample_item (long_record_entry_of payload) 12 1152
        [[100, 101, 102, 103, 104, 105]]
        { decoder := ⟨[]⟩, encoded_buffer_offset := 0, discontinuity := true,
          current_frame := (long_record_entry_of payload).start_keyframe, calls := [] } =
        .ok (s, rest) ∧
      feeds_of s.calls = [(some [], -2147483648)]) ∧
    expected_feed [payload] 0 ≠ (some [], -2147483648) := by
  have hnp : next_packet (long_record_entry_of payload).buffer
      (long_record_entry_of payload).encoded_data_size 0 =
      (-2147483648, some [], 18446744071562067972) := by
    simp only [next_packet, long_record_entry_of, read_int]
    norm_num
    rfl
  refine ⟨?_, ?_, hnp, ?_, ?_⟩
  · simp [long_record_entry_of, encode_records, encode_record, le32, hp]
  · simp [long_record_entry_of, hp]
  · simp only [feed_loop]
    have e : (long_record_entry_of payload).start_keyframe = 3 := rfl
    rw [e, hnp]
    exact ⟨_, _, rfl, rfl⟩
  · simp [expected_feed]

/-- Counterexample to C13 as stated: the buffer is one record whose u32 length
is `2 ^ 31`, followed by that many payload bytes; the stage reads the length as
the `int` `-2147483648` and the first `feed` receives that size with no payload
byte. -/
theorem decode_feed_long_record :
    long_record_entry.buffer = encode_records [List.replicate 2147483648 7] ∧
    long_record_entry.encoded_data_size = long_record_entry.buffer.length ∧
    next_packet long_record_entry.buffer long_record_entry.encoded_data_size 0 =
      (-2147483648, some [], 18446744071562067972) ∧
    (∃ s rest, feed_loop sample_item long_record_entry 12 1152
        [[100, 101, 102, 103, 104, 105]]
        { decoder := ⟨[]⟩, encoded_buffer_offset := 0, discontinuity := true,
          current_frame := long_record_entry.start_keyframe, calls := [] } = .ok (s, rest) ∧
      feeds_of s.calls = [(some [], -2147483648)]) ∧
    expected_feed [List.replicate 2147483648 7] 0 ≠ (some [], -2147483648) :=
  long_record_feed (List.replicate 2147483648 7) (List.length_replicate _ _)

/-! ## Theorems: fatal errors of the decode body -/

/-- The inner loop stops the process only on the assertion of line 297, at a
frame of the work item whose offset is not below the buffer size. -/
theorem frame_loop_error (work_item : VideoWorkItem) (frame_size decoded_buffer_size : Nat) :
    ∀ (n : Nat) (s : FrameLoopState) (why : Stop),
      frame_loop work_item frame_size decoded_buffer_size n s = .error why →
      why = .diverged ∨
      (why = .aborted .assert_frames_buffer_offset ∧
        ∃ c, work_item.start_frame ≤ c ∧ c < work_item.end_frame ∧
          ¬ (frame_size * (c - work_item.start_frame)) % 2 ^ 64 < decoded_buffer_size) := by
  intro n
  induction n with
  | zero =>
    intro s why h
    simp only [frame_loop] at h
    split_ifs at h
    simp only [Except.error.injEq] at h
    exact Or.inl h.symm
  | succ n ih =>
    intro s why h
    simp only [frame_loop] at h
    split_ifs at h with h1 h2 h3
    · exact ih _ why h
    · simp only [Except.error.injEq] at h
      exact Or.inr ⟨h.symm, s.current_frame, h2, h1.2, h3⟩
    · exact ih _ why h

/-- The feed loop stops the process only on the assertion of line 297. -/
theorem feed_loop_error (work_item : VideoWorkItem) (entry : DecodeWorkEntry)
    (frame_size decoded_buffer_size : Nat) :
    ∀ (script : List (List Nat)) (s : FeedLoopState) (why : Stop),
      feed_loop work_item entry frame_size decoded_buffer_size script s = .error why →
      why = .diverged ∨
      (why = .aborted .assert_frames_buffer_offset ∧
        ∃ c, work_item.start_frame ≤ c ∧ c < work_item.end_frame ∧
          ¬ (frame_size * (c - work_item.start_frame)) % 2 ^ 64 < decoded_buffer_size) := by
  intro script
  induction script with
  | nil =>
    intro s why h
    simp only [feed_loop] at h
    split_ifs at h
    simp only [Except.error.injEq] at h
    exact Or.inl h.symm
  | cons nf script ih =>
    intro s why h
    simp only [feed_loop] at h
    split_ifs at h with h1 h2
    · cases hf : frame_loop work_item frame_size decoded_buffer_size
          (work_item.end_frame - s.current_frame)
          { decoder := (s.decoder.feed nf s.discontinuity).1, current_frame := s.current_frame,
            more_frames := true,
            calls := s.calls ++
              [.feed (next_packet entry.buffer entry.encoded_data_size
                  s.encoded_buffer_offset).2.1
                (next_packet entry.buffer entry.encoded_data_size s.encoded_buffer_offset).1
                s.discontinuity] } with
      | error w2 =>
        rw [hf] at h
        simp only [Except.error.injEq] at h
        subst h
        exact frame_loop_error _ _ _ _ _ _ hf
      | ok f =>
        rw [hf] at h
        exact ih _ why h
    · exact ih _ why h

/-- The decode body stops the process only on the assertion of line 297. -/
theorem decode_work_item_error (work_item : VideoWorkItem) (entry : DecodeWorkEntry)
    (frame_size : Nat) (decode_buffer_entry : DecodeBufferEntry) (decoder : VideoDecoder)
    (script : List (List Nat)) (why : Stop)
    (h : decode_work_item work_item entry frame_size decode_buffer_entry decoder script =
      .error why) :
    why = .diverged ∨
    (why = .aborted .assert_frames_buffer_offset ∧
      ∃ c, work_item.start_frame ≤ c ∧ c < work_item.end_frame ∧
        ¬ (frame_size * (c - work_item.start_frame)) % 2 ^ 64 <
          decode_buffer_entry.buffer_size) := by
  simp only [decode_work_item] at h
  cases hf : feed_loop work_item entry frame_size decode_buffer_entry.buffer_size script
      { decoder := decoder, encoded_buffer_offset := 0, discontinuity := true,
        current_frame := entry.start_keyframe, calls := [] } with
  | error w2 =>
    rw [hf] at h
    simp only [Except.error.injEq] at h
    subst h
    exact feed_loop_error _ _ _ _ _ _ _ hf
  | ok r =>
    obtain ⟨s, rest⟩ := r
    rw [hf] at h
    simp only at h
    split at h
    · simp only [Except.error.injEq] at h
      exact Or.inl h.symm
    · simp at h

/-- Every `get_frame` of a returning feed loop that started without calls is made
for a frame of the work item at the offset of that frame. -/
theorem feed_loop_get_frame (work_item : VideoWorkItem) (entry : DecodeWorkEntry)
    (frame_size decoded_buffer_size : Nat) (script rest : List (List Nat))
    (s r : FeedLoopState) (hs : s.calls = [])
    (h : feed_loop work_item entry frame_size decoded_buffer_size script s = .ok (r, rest))
    (c off : Nat) (frame : Option Nat) (hc : DecoderCall.get_frame c off frame ∈ r.calls) :
    work_item.start_frame ≤ c ∧ c < work_item.end_frame ∧
      off = (frame_size * (c - work_item.start_frame)) % 2 ^ 64 := by
  have hr := (feed_loop_spec _ _ _ _ _ _ _ _ h).2.2 (by rw [hs]; simp) _ hc
  simp only [call_in_range] at hr
  refine ⟨hr.1, hr.2, ?_⟩
  have hcalls := (feed_loop_calls _ _ _ _ _ _ _ _ h).2
  rw [hs] at hcalls
  have hm : FrameCall.get c off ∈ frame_calls r.calls := by
    simp only [frame_calls, List.mem_filterMap]
    exact ⟨_, hc, rfl⟩
  rw [hcalls] at hm
  simp only [frame_calls, List.filterMap_nil, List.nil_append, List.mem_map] at hm
  obtain ⟨c2, _, h2⟩ := hm
  simp only [frame_call_at] at h2
  split_ifs at h2
  simp only [FrameCall.get.injEq] at h2
  obtain ⟨rfl, rfl⟩ := h2
  rfl

/-- C18. For a work item of at most `WORK_ITEM_SIZE` frames whose video has the
width and height of the first video, with a positive NV12 frame size (an `int`,
as is `WORK_ITEM_SIZE`), the pool buffer popped by the decode stage has
`buffer_size = frame_size * WORK_ITEM_SIZE`, every frame `f` of the item has
`frame_size * (f - start_frame) + frame_size ≤ buffer_size` with the offset
computed without wrap, the assertion on `frames_buffer_offset` does not fail,
and every `get_frame` of the body writes inside the buffer. -/
theorem decode_writes_inside_buffer (args : DecodeThreadArgs) (st : DecodeThreadState)
    (entry : DecodeWorkEntry) (work_item : VideoWorkItem) (metadata : DatasetItemMetadata)
    (WORK_ITEM_SIZE : Nat) (decode_buffer_entry : DecodeBufferEntry)
    (buffers : List DecodeBufferEntry)
    (hwi : index_int args.work_items entry.work_item_index = some work_item)
    (hmd : args.metadata[work_item.video_index]? = some metadata)
    (hpool : st.empty_decode_buffers = decode_buffer_entry :: buffers)
    (hsize : frame_buffer_size args.metadata WORK_ITEM_SIZE =
      some decode_buffer_entry.buffer_size)
    (hsame : ∀ first, args.metadata[0]? = some first →
      metadata.width = first.width ∧ metadata.height = first.height)
    (hlen : work_item.end_frame - work_item.start_frame ≤ WORK_ITEM_SIZE)
    (hpos : 0 < nv12_frame_size metadata.width metadata.height)
    (hfs : nv12_frame_size metadata.width metadata.height < 2 ^ 31)
    (hW : WORK_ITEM_SIZE < 2 ^ 31) :
    decode_buffer_entry.buffer_size =
      nv12_frame_size metadata.width metadata.height * WORK_ITEM_SIZE ∧
    (∀ f, work_item.start_frame ≤ f → f < work_item.end_frame →
      (nv12_frame_size metadata.width metadata.height * (f - work_item.start_frame)) % 2 ^ 64 =
        nv12_frame_size metadata.width metadata.height * (f - work_item.start_frame) ∧
      nv12_frame_size metadata.width metadata.height * (f - work_item.start_frame) +
        nv12_frame_size metadata.width metadata.height ≤ decode_buffer_entry.buffer_size) ∧
    decode_body args st entry ≠ .error (.aborted .assert_frames_buffer_offset) ∧
    (∀ res, decode_work_item work_item entry (nv12_frame_size metadata.width metadata.height)
        decode_buffer_entry st.decoder st.script = .ok res →
      ∀ c off frame, DecoderCall.get_frame c off frame ∈ res.calls →
        off = nv12_frame_size metadata.width metadata.height * (c - work_item.start_frame) ∧
        off + nv12_frame_size metadata.width metadata.height ≤
          decode_buffer_entry.buffer_size) := by
  generalize hF : nv12_frame_size metadata.width metadata.height = F at *
  have hprod : F * WORK_ITEM_SIZE < 2 ^ 64 :=
    Nat.lt_of_le_of_lt (Nat.mul_le_mul (Nat.le_of_lt hfs) (Nat.le_of_lt hW)) (by norm_num)
  have hbs : decode_buffer_entry.buffer_size = F * WORK_ITEM_SIZE := by
    simp only [frame_buffer_size, Option.map_eq_some'] at hsize
    obtain ⟨first, h0, h1⟩ := hsize
    obtain ⟨hw, hh⟩ := hsame first h0
    rw [← hw, ← hh, hF, Nat.mod_eq_of_lt hprod] at h1
    exact h1.symm
  have hin : ∀ f, work_item.start_frame ≤ f → f < work_item.end_frame →
      (F * (f - work_item.start_frame)) % 2 ^ 64 = F * (f - work_item.start_frame) ∧
      F * (f - work_item.start_frame) + F ≤ decode_buffer_entry.buffer_size := by
    intro f h1 h2
    have hle : F * (f - work_item.start_frame) + F ≤ F * WORK_ITEM_SIZE := by
      have : F * (f - work_item.start_frame) + F = F * (f - work_item.start_frame + 1) := by
        rw [Nat.mul_succ]
      rw [this]
      exact Nat.mul_le_mul_left _ (by omega)
    refine ⟨Nat.mod_eq_of_lt (by omega), by rw [hbs]; exact hle⟩
  refine ⟨hbs, hin, ?_, ?_⟩
  · intro habs
    simp only [decode_body, hpool, hwi, hmd, hF] at habs
    cases hd : decode_work_item work_item entry F decode_buffer_entry st.decoder st.script with
    | ok res => rw [hd] at habs; simp at habs
    | error why =>
      rw [hd] at habs
      simp only [Except.error.injEq] at habs
      subst habs
      rcases decode_work_item_error _ _ _ _ _ _ _ hd with h | ⟨_, c, h1, h2, h3⟩
      · cases h
      · have := hin c h1 h2
        omega
  · intro res hres c off frame hc
    cases hf : feed_loop work_item entry F decode_buffer_entry.buffer_size st.script
        { decoder := st.decoder, encoded_buffer_offset := 0, discontinuity := true,
          current_frame := entry.start_keyframe, calls := [] } with
    | error why => simp [decode_work_item, hf] at hres
    | ok p =>
      obtain ⟨s, rest⟩ := p
      obtain ⟨res2, h1, _, h3, _, _⟩ := decode_work_item_returns _ _ _ _ _ _ _ _ hf
      rw [hres] at h1
      simp only [Except.ok.injEq] at h1
      subst h1
      rw [h3] at hc
      obtain ⟨a, b, rfl⟩ := feed_loop_get_frame _ _ _ _ _ _ _ _ rfl hf c _ frame hc
      have := hin c a b
      omega

/-- Witness of C18: the sample item of 6 frames of 12 bytes in a buffer sized
for 96 frames. -/
theorem decode_writes_inside_buffer_witness :
    sample_buffer.buffer_size = 12 * 96 ∧
    decode_body sample_decode_args sample_decode_state sample_decode_entry ≠
      .error (.aborted .assert_frames_buffer_offset) ∧
    (∀ f, 3 ≤ f → f < 9 → 12 * (f - 3) + 12 ≤ sample_buffer.buffer_size) := by
  have h := decode_writes_inside_buffer sample_decode_args sample_decode_state
    sample_decode_entry sample_item sample_metadata 96 sample_buffer [] rfl rfl rfl rfl
    (by intro first h; cases h; exact ⟨rfl, rfl⟩) (by decide) (by decide) (by decide)
    (by decide)
  refine ⟨h.1, h.2.2.1, fun f h1 h2 => ?_⟩
  exact (h.2.1 f h1 h2).2

/-! ## Theorems: size of the encoded byte range -/

/-- In a strictly increasing list every element is at most the last one. -/
theorem le_of_getLast_of_pairwise (l : List Nat) (h : l.Pairwise (· < ·)) (o : Nat)
    (ho : l.getLast? = some o) : ∀ a ∈ l, a ≤ o := by
  intro a ha
  have hl : l = l.dropLast ++ [o] := (List.dropLast_append_getLast? o ho).symm
  rw [hl] at ha h
  rw [List.pairwise_append] at h
  rcases List.mem_append.mp ha with h1 | h1
  · exact Nat.le_of_lt (h.2.2 a h1 o (by simp))
  · simp only [List.mem_singleton] at h1
    omega

/-- C17. For metadata whose keyframe positions start at 0 and lie below
`frames`, as many byte offsets as positions, strictly increasing with the last
one below `file_size` (a `size_t`), and a work item with
`start_frame < end_frame ≤ frames`: the selected indices satisfy `s < e`, the
size computed by the load stage is `offsets'[e] - offsets'[s]` with
`offsets'[s] < offsets'[e]`, so the unsigned subtraction does not wrap and the
size is positive; a pushed `DecodeWorkEntry` carries that size; the read is
issued at `offsets'[s]` for that many bytes, and for an item with
`end_frame = frames` it ends at `file_size`. -/
theorem load_encoded_data_size (work_item : VideoWorkItem) (metadata : DatasetItemMetadata)
    (file_size : Nat)
    (h0 : metadata.keyframe_positions.head? = some 0)
    (hlt : ∀ p ∈ metadata.keyframe_positions, p < metadata.frames)
    (hse : work_item.start_frame < work_item.end_frame)
    (hef : work_item.end_frame ≤ metadata.frames)
    (hsize : metadata.keyframe_positions.length < SIZE_MAX)
    (hlen : metadata.keyframe_byte_offsets.length = metadata.keyframe_positions.length)
    (hoff : metadata.keyframe_byte_offsets.Pairwise (· < ·))
    (hlast : ∀ o, metadata.keyframe_byte_offsets.getLast? = some o → o < file_size)
    (hfile : file_size < 2 ^ 64) :
    start_keyframe_index_of work_item metadata < end_keyframe_index_of work_item metadata ∧
    (extended_offsets metadata file_size).getD (start_keyframe_index_of work_item metadata) 0 <
      (extended_offsets metadata file_size).getD (end_keyframe_index_of work_item metadata) 0 ∧
    data_size_of work_item metadata file_size =
      (extended_offsets metadata file_size).getD (end_keyframe_index_of work_item metadata) 0 -
        (extended_offsets metadata file_size).getD
          (start_keyframe_index_of work_item metadata) 0 ∧
    0 < data_size_of work_item metadata file_size ∧
    (work_item.end_frame = metadata.frames →
      (extended_offsets metadata file_size).getD (start_keyframe_index_of work_item metadata) 0 +
        data_size_of work_item metadata file_size = file_size) ∧
    (∀ (video_file : RandomReadFile) (k : Int),
      read_outcome_of work_item metadata file_size video_file =
        video_file.read
          ((extended_offsets metadata file_size).getD
            (start_keyframe_index_of work_item metadata) 0)
          (data_size_of work_item metadata file_size) ∧
      ∀ d, load_work_item work_item metadata file_size (some video_file) k = .ok d →
        d.encoded_data_size =
          (extended_offsets metadata file_size).getD
              (end_keyframe_index_of work_item metadata) 0 -
            (extended_offsets metadata file_size).getD
              (start_keyframe_index_of work_item metadata) 0) := by
  obtain ⟨c1, c2, c3, c4, c5, c6, c7, c8, c9⟩ :=
    keyframe_search_spec work_item metadata h0 hse hef hsize
  have hplen : (extended_positions metadata).length = metadata.keyframe_positions.length + 1 := by
    simp [extended_positions]
  have holen : (extended_offsets metadata file_size).length =
      metadata.keyframe_positions.length + 1 := by
    simp [extended_offsets, hlen]
  have hext : (extended_offsets metadata file_size).Pairwise (· < ·) := by
    rw [extended_offsets, List.pairwise_append]
    refine ⟨hoff, List.pairwise_singleton _ _, ?_⟩
    intro a ha b hb
    simp only [List.mem_singleton] at hb
    subst hb
    cases hg : metadata.keyframe_byte_offsets.getLast? with
    | none =>
      rw [List.getLast?_eq_none_iff] at hg
      rw [hg] at ha
      simp at ha
    | some o =>
      have := le_of_getLast_of_pairwise _ hoff o hg a ha
      have := hlast o hg
      omega
  have hse2 : start_keyframe_index_of work_item metadata <
      end_keyframe_index_of work_item metadata := by
    rcases Nat.lt_or_ge (start_keyframe_index_of work_item metadata)
      (end_keyframe_index_of work_item metadata) with h | h
    · exact h
    · have he : start_keyframe_index_of work_item metadata =
          end_keyframe_index_of work_item metadata := by omega
      rw [← he] at c7
      omega
  have hlt2 := getD_lt_of_pairwise _ hext _ _ hse2 (by omega)
  have hbound : ∀ i, (extended_offsets metadata file_size).getD i 0 ≤ file_size := by
    intro i
    by_cases hi : i < metadata.keyframe_positions.length
    · have := getD_lt_of_pairwise _ hext i metadata.keyframe_positions.length hi (by omega)
      have hl : (extended_offsets metadata file_size).getD
          metadata.keyframe_positions.length 0 = file_size := by
        rw [← hlen]; exact getD_append_last _ _
      omega
    · by_cases hi2 : i = metadata.keyframe_positions.length
      · rw [hi2, ← hlen]
        exact Nat.le_of_eq (getD_append_last _ _)
      · rw [List.getD_eq_getElem?_getD, List.getElem?_eq_none (by omega)]
        simp
  have hds : data_size_of work_item metadata file_size =
      (extended_offsets metadata file_size).getD (end_keyframe_index_of work_item metadata) 0 -
        (extended_offsets metadata file_size).getD
          (start_keyframe_index_of work_item metadata) 0 := by
    have h1 := hbound (end_keyframe_index_of work_item metadata)
    have h2 := hbound (start_keyframe_index_of work_item metadata)
    simp only [data_size_of]
    omega
  refine ⟨hse2, hlt2, hds, by omega, ?_, ?_⟩
  · intro hend
    have he : end_keyframe_index_of work_item metadata = metadata.keyframe_positions.length := by
      by_contra hne
      have hi : end_keyframe_index_of work_item metadata < metadata.keyframe_positions.length := by
        omega
      have hm : (extended_positions metadata).getD (end_keyframe_index_of work_item metadata) 0 ∈
          metadata.keyframe_positions := by
        rw [extended_positions, List.getD_eq_getElem?_getD, List.getElem?_append_left hi,
          List.getElem?_eq_getElem hi]
        exact List.getElem_mem _
      have := hlt _ hm
      omega
    have hl : (extended_offsets metadata file_size).getD
        (end_keyframe_index_of work_item metadata) 0 = file_size := by
      rw [he, ← hlen]; exact getD_append_last _ _
    omega
  · intro video_file k
    refine ⟨rfl, ?_⟩
    intro d hd
    rw [load_work_item_eq, if_neg c1, if_neg c2] at hd
    split_ifs at hd
    simp only [Except.ok.injEq] at hd
    subst hd
    exact hds

/-- Witness of C17: the sample item selects keyframe indices 0 and 3 of the
offsets 0, 100, 200 extended by the file size 300; 300 bytes are read. -/
theorem load_encoded_data_size_witness :
    data_size_of sample_item sample_metadata 300 = 300 - 0 ∧
    0 < data_size_of sample_item sample_metadata 300 := by
  have h := load_encoded_data_size sample_item sample_metadata 300 (by decide) (by decide)
    (by decide) (by decide) (by decide) (by decide) (by decide)
    (by intro o ho; cases ho; decide) (by decide)
  exact ⟨h.2.2.1, h.2.2.2.1⟩

/-! ## Theorems: the work item index through the stages -/

/-- A worker whose body pushes one entry with the popped index pushes, over a
whole queue, the indices of the entries it processed, none of them `-1`. -/
theorem worker_loop_indices {σ In Out : Type} (index_in : In → Int) (index_out : Out → Int)
    (body : σ → In → Except Stop (σ × List Out))
    (hbody : ∀ st e st1 out, body st e = .ok (st1, out) → out.map index_out = [index_in e]) :
    ∀ (q : List In) (st : σ),
      (worker_loop (fun e => index_in e == -1) body st q).pushed.map index_out =
        (worker_loop (fun e => index_in e == -1) body st q).processed.map index_in ∧
      ∀ e ∈ (worker_loop (fun e => index_in e == -1) body st q).processed,
        index_in e ≠ -1 := by
  intro q
  induction q with
  | nil => intro st; simp [worker_loop]
  | cons e q ih =>
    intro st
    simp only [worker_loop]
    by_cases hs : (index_in e == -1) = true
    · rw [if_pos hs]; simp
    · rw [if_neg hs]
      cases hb : body st e with
      | error why => simp
      | ok r =>
        obtain ⟨st1, out⟩ := r
        obtain ⟨h1, h2⟩ := ih st1
        simp only [List.map_append, List.map_cons, hbody st e st1 out hb, h1,
          List.singleton_append, List.mem_cons, forall_eq_or_imp, true_and]
        refine ⟨?_, h2⟩
        simpa using hs

/-- The load body pushes one entry, with the index of the popped entry. -/
theorem load_body_index (args : LoadThreadArgs) :
    ∀ st e st1 out, load_body args st e = .ok (st1, out) →
      out.map (fun d => d.work_item_index) = [e.work_item_index] := by
  intro st e st1 out h
  simp only [load_body] at h
  split at h
  · simp at h
  · split at h
    · split at h
      · simp at h
      · rename_i d hd
        simp only [Except.ok.injEq, Prod.mk.injEq] at h
        rw [← h.2]
        simp only [load_work_item] at hd
        split_ifs at hd
        split at hd
        · simp at hd
        · split_ifs at hd
          simp only [Except.ok.injEq] at hd
          rw [← hd]
          rfl
    · simp at h

/-- The decode body pushes one entry, with the index of the popped entry. -/
theorem decode_body_index (args : DecodeThreadArgs) :
    ∀ st e st1 out, decode_body args st e = .ok (st1, out) →
      out.map (fun d => d.work_item_index) = [e.work_item_index] := by
  intro st e st1 out h
  simp only [decode_body] at h
  split at h
  · simp at h
  · split at h
    · simp at h
    · split at h
      · simp at h
      · split at h
        · simp at h
        · rename_i wi _ md _ res hres
          simp only [Except.ok.injEq, Prod.mk.injEq] at h
          rw [← h.2]
          simp only [decode_work_item] at hres
          split at hres
          · simp at hres
          · split at hres
            · simp at hres
            · simp only [Except.ok.injEq] at hres
              rw [← hres]
              rfl

/-- The evaluate body pushes one entry, with the index of the popped entry. -/
theorem evaluate_body_index (args : EvaluateThreadArgs) :
    ∀ st e st1 out, evaluate_body args st e = .ok (st1, out) →
      out.map (fun d => d.work_item_index) = [e.work_item_index] := by
  intro st e st1 out h
  simp only [evaluate_body] at h
  split at h
  · simp at h
  · split at h
    · simp at h
    · split at h
      · simp at h
      · rename_i res hres
        simp only [Except.ok.injEq, Prod.mk.injEq] at h
        rw [← h.2]
        simp only [evaluate_work_item] at hres
        split at hres
        · simp at hres
        · simp only [Except.ok.injEq] at hres
          rw [← hres]
          rfl

/-- C20. Each of the load, decode and evaluate bodies that returns pushes
exactly one downstream entry, carrying the `work_item_index` of the entry it
popped; so an index `k` is carried unchanged from the `LoadWorkEntry` to the
`SaveWorkEntry`; and over any queue content each stage thread pushes exactly
the indices of the entries it processed, none of which is `-1`. -/
theorem stages_forward_index :
    (∀ (args : LoadThreadArgs) st e st1 out, load_body args st e = .ok (st1, out) →
      ∃ d, out = [d] ∧ d.work_item_index = e.work_item_index) ∧
    (∀ (args : DecodeThreadArgs) st e st1 out, decode_body args st e = .ok (st1, out) →
      ∃ d, out = [d] ∧ d.work_item_index = e.work_item_index) ∧
    (∀ (args : EvaluateThreadArgs) st e st1 out, evaluate_body args st e = .ok (st1, out) →
      ∃ d, out = [d] ∧ d.work_item_index = e.work_item_index) ∧
    (∀ (largs : LoadThreadArgs) (dargs : DecodeThreadArgs) (eargs : EvaluateThreadArgs)
      lst dst est (e : LoadWorkEntry) lst1 dst1 est1 d v w,
      load_body largs lst e = .ok (lst1, [d]) →
      decode_body dargs dst d = .ok (dst1, [v]) →
      evaluate_body eargs est v = .ok (est1, [w]) →
      d.work_item_index = e.work_item_index ∧ v.work_item_index = e.work_item_index ∧
        w.work_item_index = e.work_item_index) ∧
    (∀ (args : LoadThreadArgs) st q,
      (load_video_thread args st q).pushed.map (fun d => d.work_item_index) =
        (load_video_thread args st q).processed.map (fun e => e.work_item_index) ∧
      ∀ d ∈ (load_video_thread args st q).pushed, d.work_item_index ≠ -1) ∧
    (∀ (args : DecodeThreadArgs) st q,
      (decode_thread args st q).pushed.map (fun d => d.work_item_index) =
        (decode_thread args st q).processed.map (fun e => e.work_item_index) ∧
      ∀ d ∈ (decode_thread args st q).pushed, d.work_item_index ≠ -1) ∧
    (∀ (args : EvaluateThreadArgs) st q,
      (evaluate_thread args st q).pushed.map (fun d => d.work_item_index) =
        (evaluate_thread args st q).processed.map (fun e => e.work_item_index) ∧
      ∀ d ∈ (evaluate_thread args st q).pushed, d.work_item_index ≠ -1) := by
  have one : ∀ {Out : Type} (f : Out → Int) (out : List Out) (k : Int),
      out.map f = [k] → ∃ d, out = [d] ∧ f d = k := by
    intro Out f out k h
    match out, h with
    | [d], h => exact ⟨d, rfl, by simpa using h⟩
  have thread : ∀ {σ In Out : Type} (fi : In → Int) (fo : Out → Int)
      (body : σ → In → Except Stop (σ × List Out)),
      (∀ st e st1 out, body st e = .ok (st1, out) → out.map fo = [fi e]) →
      ∀ q st,
        (worker_loop (fun e => fi e == -1) body st q).pushed.map fo =
          (worker_loop (fun e => fi e == -1) body st q).processed.map fi ∧
        ∀ d ∈ (worker_loop (fun e => fi e == -1) body st q).pushed, fo d ≠ -1 := by
    intro σ In Out fi fo body hb q st
    obtain ⟨h1, h2⟩ := worker_loop_indices fi fo body hb q st
    refine ⟨h1, ?_⟩
    intro d hd
    have hm : fo d ∈ (worker_loop (fun e => fi e == -1) body st q).pushed.map fo :=
      List.mem_map_of_mem fo hd
    rw [h1] at hm
    obtain ⟨e, he, heq⟩ := List.mem_map.mp hm
    rw [← heq]
    exact h2 e he
  refine ⟨?_, ?_, ?_, ?_, ?_, ?_, ?_⟩
  · intro args st e st1 out h
    exact one _ _ _ (load_body_index args st e st1 out h)
  · intro args st e st1 out h
    exact one _ _ _ (decode_body_index args st e st1 out h)
  · intro args st e st1 out h
    exact one _ _ _ (evaluate_body_index args st e st1 out h)
  · intro largs dargs eargs lst dst est e lst1 dst1 est1 d v w h1 h2 h3
    have a := load_body_index largs lst e lst1 _ h1
    have b := decode_body_index dargs dst d dst1 _ h2
    have c := evaluate_body_index eargs est v est1 _ h3
    simp only [List.map_cons, List.map_nil, List.cons.injEq, and_true] at a b c
    exact ⟨a, by rw [b, a], by rw [c, b, a]⟩
  · intro args st q
    exact thread _ _ _ (load_body_index args) q st
  · intro args st q
    exact thread _ _ _ (decode_body_index args) q st
  · intro args st q
    exact thread _ _ _ (evaluate_body_index args) q st

/-- Witness of C20: the sample entry with index 0 goes through the three
stages and comes out with index 0. -/
theorem stages_forward_index_witness :
    ∃ lst1 dst1 est1 d v w,
      load_body (sample_load_args full_read) LoadThreadState.init ⟨0⟩ = .ok (lst1, [d]) ∧
      decode_body sample_decode_args sample_decode_state d = .ok (dst1, [v]) ∧
      evaluate_body sample_eval_args ⟨[]⟩ v = .ok (est1, [w]) ∧
      d.work_item_index = 0 ∧ v.work_item_index = 0 ∧ w.work_item_index = 0 := by
  refine ⟨_, _, _, _, _, _, rfl, rfl, rfl, ?_⟩
  have h := stages_forward_index.1 (sample_load_args full_read) LoadThreadState.init ⟨0⟩ _ _ rfl
  obtain ⟨d, hd, hk⟩ := h
  simp only [List.cons.injEq, and_true] at hd
  subst hd
  exact ⟨hk, rfl, rfl⟩

/-! ## Theorems: the batch loop of the evaluate stage -/

/-- The batch loop cuts `[0, end_frame - start_frame)` the way the work plan
cuts a video: its records are those of the chunks of size `GLOBAL_BATCH_SIZE`. -/
theorem batch_loop_chunks (args : EvaluateThreadArgs) (work_item : VideoWorkItem)
    (frame_size output_size_per_frame : Nat) :
    ∀ (n current_frame : Nat), work_item.start_frame ≤ current_frame →
      batch_loop args work_item frame_size output_size_per_frame n current_frame =
        (chunks args.GLOBAL_BATCH_SIZE (work_item.end_frame - work_item.start_frame) (n + 1)
          (current_frame - work_item.start_frame)).map
          (List.map fun c =>
            batch_record args frame_size output_size_per_frame c.1 (c.2 - c.1)) := by
  intro n
  induction n with
  | zero =>
    intro cur hc
    simp only [batch_loop, chunks, Nat.zero_add]
    by_cases h : cur < work_item.end_frame
    · rw [if_pos h, if_pos (by omega)]; rfl
    · rw [if_neg h, if_neg (by omega)]; rfl
  | succ n ih =>
    intro cur hc
    rw [batch_loop, chunks]
    by_cases h : cur < work_item.end_frame
    · rw [if_pos h, if_pos (by omega)]
      have hmin : work_item.end_frame - work_item.start_frame - (cur - work_item.start_frame) =
          work_item.end_frame - cur := by omega
      rw [hmin]
      have hnext : cur + min args.GLOBAL_BATCH_SIZE (work_item.end_frame - cur) -
          work_item.start_frame =
          cur - work_item.start_frame +
            min args.GLOBAL_BATCH_SIZE (work_item.end_frame - cur) := by omega
      simp only [ih _ (show work_item.start_frame ≤
        cur + min args.GLOBAL_BATCH_SIZE (work_item.end_frame - cur) by omega), hnext,
        Option.map_map]
      congr 1
      funext l
      simp only [Function.comp, List.map_cons, Nat.add_sub_cancel_left, batch_record]
    · rw [if_neg h, if_neg (by omega)]; rfl

/-- Two chunks of the closed form do not overlap. -/
theorem expected_pairs_disjoint (W f : Nat) :
    (expected_pairs W f).Pairwise fun a b => a.2 ≤ b.1 := by
  simp only [expected_pairs, List.pairwise_map]
  exact (List.pairwise_lt_range _).imp fun h =>
    le_trans (min_le_left _ _) (Nat.mul_le_mul_right _ h)

/-- The output range of the batch of a chunk `[c.1, c.2)` inside `[0, n)`, when
`n * p` fits a `size_t`: the bytes `[c.1 * p, c.2 * p)`. -/
theorem batch_record_output (args : EvaluateThreadArgs) (frame_size p n : Nat)
    (hfit : n * p < 2 ^ 64) (c : Nat × Nat) (h1 : c.1 ≤ c.2) (h2 : c.2 ≤ n) :
    (batch_record args frame_size p c.1 (c.2 - c.1)).output_offset = c.1 * p ∧
    (batch_record args frame_size p c.1 (c.2 - c.1)).output_bytes = (c.2 - c.1) * p ∧
    (batch_record args frame_size p c.1 (c.2 - c.1)).output_offset +
      (batch_record args frame_size p c.1 (c.2 - c.1)).output_bytes = c.2 * p ∧
    c.2 * p ≤ n * p := by
  have a : c.1 * p ≤ n * p := Nat.mul_le_mul_right _ (by omega)
  have b : (c.2 - c.1) * p ≤ n * p := Nat.mul_le_mul_right _ (by omega)
  have e : c.1 * p + (c.2 - c.1) * p = c.2 * p := by
    rw [← Nat.add_mul]
    congr 1
    omega
  simp only [batch_record]
  rw [Nat.mod_eq_of_lt (by omega), Nat.mod_eq_of_lt (by omega)]
  exact ⟨rfl, rfl, e, Nat.mul_le_mul_right _ h2⟩

/-- C15. For a work item with `n = end_frame - start_frame` frames (`n ≥ 1` for
every item of the plan, though no lower bound is needed),
`GLOBAL_BATCH_SIZE = B ≥ 1` and a per-frame output size `p` with `n * p` within
`size_t`, the batch loop returns after `ceil (n / B)` iterations; batch `k` has
`frame_offset = k * B` and `batch_size = min B (n - k * B)`; each batch copies
the bytes `[frame_offset * p, (frame_offset + batch_size) * p)`, inside
`[0, n * p)`; the ranges of two batches do not overlap and every byte below
`n * p` is written by exactly one batch, no byte at or above it by any; and the
evaluate body runs this loop. -/
theorem batch_loop_covers_output (args : EvaluateThreadArgs) (work_item : VideoWorkItem)
    (frame_size p : Nat)
    (hB : 1 ≤ args.GLOBAL_BATCH_SIZE)
    (hfit : (work_item.end_frame - work_item.start_frame) * p < 2 ^ 64) :
    ∃ batches,
      batch_loop args work_item frame_size p (work_item.end_frame - work_item.start_frame)
        work_item.start_frame = some batches ∧
      batches.length =
        (work_item.end_frame - work_item.start_frame + args.GLOBAL_BATCH_SIZE - 1) /
          args.GLOBAL_BATCH_SIZE ∧
      batches.map (fun b => (b.frame_offset, b.batch_size)) =
        (List.range ((work_item.end_frame - work_item.start_frame +
            args.GLOBAL_BATCH_SIZE - 1) / args.GLOBAL_BATCH_SIZE)).map (fun k =>
          (k * args.GLOBAL_BATCH_SIZE,
            min args.GLOBAL_BATCH_SIZE
              (work_item.end_frame - work_item.start_frame - k * args.GLOBAL_BATCH_SIZE))) ∧
      (∀ b ∈ batches, 1 ≤ b.batch_size ∧
        b.output_offset = b.frame_offset * p ∧
        b.output_offset + b.output_bytes = (b.frame_offset + b.batch_size) * p ∧
        b.output_offset + b.output_bytes ≤
          (work_item.end_frame - work_item.start_frame) * p) ∧
      batches.Pairwise (fun a b => a.output_offset + a.output_bytes ≤ b.output_offset) ∧
      (∀ x, batches.countP (fun b => b.writes x) =
        if x < (work_item.end_frame - work_item.start_frame) * p then 1 else 0) ∧
      (∀ (metadata : DatasetItemMetadata) (work_entry : EvalWorkEntry),
        frame_size = nv12_frame_size metadata.width metadata.height →
        p = output_size_per_frame_of args →
        ∃ res, evaluate_work_item args work_item metadata work_entry = .ok res ∧
          res.batches = batches) := by
  generalize hn : work_item.end_frame - work_item.start_frame = n at *
  generalize hBB : args.GLOBAL_BATCH_SIZE = B at *
  have hch : chunks B n (n + 1) 0 = some (expected_pairs B n) :=
    chunks_eq_expected B n (n + 1) hB (by omega)
  have hloop : batch_loop args work_item frame_size p n work_item.start_frame =
      some ((expected_pairs B n).map fun c => batch_record args frame_size p c.1 (c.2 - c.1)) := by
    rw [batch_loop_chunks args work_item frame_size p n _ (Nat.le_refl _), Nat.sub_self, hn,
      hBB, hch]
    rfl
  have hshape := (chunks_shape B n hB _ _ _ hch).2.2.2.1
  refine ⟨_, hloop, ?_, ?_, ?_, ?_, ?_, ?_⟩
  · simp [expected_pairs]
  · simp only [expected_pairs, List.map_map]
    apply List.map_congr_left
    intro k _
    simp only [Function.comp, batch_record, Nat.succ_mul, Prod.mk.injEq, true_and]
    omega
  · intro b hb
    obtain ⟨c, hc, rfl⟩ := List.mem_map.mp hb
    obtain ⟨_, h1, h2, _⟩ := hshape c hc
    obtain ⟨o1, _, o3, o4⟩ := batch_record_output args frame_size p n hfit c (by omega) h2
    refine ⟨?_, o1, ?_, by rw [o3]; exact o4⟩
    · show 1 ≤ c.2 - c.1
      omega
    · rw [o3]
      show c.2 * p = (c.1 + (c.2 - c.1)) * p
      congr 1
      omega
  · rw [List.pairwise_map]
    refine (expected_pairs_disjoint B n).imp_of_mem ?_
    intro a b ha hb hab
    obtain ⟨_, h1, h2, _⟩ := hshape a ha
    obtain ⟨_, h3, h4, _⟩ := hshape b hb
    obtain ⟨_, _, o3, _⟩ := batch_record_output args frame_size p n hfit a (by omega) h2
    obtain ⟨q1, _, _, _⟩ := batch_record_output args frame_size p n hfit b (by omega) h4
    rw [o3, q1]
    exact Nat.mul_le_mul_right _ hab
  · intro x
    rw [List.countP_map]
    by_cases hp : p = 0
    · subst hp
      rw [Nat.mul_zero, if_neg (by omega), List.countP_eq_zero]
      intro c hc
      obtain ⟨_, h1, h2, _⟩ := hshape c hc
      obtain ⟨o1, _, o3, _⟩ := batch_record_output args frame_size 0 n hfit c (by omega) h2
      simp only [Function.comp, BatchRecord.writes, o3, o1, Bool.and_eq_true,
        decide_eq_true_eq]
      omega
    · have hpos : 0 < p := Nat.pos_of_ne_zero hp
      have hcount := chunks_countP B n hB _ _ _ hch (x / p)
      rw [show (List.countP ((fun b => b.writes x) ∘ fun c =>
            batch_record args frame_size p c.1 (c.2 - c.1)) (expected_pairs B n)) =
          List.countP (fun c => decide (c.1 ≤ x / p) && decide (x / p < c.2))
            (expected_pairs B n) from ?_, hcount]
      · simp only [Nat.zero_le, true_and, Nat.div_lt_iff_lt_mul hpos]
      · apply List.countP_congr
        intro c hc
        obtain ⟨_, h1, h2, _⟩ := hshape c hc
        obtain ⟨o1, _, o3, _⟩ := batch_record_output args frame_size p n hfit c (by omega) h2
        simp only [Function.comp, BatchRecord.writes, Bool.and_eq_true, decide_eq_true_eq]
        rw [o3, o1, Nat.le_div_iff_mul_le hpos, Nat.div_lt_iff_lt_mul hpos]
  · intro metadata work_entry hfs hpp
    simp only [evaluate_work_item]
    rw [← hfs, ← hpp, hn, hloop]
    exact ⟨_, rfl, rfl⟩

/-- Witness of C15: the sample item of 6 frames in batches of 4 with 4000 output
bytes per frame is evaluated in 2 batches, frames 0-3 written to bytes
`[0, 16000)` and frames 4-5 to `[16000, 24000)`. -/
theorem batch_loop_covers_output_witness :
    ∃ batches, batch_loop sample_eval_args sample_item 12 4000 6 3 = some batches ∧
      batches.map (fun b => (b.frame_offset, b.batch_size, b.output_offset, b.output_bytes)) =
        [(0, 4, 0, 16000), (4, 2, 16000, 8000)] ∧
      ∀ x, batches.countP (fun b => b.writes x) = if x < 6 * 4000 then 1 else 0 := by
  obtain ⟨batches, h1, _, _, _, _, h6, _⟩ :=
    batch_loop_covers_output sample_eval_args sample_item 12 4000 (by decide) (by decide)
  refine ⟨batches, h1, ?_, h6⟩
  have h : batch_loop sample_eval_args sample_item 12 4000 6 3 =
      some [batch_record sample_eval_args 12 4000 0 4, batch_record sample_eval_args 12 4000 4 2] :=
    by decide
  have e : batches = [batch_record sample_eval_args 12 4000 0 4,
      batch_record sample_eval_args 12 4000 4 2] :=
    Option.some.inj (h1.symm.trans h)
  rw [e]
  decide

/-! ## Theorems: the frames read by the evaluate stage -/

theorem sum_set_getD (l : List Nat) :
    ∀ (g v : Nat), g < l.length → (l.set g v).sum + l.getD g 0 = l.sum + v := by
  induction l with
  | nil => intro g v h; simp at h
  | cons a r ih =>
    intro g v h
    cases g with
    | zero => simp; omega
    | succ g =>
      have := ih g v (by simpa using h)
      simp only [List.set_cons_succ, List.sum_cons, List.getD_cons_succ]
      omega

theorem getD_pos_lt_length (l : List Nat) (g : Nat) (h : 0 < l.getD g 0) : g < l.length := by
  by_contra hn
  rw [List.getD_eq_getElem?_getD, List.getElem?_eq_none (by omega)] at h
  simp at h

/-- The dispatches of the first master loop each went through the test of their
iteration. -/
theorem master_distribute_agrees (n : Nat) (T : Int) (num_nodes : Nat) :
    ∀ (obs : List Observation) (next : Nat),
      ∃ used, used.Sublist obs ∧
        List.Forall₂ (Dispatch.agrees T) used (master_distribute n T num_nodes obs next).events := by
  intro obs
  induction obs with
  | nil =>
    intro next
    refine ⟨[], List.Sublist.refl _, ?_⟩
    simp only [master_distribute]
    split_ifs <;> exact List.Forall₂.nil
  | cons o obs ih =>
    intro next
    by_cases h1 : next < n
    · by_cases h2 : o.local_work < T
      · obtain ⟨used, hs, hf⟩ := ih (next + 1)
        have e : (master_distribute n T num_nodes (o :: obs) next).events =
            .push_local next :: (master_distribute n T num_nodes obs (next + 1)).events := by
          simp [master_distribute, h1, h2]
        rw [e]
        exact ⟨o :: used, hs.cons₂ o, List.Forall₂.cons h2 hf⟩
      · by_cases h3 : num_nodes > 1
        · cases h4 : o.source with
          | none =>
            have e : (master_distribute n T num_nodes (o :: obs) next).events = [] := by
              simp [master_distribute, h1, h2, h3, h4]
            rw [e]
            exact ⟨[], List.nil_sublist _, List.Forall₂.nil⟩
          | some source =>
            obtain ⟨used, hs, hf⟩ := ih (next + 1)
            have e : (master_distribute n T num_nodes (o :: obs) next).events =
                .send source next :: (master_distribute n T num_nodes obs (next + 1)).events := by
              simp [master_distribute, h1, h2, h3, h4]
            rw [e]
            exact ⟨o :: used, hs.cons₂ o, List.Forall₂.cons ⟨h2, h4⟩ hf⟩
        · obtain ⟨used, hs, hf⟩ := ih next
          have e : (master_distribute n T num_nodes (o :: obs) next).events =
              (master_distribute n T num_nodes obs next).events := by
            simp [master_distribute, h1, h2, h3]
          rw [e]
          exact ⟨used, hs.cons o, hf⟩
    · have e : (master_distribute n T num_nodes (o :: obs) next).events = [] := by
        simp [master_distribute, h1]
      rw [e]
      exact ⟨[], List.nil_sublist _, List.Forall₂.nil⟩

/-- The indices a worker rank pushes each follow the test of their iteration
and the response received in it. -/
theorem worker_distribute_agrees (T : Int) :
    ∀ (obs : List WorkerObservation),
      ∃ used, used.Sublist obs ∧
        List.Forall₂ (fun o k => o.local_work < T ∧ o.response = some k ∧ k ≠ -1) used
          (worker_distribute T obs).pushed := by
  intro obs
  induction obs with
  | nil => exact ⟨[], List.Sublist.refl _, List.Forall₂.nil⟩
  | cons o obs ih =>
    obtain ⟨used, hs, hf⟩ := ih
    by_cases h2 : o.local_work < T
    · cases h4 : o.response with
      | none =>
        have e : (worker_distribute T (o :: obs)).pushed = [] := by
          simp [worker_distribute, h2, h4]
        rw [e]
        exact ⟨[], List.nil_sublist _, List.Forall₂.nil⟩
      | some k =>
        by_cases h5 : k = -1
        · have e : (worker_distribute T (o :: obs)).pushed = [] := by
            simp [worker_distribute, h2, h4, h5]
          rw [e]
          exact ⟨[], List.nil_sublist _, List.Forall₂.nil⟩
        · have e : (worker_distribute T (o :: obs)).pushed =
              k :: (worker_distribute T obs).pushed := by
            simp [worker_distribute, h2, h4, h5]
          rw [e]
          exact ⟨o :: used, hs.cons₂ o, List.Forall₂.cons ⟨h2, h4, h5⟩ hf⟩
    · have e : (worker_distribute T (o :: obs)).pushed = (worker_distribute T obs).pushed := by
        simp [worker_distribute, h2]
      rw [e]
      exact ⟨used, hs.cons o, hf⟩

theorem count_true_set_false (l : List Bool) (w : Nat) (h : l[w]? = some true) :
    (l.set w false).count true + 1 = l.count true := by
  induction l generalizing w with
  | nil => simp at h
  | cons b r ih =>
    cases w with
    | zero =>
      simp only [List.getElem?_cons_zero, Option.some.injEq] at h
      subst h
      simp
    | succ v =>
      simp only [List.getElem?_cons_succ] at h
      have := ih v h
      simp only [List.set_cons_succ, List.count_cons]
      omega

/-- A step keeps the entries queued and in flight within `T` plus the number of
load and decode workers, and within the value the coordinator observed plus
that number until its iteration ends. -/
theorem node_step_bound (T : Int) (LOAD_WORKERS_PER_NODE GPUS_PER_NODE : Nat)
    (hT : T + LOAD_WORKERS_PER_NODE + GPUS_PER_NODE < 2 ^ 31)
    (q q1 : NodeQueues) (a : NodeAction)
    (h : node_step T LOAD_WORKERS_PER_NODE q a = some q1)
    (hq : q.load_held ≤ LOAD_WORKERS_PER_NODE ∧ q.decode_held.length = GPUS_PER_NODE ∧
      ((q.queued : Int) + q.in_flight ≤ T + LOAD_WORKERS_PER_NODE + GPUS_PER_NODE) ∧
      ∀ v, q.local_work = some v →
        (q.queued : Int) + q.in_flight ≤ v + LOAD_WORKERS_PER_NODE + GPUS_PER_NODE) :
    q1.load_held ≤ LOAD_WORKERS_PER_NODE ∧ q1.decode_held.length = GPUS_PER_NODE ∧
      ((q1.queued : Int) + q1.in_flight ≤ T + LOAD_WORKERS_PER_NODE + GPUS_PER_NODE) ∧
      ∀ v, q1.local_work = some v →
        (q1.queued : Int) + q1.in_flight ≤ v + LOAD_WORKERS_PER_NODE + GPUS_PER_NODE := by
  obtain ⟨ha, hb, hc, hd⟩ := hq
  have hcount : q.decode_held.count true ≤ q.decode_held.length := List.count_le_length _ _
  cases a with
  | observe =>
    simp only [node_step, Option.some.injEq] at h
    subst h
    refine ⟨ha, hb, hc, ?_⟩
    intro v hv
    simp only [Option.some.injEq] at hv
    subst hv
    have hlt : q.queued < 2 ^ 31 := by omega
    have hv : int_of_size q.queued = (q.queued : Int) := by
      simp only [int_of_size]
      rw [Nat.mod_eq_of_lt (by omega), if_pos hlt]
    show (q.queued : Int) + q.in_flight ≤ int_of_size q.queued + _ + _
    rw [hv]
    simp only [NodeQueues.in_flight]
    omega
  | push =>
    simp only [node_step] at h
    cases hl : q.local_work with
    | none => rw [hl] at h; simp at h
    | some v =>
      rw [hl] at h
      simp only at h
      split_ifs at h with hv
      simp only [Option.some.injEq] at h
      subst h
      have := hd v hl
      simp only [NodeQueues.queued, NodeQueues.in_flight] at this ⊢
      refine ⟨ha, hb, by omega, ?_⟩
      intro w hw
      simp at hw
  | pass =>
    simp only [node_step, Option.some.injEq] at h
    subst h
    refine ⟨ha, hb, hc, ?_⟩
    intro w hw
    simp at hw
  | load_pop =>
    simp only [node_step] at h
    split_ifs at h with h0
    simp only [Option.some.injEq] at h
    subst h
    simp only [NodeQueues.queued, NodeQueues.in_flight] at hc hd ⊢
    exact ⟨by omega, hb, by omega, fun v hv => by have := hd v hv; omega⟩
  | load_push =>
    simp only [node_step] at h
    split_ifs at h with h0
    simp only [Option.some.injEq] at h
    subst h
    simp only [NodeQueues.queued, NodeQueues.in_flight] at hc hd ⊢
    exact ⟨by omega, hb, by omega, fun v hv => by have := hd v hv; omega⟩
  | decode_pop gpu =>
    simp only [node_step] at h
    split_ifs at h with h0
    simp only [Option.some.injEq] at h
    subst h
    have hs := count_true_set q.decode_held gpu h0.2
    simp only [NodeQueues.queued, NodeQueues.in_flight, List.length_set] at hc hd ⊢
    exact ⟨ha, hb, by omega, fun v hv => by have := hd v hv; omega⟩
  | decode_push gpu =>
    simp only [node_step] at h
    split_ifs at h with h0
    simp only [Option.some.injEq] at h
    subst h
    have hs := count_true_set_false q.decode_held gpu h0.1
    have hsum := sum_set_getD q.eval_work gpu (q.eval_work.getD gpu 0 + 1) h0.2
    simp only [NodeQueues.queued, NodeQueues.in_flight, List.length_set] at hc hd ⊢
    exact ⟨ha, hb, by omega, fun v hv => by have := hd v hv; omega⟩
  | evaluate_pop gpu =>
    simp only [node_step] at h
    split_ifs at h with h0
    simp only [Option.some.injEq] at h
    subst h
    have hsum := sum_set_getD q.eval_work gpu (q.eval_work.getD gpu 0 - 1)
      (getD_pos_lt_length _ _ h0)
    simp only [NodeQueues.queued, NodeQueues.in_flight] at hc hd ⊢
    exact ⟨ha, hb, by omega, fun v hv => by have := hd v hv; omega⟩

/-- A run keeps the bound of `node_step_bound`. -/
theorem node_run_bound (T : Int) (LOAD_WORKERS_PER_NODE GPUS_PER_NODE : Nat)
    (hT : T + LOAD_WORKERS_PER_NODE + GPUS_PER_NODE < 2 ^ 31) :
    ∀ (actions : List NodeAction) (q q1 : NodeQueues),
      node_run T LOAD_WORKERS_PER_NODE q actions = some q1 →
      (q.load_held ≤ LOAD_WORKERS_PER_NODE ∧ q.decode_held.length = GPUS_PER_NODE ∧
        ((q.queued : Int) + q.in_flight ≤ T + LOAD_WORKERS_PER_NODE + GPUS_PER_NODE) ∧
        ∀ v, q.local_work = some v →
          (q.queued : Int) + q.in_flight ≤ v + LOAD_WORKERS_PER_NODE + GPUS_PER_NODE) →
      q1.load_held ≤ LOAD_WORKERS_PER_NODE ∧ q1.decode_held.length = GPUS_PER_NODE ∧
        ((q1.queued : Int) + q1.in_flight ≤ T + LOAD_WORKERS_PER_NODE + GPUS_PER_NODE) ∧
        ∀ v, q1.local_work = some v →
          (q1.queued : Int) + q1.in_flight ≤ v + LOAD_WORKERS_PER_NODE + GPUS_PER_NODE := by
  intro actions
  induction actions with
  | nil =>
    intro q q1 h hq
    simp only [node_run, Option.some.injEq] at h
    subst h
    exact hq
  | cons a actions ih =>
    intro q q1 h hq
    simp only [node_run] at h
    cases hs : node_step T LOAD_WORKERS_PER_NODE q a with
    | none => rw [hs] at h; simp at h
    | some q2 =>
      rw [hs] at h
      exact ih q2 q1 h (node_step_bound T _ _ hT q q2 a hs hq)

/-- C16 (amended). With `0 ≤ T = GPUS_PER_NODE * TASKS_IN_QUEUE_PER_GPU` (an
`int`, as are the worker counts): every dispatch of the master's first loop
belongs to an iteration of its own, a local push to one that observed
`local_work < T`, a send to one that did not (so an iteration that observed
`local_work < T` exchanges no message); every index a worker rank pushes
belongs to an iteration that observed `local_work < T`; and in the step model
where a stage worker's pop and its push on the next queue are separate steps,
every state reached from the empty queues has the entries queued plus the
entries held by load and decode workers within
`T + LOAD_WORKERS_PER_NODE + GPUS_PER_NODE`, hence
`|load_work| + |decode_work| + sum of |eval_work[g]|` within that bound. -/
theorem queued_work_bounded (T : Int) (LOAD_WORKERS_PER_NODE GPUS_PER_NODE : Nat)
    (hT0 : 0 ≤ T) (hT : T + LOAD_WORKERS_PER_NODE + GPUS_PER_NODE < 2 ^ 31) :
    (∀ (n num_nodes : Nat) (obs : List Observation) (next : Nat),
      ∃ used, used.Sublist obs ∧
        List.Forall₂ (Dispatch.agrees T) used
          (master_distribute n T num_nodes obs next).events) ∧
    (∀ (obs : List WorkerObservation),
      ∃ used, used.Sublist obs ∧
        List.Forall₂ (fun o k => o.local_work < T ∧ o.response = some k ∧ k ≠ -1) used
          (worker_distribute T obs).pushed) ∧
    (∀ q q1, node_step T LOAD_WORKERS_PER_NODE q .push = some q1 →
      ∃ v, q.local_work = some v ∧ v < T ∧ q1.load_work = q.load_work + 1) ∧
    (∀ (actions : List NodeAction) (q : NodeQueues),
      node_run T LOAD_WORKERS_PER_NODE (node_init GPUS_PER_NODE) actions = some q →
      (q.queued : Int) + q.in_flight ≤ T + LOAD_WORKERS_PER_NODE + GPUS_PER_NODE ∧
      (q.queued : Int) ≤ T + LOAD_WORKERS_PER_NODE + GPUS_PER_NODE) := by
  refine ⟨fun n num_nodes obs next => master_distribute_agrees n T num_nodes obs next,
    fun obs => worker_distribute_agrees T obs, ?_, ?_⟩
  · intro q q1 h
    simp only [node_step] at h
    cases hl : q.local_work with
    | none => rw [hl] at h; simp at h
    | some v =>
      rw [hl] at h
      simp only at h
      split_ifs at h with hv
      simp only [Option.some.injEq] at h
      subst h
      exact ⟨v, rfl, hv, rfl⟩
  · intro actions q h
    have h0 : (node_init GPUS_PER_NODE).queued = 0 := by
      simp [NodeQueues.queued, node_init]
    have h1 : (node_init GPUS_PER_NODE).in_flight = 0 := by
      simp only [NodeQueues.in_flight, node_init, Nat.zero_add]
      rw [List.count_eq_zero]
      intro hm
      have := List.eq_of_mem_replicate hm
      simp at this
    have hb := (node_run_bound T LOAD_WORKERS_PER_NODE GPUS_PER_NODE hT actions
      (node_init GPUS_PER_NODE) q h ⟨Nat.zero_le _, by simp [node_init], ?_, ?_⟩).2.2.1
    · exact ⟨hb, by omega⟩
    · rw [h0, h1]
      push_cast
      omega
    · intro v hv
      simp [node_init] at hv

/-- Witness of C16 (amended): with `T = 1`, one load worker and one GPU the run
`sample_node_actions_full` is possible and ends with 3 entries queued, the
bound `T + LOAD_WORKERS_PER_NODE + GPUS_PER_NODE`. -/
theorem queued_work_bounded_witness :
    ∃ q, node_run 1 1 (node_init 1) sample_node_actions_full = some q ∧ q.queued = 3 ∧
      (q.queued : Int) ≤ 1 + (1 : Nat) + (1 : Nat) :=
  ⟨_, rfl, rfl,
    ((queued_work_bounded 1 1 1 (by decide) (by decide)).2.2.2 sample_node_actions_full _
      rfl).2⟩

/-- Counterexample to C16 as stated: with `T = 1` the coordinator pushes an
entry, a load worker pops it, the coordinator observes empty queues and pushes
a second entry, and the load worker pushes its entry on `decode_work`: every
push followed an observation below `T`, and 2 entries are queued. -/
theorem queued_work_exceeds_threshold :
    node_run 1 1 (node_init 1) sample_node_actions =
      some { load_work := 1, decode_work := 1, eval_work := [0], local_work := none,
             load_held := 0, decode_held := [false] } ∧
    ∃ q, node_run 1 1 (node_init 1) sample_node_actions = some q ∧
      ¬ (q.queued : Int) ≤ 1 :=
  ⟨rfl, _, rfl, by decide⟩

end Lightscan
